import Mathlib

/-!
# TriTone: the processor orchestrator

A shallow embedding of `src/processor_orchestrator.cpp`: the module registry
(`add_processor_module`, `delete_processor`, `clear`, `terminate`), the routing
entry points (`process_input_event`, `process_input_audio`, `parameter_changed`)
and the block processing (`process` and the recursive traversal that the spec
calls the push traversal, here `push`).

Modules are objects behind `std::shared_ptr`; the orchestrator only holds
pointers to them and talks to them through virtual calls whose bodies are not
part of the orchestrator. The embedding therefore keeps

* the orchestrator's own fields (`processor_orchestrator`),
* every module's list of outgoing links (`State.links`),
* the history of the calls made on modules (`State.trace`), and
* the block's output accumulator (`State.output`).

What a module answers to a query (`can_process`, `get_output_values`) and what
its `process` does to the output accumulator is a function of that history;
these functions are collected in `World` and are arbitrary unless a theorem
constrains them.

Every operation returns a `Run`: the state it reached and how it ended. An
operation ends with `Status.undefined_behaviour` where the C++ code would
dereference a null pointer or index an array past its capacity. The recursion of
`push` is bounded by a budget; a run that uses it up ends with
`Status.out_of_fuel`.

Line numbers refer to `src/processor_orchestrator.cpp`.
-/

namespace TriTone

/-! ## Data model -/

/-- The identity of a module object (the address a `shared_ptr` holds). -/
abbrev ModulePtr := Nat

/-- The values of `processor_module_type` the orchestrator tests for, and the rest. -/
inductive processor_module_type
  | event_input
  | audio_input
  | other
  deriving DecidableEq, Repr

/-- A `module_link`, in the field order of the structured binding at line 296:
`[enabled, source_slot_id, target_module, target_slot_id]`. `target_module` is a
`shared_ptr`, `none` is the null pointer. -/
structure module_link where
  enabled : Bool
  source_slot_id : Nat
  target_module : Option ModulePtr
  target_slot_id : Nat
  deriving DecidableEq, Repr

/-- What a `module_output*` may point to: the `float_module_output(id, value)` that
`parameter_changed` builds, or an output object owned by a module (a handle). -/
inductive module_output (α : Type)
  | float_module_output (id : Nat) (value : α)
  | owned (handle : Nat)
  deriving DecidableEq, Repr

/-- A `std::array<module_output*, 32>`: its entries in order, `none` for a null pointer. -/
abbrev output_array (α : Type) := List (Option (module_output α))

/-- The tags of `event::type` in the order of the `switch` at lines 219-246. -/
inductive event_type
  | note_on
  | note_off
  | data_event
  | poly_pressure_event
  | note_expression_value_event
  | note_expression_text_event
  | chord_event
  | scale_event
  | legacy_midi_cc_out_event
  deriving DecidableEq, Repr

/-- The members of the union `event::core_event` that the orchestrator reads
(`note_on` and `note_off`, both of type `note_event`, here `ν`). -/
structure core_event (ν : Type) where
  note_on : ν
  note_off : ν

/-- A host event: bus index, tag and payload. -/
structure event (ν : Type) where
  bus_index : Int
  type : event_type
  core_event : core_event ν

/-- One call made on a module object. `α` is the type of parameter values, `ν` the
type of a note event; an audio buffer pointer is a number. -/
inductive Call (α ν : Type)
  | preprocess (m : ModulePtr)
  | process (m : ModulePtr)
  | get_output_values (m : ModulePtr) (slot_id : Nat)
  | set_input_values (m : ModulePtr) (slot_id : Nat) (values : output_array α) (nb_values : Nat)
  | unlink (m : ModulePtr) (target : Option ModulePtr)
  | note_on (m : ModulePtr) (e : ν)
  | note_off (m : ModulePtr) (e : ν)
  | set_buffer (m : ModulePtr) (buffer : Nat)
  deriving DecidableEq, Repr

/-- The fields of `processor_orchestrator` (constructor at lines 28-36). The three
arrays are indexed from 0; `none` is a null `shared_ptr`. Every access checks the
index against the array's capacity, see `max_nb_modules` and `World.max_nb_sources`. -/
structure processor_orchestrator where
  nb_modules_ : Nat
  processor_modules_ : Nat → Option ModulePtr
  nb_midi_input_modules_ : Nat
  sources_midi_input_modules_ : Nat → Option ModulePtr
  nb_audio_input_modules_ : Nat
  sources_audio_input_modules_ : Nat → Option ModulePtr
  bypass_ : Bool

/-- Capacity of `processor_modules_` (`std::array<std::shared_ptr<processor_module>, 128>`,
line 160). -/
def max_nb_modules : Nat := 128

/-- The orchestrator, the link lists of the modules, the calls made so far and the
output accumulator of the block context. -/
structure State (α ν O : Type) where
  orchestrator : processor_orchestrator
  links : ModulePtr → List module_link
  trace : List (Call α ν)
  output : O

/-- What the orchestrator cannot see of the modules. `max_nb_sources` is the capacity
of the two source arrays, which is declared in `processor_orchestrator.hpp`.
`is_midi_input` and `is_audio_input` tell whether `dynamic_pointer_cast` to
`midi_input` or `audio_input` succeeds. -/
structure World (α ν O : Type) where
  max_nb_sources : Nat
  get_type : ModulePtr → processor_module_type
  is_midi_input : ModulePtr → Bool
  is_audio_input : ModulePtr → Bool
  can_process : ModulePtr → (ModulePtr → List module_link) → List (Call α ν) → Bool
  process : ModulePtr → List (Call α ν) → O → O
  get_output_values : ModulePtr → Nat → List (Call α ν) → output_array α × Nat

/-- How a run ended: normally, with the recursion budget of the model used up, at
an operation whose behaviour C++ leaves undefined (a null pointer dereferenced, an
array indexed past its capacity), or with a C++ exception that left the operation.
Only `push_raising` and `process_raising`, in which the `process` of a module may throw,
end in `raised`. -/
inductive Status
  | ok
  | out_of_fuel
  | undefined_behaviour
  | raised
  deriving DecidableEq, Repr

/-- The result of running an operation: how it ended and the state it reached. -/
structure Run (σ : Type) where
  status : Status
  state : σ

/-- Normal completion. -/
def Run.ok {σ : Type} (s : σ) : Run σ := ⟨Status.ok, s⟩

/-- The operation stopped at undefined behaviour in state `s`. -/
def Run.undefined {σ : Type} (s : σ) : Run σ := ⟨Status.undefined_behaviour, s⟩

/-- Sequencing: `f` runs only if `r` completed normally. -/
def Run.andThen {σ : Type} (r : Run σ) (f : σ → Run σ) : Run σ :=
  match r.status with
  | Status.ok => f r.state
  | _ => r

/-- A loop `for (int i = i0; ...; i++)` that runs `count` times. -/
def for_loop {σ : Type} (body : Nat → σ → Run σ) : Nat → Nat → σ → Run σ
  | 0, _, s => Run.ok s
  | count + 1, i, s => (body i s).andThen (for_loop body count (i + 1))

/-- Assignment `a[i] = v` to an array. -/
def array_set {β : Type} (a : Nat → β) (i : Nat) (v : β) : Nat → β :=
  fun j => if j = i then v else a j

/-- Appends one call to the history. -/
def State.call {α ν O : Type} (st : State α ν O) (c : Call α ν) : State α ν O :=
  { st with trace := st.trace ++ [c] }

/-! ## Registry operations -/

/-- The orchestrator after the constructor (lines 28-36). -/
def processor_orchestrator.new : processor_orchestrator :=
  { nb_modules_ := 0
    processor_modules_ := fun _ => none
    nb_midi_input_modules_ := 0
    sources_midi_input_modules_ := fun _ => none
    nb_audio_input_modules_ := 0
    sources_audio_input_modules_ := fun _ => none
    bypass_ := false }

/-- Lines 107-123, `add_processor_module(std::shared_ptr<processor_module>)`. -/
def add_processor_module {α ν O : Type} (w : World α ν O) (processor : Option ModulePtr)
    (st : State α ν O) : Run (State α ν O) :=
  match processor with
  | none => Run.undefined st
  | some p =>
    let midi : Run (State α ν O) :=
      if w.get_type p = processor_module_type.event_input then
        if st.orchestrator.nb_midi_input_modules_ < w.max_nb_sources then
          Run.ok { st with orchestrator := { st.orchestrator with
            sources_midi_input_modules_ :=
              array_set st.orchestrator.sources_midi_input_modules_
                st.orchestrator.nb_midi_input_modules_
                (if w.is_midi_input p then some p else none)
            nb_midi_input_modules_ := st.orchestrator.nb_midi_input_modules_ + 1 } }
        else Run.undefined st
      else Run.ok st
    midi.andThen fun st1 =>
    let audio : Run (State α ν O) :=
      if w.get_type p = processor_module_type.audio_input then
        if st1.orchestrator.nb_audio_input_modules_ < w.max_nb_sources then
          Run.ok { st1 with orchestrator := { st1.orchestrator with
            sources_audio_input_modules_ :=
              array_set st1.orchestrator.sources_audio_input_modules_
                st1.orchestrator.nb_audio_input_modules_
                (if w.is_audio_input p then some p else none)
            nb_audio_input_modules_ := st1.orchestrator.nb_audio_input_modules_ + 1 } }
        else Run.undefined st1
      else Run.ok st1
    audio.andThen fun st2 =>
    if st2.orchestrator.nb_modules_ < max_nb_modules then
      Run.ok { st2 with orchestrator := { st2.orchestrator with
        processor_modules_ :=
          array_set st2.orchestrator.processor_modules_ st2.orchestrator.nb_modules_ (some p)
        nb_modules_ := st2.orchestrator.nb_modules_ + 1 } }
    else Run.undefined st2

/-- Modelled from the spec: `processor_module::unlink(module)`, whose body is in the
module classes and not in the orchestrator. The spec has deletion remove "every link
in every other module that targets" the deleted module, so the call drops from the
link list of `m` every link whose target is `target`. -/
def unlink_module {α ν O : Type} (m : ModulePtr) (target : Option ModulePtr)
    (st : State α ν O) : State α ν O :=
  { st with
    links := fun x =>
      if x = m then (st.links m).filter (fun l => decide (l.target_module ≠ target))
      else st.links x
    trace := st.trace ++ [Call.unlink m target] }

/-- Body of the loop at lines 130-134. -/
def delete_unlink_body {α ν O : Type} (module_to_delete : Option ModulePtr) (i : Nat)
    (st : State α ν O) : Run (State α ν O) :=
  if i < max_nb_modules then
    match st.orchestrator.processor_modules_ i with
    | none => Run.undefined st
    | some current_module => Run.ok (unlink_module current_module module_to_delete st)
  else Run.undefined st

/-- Body of the loop at lines 137-140. -/
def delete_shift_body {α ν O : Type} (i : Nat) (st : State α ν O) : Run (State α ν O) :=
  if i + 1 < max_nb_modules then
    Run.ok { st with orchestrator := { st.orchestrator with
      processor_modules_ :=
        array_set st.orchestrator.processor_modules_ i
          (st.orchestrator.processor_modules_ (i + 1)) } }
  else Run.undefined st

/-- Lines 125-143, `delete_processor(uint_fast8_t id)`. Both loops compare the `int`
counter with `nb_modules_ - 1` computed in `int`, so they run while `i + 1 < nb_modules_`;
the final `nb_modules_--` is taken modulo 256 (`uint_fast8_t` of 8 bits). -/
def delete_processor {α ν O : Type} (id : Nat) (st : State α ν O) : Run (State α ν O) :=
  if id < max_nb_modules then
    let module_to_delete := st.orchestrator.processor_modules_ id
    let n := st.orchestrator.nb_modules_
    (for_loop (delete_unlink_body module_to_delete) (n - 1) 0 st).andThen fun st1 =>
    (for_loop delete_shift_body (n - 1 - id) id st1).andThen fun st2 =>
    Run.ok { st2 with orchestrator := { st2.orchestrator with
      nb_modules_ := (st2.orchestrator.nb_modules_ + 255) % 256 } }
  else Run.undefined st

/-- Lines 145-148. -/
def get_nb_processors {α ν O : Type} (st : State α ν O) : Nat :=
  st.orchestrator.nb_modules_

/-- Lines 150-153. -/
def clear {α ν O : Type} (st : State α ν O) : State α ν O :=
  { st with orchestrator := { st.orchestrator with nb_modules_ := 0 } }

/-- Lines 155-158, `get_processor(int id)`. -/
def get_processor {α ν O : Type} (id : Int) (st : State α ν O) : Option (Option ModulePtr) :=
  if 0 ≤ id ∧ id < max_nb_modules then some (st.orchestrator.processor_modules_ id.toNat)
  else none

/-- Body of the loop at lines 189-195. -/
def terminate_body {α ν O : Type} (i : Nat) (st : State α ν O) : Run (State α ν O) :=
  if i < max_nb_modules then
    Run.ok { st with orchestrator := { st.orchestrator with
      processor_modules_ := array_set st.orchestrator.processor_modules_ i none } }
  else Run.undefined st

/-- Lines 186-200. -/
def terminate {α ν O : Type} (st : State α ν O) : Run (State α ν O) :=
  (for_loop terminate_body st.orchestrator.nb_modules_ 0 st).andThen fun st1 =>
  Run.ok { st1 with orchestrator := { st1.orchestrator with
    nb_modules_ := 0
    nb_midi_input_modules_ := 0
    nb_audio_input_modules_ := 0 } }

/-! ## Routing of events, buffers and parameters -/

/-- Lines 324-327: the entry of `sources_midi_input_modules_` at the event's bus
index, `none` when the index is outside the array. -/
def get_midi_input_module_for_event {α ν O : Type} (w : World α ν O) (e : event ν)
    (st : State α ν O) : Option (Option ModulePtr) :=
  if 0 ≤ e.bus_index ∧ e.bus_index < w.max_nb_sources then
    some (st.orchestrator.sources_midi_input_modules_ e.bus_index.toNat)
  else none

/-- Lines 329-332. -/
def get_audio_input_module_for_buffer {α ν O : Type} (w : World α ν O) (buffer_id : Int)
    (st : State α ν O) : Option (Option ModulePtr) :=
  if 0 ≤ buffer_id ∧ buffer_id < w.max_nb_sources then
    some (st.orchestrator.sources_audio_input_modules_ buffer_id.toNat)
  else none

/-- A call through a `shared_ptr`: undefined on the null pointer. -/
def call_on {α ν O : Type} (p : Option ModulePtr) (c : ModulePtr → Call α ν)
    (st : State α ν O) : Run (State α ν O) :=
  match p with
  | none => Run.undefined st
  | some m => Run.ok (st.call (c m))

/-- Lines 216-247. -/
def process_input_event {α ν O : Type} (w : World α ν O) (e : event ν)
    (st : State α ν O) : Run (State α ν O) :=
  match get_midi_input_module_for_event w e st with
  | none => Run.undefined st
  | some midi_input_module =>
    match e.type with
    | event_type.note_on =>
      call_on midi_input_module (fun m => Call.note_on m e.core_event.note_on) st
    | event_type.note_off =>
      call_on midi_input_module (fun m => Call.note_off m e.core_event.note_off) st
    | event_type.data_event =>
      call_on midi_input_module (fun m => Call.note_off m e.core_event.note_off) st
    | event_type.poly_pressure_event => Run.ok st
    | event_type.note_expression_value_event => Run.ok st
    | event_type.note_expression_text_event => Run.ok st
    | event_type.chord_event => Run.ok st
    | event_type.scale_event => Run.ok st
    | event_type.legacy_midi_cc_out_event => Run.ok st

/-- Lines 249-253. -/
def process_input_audio {α ν O : Type} (w : World α ν O) (buffer : Nat) (buffer_id : Int)
    (st : State α ν O) : Run (State α ν O) :=
  match get_audio_input_module_for_buffer w buffer_id st with
  | none => Run.undefined st
  | some audio_input => call_on audio_input (fun m => Call.set_buffer m buffer) st

/-- The array `input_values = { &input }` of line 319: the address of the one value,
then 31 null pointers. -/
def single_input_values {α : Type} (parameter_value : α) : output_array α :=
  some (module_output.float_module_output 0 parameter_value) :: List.replicate 31 none

/-- Lines 313-322. `component_id` and `component_parameter_id` are `unsigned int`. -/
def parameter_changed {α ν O : Type} (parameter_id : Nat) (_sample_offset : Int)
    (parameter_value : α) (st : State α ν O) : Run (State α ν O) :=
  let component_id := (parameter_id >>> 16) % 2 ^ 32
  let component_parameter_id := (parameter_id &&& 0xffff) % 2 ^ 32
  if component_id < max_nb_modules then
    call_on (st.orchestrator.processor_modules_ component_id)
      (fun m => Call.set_input_values m component_parameter_id
        (single_input_values parameter_value) 1) st
  else Run.undefined st

/-! ## Block processing -/

/-- Body of the loop at lines 294-309 for one link of `source_module`; `push` is the
recursive call of line 308. `nb_outputs` is a `uint_fast8_t`. -/
def push_link {α ν O : Type} (w : World α ν O)
    (push : Option ModulePtr → State α ν O → Run (State α ν O))
    (source_module : ModulePtr) (l : module_link) (st : State α ν O) : Run (State α ν O) :=
  let source_output_values := (w.get_output_values source_module l.source_slot_id st.trace).1
  let nb_outputs := (w.get_output_values source_module l.source_slot_id st.trace).2 % 256
  let st1 := st.call (Call.get_output_values source_module l.source_slot_id)
  match l.target_module with
  | none => Run.undefined st1
  | some target_module =>
    push (some target_module)
      (st1.call (Call.set_input_values target_module l.target_slot_id
        source_output_values nb_outputs))

/-- The loop at lines 294-309 over the links of `source_module`. -/
def push_links {α ν O : Type} (w : World α ν O)
    (push : Option ModulePtr → State α ν O → Run (State α ν O))
    (source_module : ModulePtr) : List module_link → State α ν O → Run (State α ν O)
  | [], st => Run.ok st
  | l :: rest, st =>
    (push_link w push source_module l st).andThen (push_links w push source_module rest)

/-- Lines 278-311, `process(std::shared_ptr<processor_module>, output_process_data&)`,
the push traversal. The first argument bounds the depth of the recursion. -/
def push {α ν O : Type} (w : World α ν O) :
    Nat → Option ModulePtr → State α ν O → Run (State α ν O)
  | 0, _, st => ⟨Status.out_of_fuel, st⟩
  | _ + 1, none, st => Run.undefined st
  | fuel + 1, some source_module, st =>
    if w.can_process source_module st.links st.trace then
      let st1 : State α ν O :=
        { st with
          trace := st.trace ++ [Call.process source_module]
          output := w.process source_module st.trace st.output }
      push_links w (push w fuel) source_module (st1.links source_module) st1
    else Run.ok st

/-- Body of the loop at lines 258-262. -/
def preprocess_body {α ν O : Type} (i : Nat) (st : State α ν O) : Run (State α ν O) :=
  if i < max_nb_modules then
    call_on (st.orchestrator.processor_modules_ i) Call.preprocess st
  else Run.undefined st

/-- Body of the loop at lines 263-268. -/
def push_midi_body {α ν O : Type} (w : World α ν O) (fuel : Nat) (i : Nat)
    (st : State α ν O) : Run (State α ν O) :=
  if i < w.max_nb_sources then
    push w fuel (st.orchestrator.sources_midi_input_modules_ i) st
  else Run.undefined st

/-- Body of the loop at lines 269-274. -/
def push_audio_body {α ν O : Type} (w : World α ν O) (fuel : Nat) (i : Nat)
    (st : State α ν O) : Run (State α ν O) :=
  if i < w.max_nb_sources then
    push w fuel (st.orchestrator.sources_audio_input_modules_ i) st
  else Run.undefined st

/-- Lines 255-276, `process(output_process_data&)`. -/
def process {α ν O : Type} (w : World α ν O) (fuel : Nat) (st : State α ν O) :
    Run (State α ν O) :=
  if !st.orchestrator.bypass_ then
    (for_loop preprocess_body st.orchestrator.nb_modules_ 0 st).andThen fun st1 =>
    (for_loop (push_midi_body w fuel) st1.orchestrator.nb_midi_input_modules_ 0 st1).andThen
      fun st2 =>
    for_loop (push_audio_body w fuel) st2.orchestrator.nb_audio_input_modules_ 0 st2
  else Run.ok st

/-! ## The readiness contract of the modules -/

/-- The deliveries a module `m` has received from links since its last `preprocess`,
read off a history given newest call first. A delivery over a link is the pair of calls
of lines 301-305: `get_output_values(source_slot)` on the source module, directly
followed by `set_input_values(target_slot, ...)` on the target. Each delivery is
reported as (source module, source slot, target slot). -/
def recent_deliveries {α ν : Type} (m : ModulePtr) :
    List (Call α ν) → List (ModulePtr × Nat × Nat)
  | [] => []
  | c :: rest =>
    match c with
    | Call.preprocess x => if x = m then [] else recent_deliveries m rest
    | Call.set_input_values t ts _ _ =>
      match rest.head? with
      | some (Call.get_output_values p s) =>
        if t = m then (p, s, ts) :: recent_deliveries m rest else recent_deliveries m rest
      | _ => recent_deliveries m rest
    | _ => recent_deliveries m rest

/-- How often the link `l` of module `p` has delivered to its target since the target's
last `preprocess`, in the history `h` (oldest call first). -/
def delivery_count {α ν : Type} (h : List (Call α ν)) (p : ModulePtr) (l : module_link) : Nat :=
  match l.target_module with
  | none => 0
  | some m => (recent_deliveries m h.reverse).count (p, l.source_slot_id, l.target_slot_id)

/-- The readiness contract of the spec (section 4.1, `can_process`): a module is ready
exactly when every enabled incoming link has delivered since the module's last
`preprocess`; a module without enabled incoming link is therefore always ready. -/
def ReadinessContract {α ν O : Type} (w : World α ν O)
    (links : ModulePtr → List module_link) : Prop :=
  ∀ (h : List (Call α ν)) (m : ModulePtr),
    w.can_process m links h = true ↔
      ∀ p l, l ∈ links p → l.enabled = true → l.target_module = some m →
        1 ≤ delivery_count h p l

/-- Modelled from the spec: `processor_module::can_process`, whose body is in the module
classes. It is the readiness contract made executable for a graph whose links all start
at one of `modules`. -/
def ready {α ν : Type} (modules : List ModulePtr) (m : ModulePtr)
    (links : ModulePtr → List module_link) (h : List (Call α ν)) : Bool :=
  modules.all fun p => (links p).all fun l =>
    !l.enabled || !decide (l.target_module = some m) || decide (1 ≤ delivery_count h p l)

/-- How often `process` was called on `m` in the calls `t`. -/
def process_count {α ν : Type} (m : ModulePtr) (t : List (Call α ν)) : Nat :=
  t.countP fun c =>
    match c with
    | Call.process x => decide (x = m)
    | _ => false

/-- The source modules in the order in which `process` pushes them: the event sources,
then the audio sources. -/
def source_modules (o : processor_orchestrator) : List (Option ModulePtr) :=
  (List.range o.nb_midi_input_modules_).map o.sources_midi_input_modules_ ++
    (List.range o.nb_audio_input_modules_).map o.sources_audio_input_modules_

/-- A directed path along links: `link_path links a b` holds the lists of modules visited
after `a` on a way from `a` to `b`. -/
def link_path (links : ModulePtr → List module_link) : ModulePtr → List ModulePtr → Prop
  | _, [] => True
  | a, b :: rest => (∃ l, l ∈ links a ∧ l.target_module = some b) ∧ link_path links b rest

/-- The modules that the sources drive: a source module, or a module that has an
incoming link and all of whose parents are driven. -/
inductive Driven (links : ModulePtr → List module_link) (sources : List (Option ModulePtr)) :
    ModulePtr → Prop
  | source (m : ModulePtr) : some m ∈ sources → Driven links sources m
  | inner (m : ModulePtr) :
      (∃ p l, l ∈ links p ∧ l.target_module = some m) →
      (∀ p l, l ∈ links p → l.target_module = some m → Driven links sources p) →
      Driven links sources m

/-! ## Predicates on histories -/

/-- Every `process` call in `t`, made after the history `h`, was made on a module whose
`can_process` held on the history up to that call. -/
def Gated {α ν O : Type} (w : World α ν O) (links : ModulePtr → List module_link) (h t : List (Call α ν)) :
    Prop :=
  ∀ pre x post, t = pre ++ Call.process x :: post → w.can_process x links (h ++ pre) = true

/-- The traversal only appends to the history, and what it appends is gated. -/
def Extends {α ν O : Type} (w : World α ν O) (st st' : State α ν O) : Prop :=
  st'.links = st.links ∧ st'.orchestrator = st.orchestrator ∧
    ∃ t, st'.trace = st.trace ++ t ∧ Gated w st.links st.trace t

/-- The module `m` has an incoming link. -/
def HasIncoming (links : ModulePtr → List module_link) (m : ModulePtr) : Prop :=
  ∃ p l, l ∈ links p ∧ l.target_module = some m

/-- Every link into `m` has delivered since the last `preprocess` of `m`. -/
def AllDelivered {α ν : Type} (links : ModulePtr → List module_link) (h : List (Call α ν))
    (m : ModulePtr) : Prop :=
  ∀ p l, l ∈ links p → l.target_module = some m → 1 ≤ delivery_count h p l

/-- What holds of the history `h` and of the calls `t` of the current block at every
point of the traversal: no module was processed twice, no link has delivered more
often than its source was processed, a processed module is one of the sources pushed so
far (`S`) or has an incoming link, and all links into a processed module have delivered. -/
structure BlockInv {α ν : Type} (links : ModulePtr → List module_link) (S : ModulePtr → Prop)
    (h t : List (Call α ν)) : Prop where
  once : ∀ m, process_count m t ≤ 1
  slack : ∀ p l, l ∈ links p → delivery_count h p l ≤ process_count p t
  origin : ∀ m, 1 ≤ process_count m t → S m ∨ HasIncoming links m
  fed : ∀ m, 1 ≤ process_count m t → AllDelivered links h m

/-- What a part of the traversal that starts in `st` (with `t` the calls of the block so
far) achieves when it ends in `r` after the calls `t2`; `extra p l` is 1 for the links
the part had to deliver itself. -/
structure Advance {α ν O : Type} (links : ModulePtr → List module_link) (S : ModulePtr → Prop)
    (st : State α ν O) (t : List (Call α ν)) (r : Run (State α ν O)) (t2 : List (Call α ν))
    (extra : ModulePtr → module_link → Nat) : Prop where
  status : r.status = Status.ok
  links_eq : r.state.links = st.links
  orchestrator_eq : r.state.orchestrator = st.orchestrator
  trace_eq : r.state.trace = st.trace ++ t2
  inv : BlockInv links S r.state.trace (t ++ t2)
  mono : ∀ p l, delivery_count st.trace p l ≤ delivery_count r.state.trace p l
  frame : ∀ p l, l ∈ links p →
    delivery_count r.state.trace p l + process_count p t ≤
      delivery_count st.trace p l + process_count p (t ++ t2) + extra p l
  complete : ∀ x, process_count x t = 0 → 1 ≤ process_count x (t ++ t2) →
    ∀ l, l ∈ links x → 1 ≤ delivery_count r.state.trace x l
  answered : ∀ x, HasIncoming links x → AllDelivered links r.state.trace x →
    1 ≤ process_count x (t ++ t2)

/-- What holds between two pushes of source modules: the state differs from the one
before the block only by the calls made, the calls `t` made since the `preprocess` loop
satisfy `BlockInv`, every processed module has delivered over all its links, every
module with incoming links that have all delivered was processed, and the sources
pushed so far (`S`) were processed. `base` is the history at the end of the `preprocess`
loop. -/
def Quiet {α ν O : Type} (links : ModulePtr → List module_link) (S : ModulePtr → Prop)
    (o : processor_orchestrator) (base : List (Call α ν)) (s : State α ν O) : Prop :=
  s.links = links ∧ s.orchestrator = o ∧
    ∃ t, s.trace = base ++ t ∧ BlockInv links S s.trace t ∧
      (∀ x, 1 ≤ process_count x t → ∀ l, l ∈ links x → 1 ≤ delivery_count s.trace x l) ∧
      (∀ x, HasIncoming links x → AllDelivered links s.trace x → 1 ≤ process_count x t) ∧
      (∀ x, S x → 1 ≤ process_count x t)

/-- No directed cycle: no path along links leads from a module back to it. -/
def NoCycle (links : ModulePtr → List module_link) : Prop :=
  ∀ m path, path ≠ [] → link_path links m path → path.getLast? ≠ some m

/-- The length of the longest path of at most `k` links that leaves `m`. -/
def height (links : ModulePtr → List module_link) : Nat → ModulePtr → Nat
  | 0, _ => 0
  | k + 1, m =>
    ((links m).map fun l =>
      match l.target_module with
      | some t => height links k t + 1
      | none => 0).foldr max 0

/-- The registered modules in the order of their indices. -/
def registered_modules (o : processor_orchestrator) : List ModulePtr :=
  (List.range o.nb_modules_).filterMap o.processor_modules_

/-! ## Sequences of registry operations -/

/-- The operations that edit the registry of modules. -/
inductive registry_op
  | add (p : ModulePtr)
  | delete (id : Nat)
  | clear
  | terminate
  deriving DecidableEq, Repr

/-- Runs one registry operation. -/
def registry_op.run {α ν O : Type} (w : World α ν O) :
    registry_op → State α ν O → Run (State α ν O)
  | registry_op.add p => add_processor_module w (some p)
  | registry_op.delete id => delete_processor id
  | registry_op.clear => fun st => Run.ok (TriTone.clear st)
  | registry_op.terminate => TriTone.terminate

/-- Runs registry operations one after the other. -/
def run_ops {α ν O : Type} (w : World α ν O) :
    List registry_op → State α ν O → Run (State α ν O)
  | [], st => Run.ok st
  | op :: rest, st => (op.run w st).andThen (run_ops w rest)

/-! ## Example graphs -/

/-- A graph given by a table: the link list of each module that has links. -/
def links_of (table : List (ModulePtr × List module_link)) (p : ModulePtr) :
    List module_link :=
  match table.lookup p with
  | some ls => ls
  | none => []

/-- A world for the examples: modules are ready by the readiness contract, `process`
appends the module to the output accumulator, and every output slot holds one value. -/
def example_world (modules event_sources audio_sources : List ModulePtr) :
    World ℚ Nat (List ModulePtr) :=
  { max_nb_sources := 128
    get_type := fun p =>
      if p ∈ event_sources then processor_module_type.event_input
      else if p ∈ audio_sources then processor_module_type.audio_input
      else processor_module_type.other
    is_midi_input := fun p => decide (p ∈ event_sources)
    is_audio_input := fun p => decide (p ∈ audio_sources)
    can_process := ready modules
    process := fun m _ out => out ++ [m]
    get_output_values := fun m slot_id _ => ([some (module_output.owned (32 * m + slot_id))], 1) }

/-- The state after the constructor, with the given link lists. -/
def State.new (links : ModulePtr → List module_link) : State ℚ Nat (List ModulePtr) :=
  { orchestrator := processor_orchestrator.new
    links := links
    trace := []
    output := [] }

/-- An enabled link. -/
def link_to (source_slot_id : Nat) (target : ModulePtr) (target_slot_id : Nat) : module_link :=
  { enabled := true, source_slot_id := source_slot_id, target_module := some target,
    target_slot_id := target_slot_id }

/-- Checks that a link has a target and that the target ranks below the source. -/
def link_descends (rank : ModulePtr → Nat) (p : ModulePtr) (l : module_link) : Bool :=
  match l.target_module with
  | some t => decide (rank t < rank p)
  | none => false

/-- Checks that a link has a target and that the target is a registered module. -/
def link_registered (o : processor_orchestrator) (l : module_link) : Bool :=
  match l.target_module with
  | some t => decide (t ∈ registered_modules o)
  | none => false

/-- The diamond of the spec: A = 0 is an event source, B = 1, C = 2, D = 3 and the
links are A->B, A->C, B->D, C->D. -/
def diamond_table : List (ModulePtr × List module_link) :=
  [(0, [link_to 0 1 0, link_to 0 2 0]), (1, [link_to 0 3 0]), (2, [link_to 0 3 1])]

/-- The world of the diamond. -/
def diamond_world : World ℚ Nat (List ModulePtr) := example_world [0, 1, 2, 3] [0] []

/-- The diamond, registered in the order A, B, C, D. -/
def diamond : State ℚ Nat (List ModulePtr) :=
  (run_ops diamond_world
    [registry_op.add 0, registry_op.add 1, registry_op.add 2, registry_op.add 3]
    (State.new (links_of diamond_table))).state

/-- The rank of the modules of the diamond, and of the graphs below: A above B and C,
these above D. -/
def diamond_rank (m : ModulePtr) : Nat := 4 - m

/-- The diamond with one more parent of D: the plain module E = 4, registered, not a
source and without incoming link, has a link E->D. -/
def fed_diamond_table : List (ModulePtr × List module_link) :=
  [(0, [link_to 0 1 0, link_to 0 2 0]), (1, [link_to 0 3 0]), (2, [link_to 0 3 1]),
    (4, [link_to 0 3 2])]

/-- The world of the diamond with the parent E. -/
def fed_diamond_world : World ℚ Nat (List ModulePtr) := example_world [0, 1, 2, 3, 4] [0] []

/-- The diamond with the parent E, registered in the order A, B, C, D, E. -/
def fed_diamond : State ℚ Nat (List ModulePtr) :=
  (run_ops fed_diamond_world
    [registry_op.add 0, registry_op.add 1, registry_op.add 2, registry_op.add 3,
      registry_op.add 4]
    (State.new (links_of fed_diamond_table))).state

/-- The rank for the diamond with the parent E: E ranks above D. -/
def fed_diamond_rank (m : ModulePtr) : Nat := if m = 4 then 4 else 4 - m

/-- Two event sources 0 and 1 with an enabled link 0 -> 1. -/
def chained_sources_world : World ℚ Nat (List ModulePtr) := example_world [0, 1] [0, 1] []

/-- Two event sources 0 and 1, registered in this order, with the link 0 -> 1. -/
def chained_sources : State ℚ Nat (List ModulePtr) :=
  (run_ops chained_sources_world [registry_op.add 0, registry_op.add 1]
    (State.new (links_of [(0, [link_to 0 1 0])]))).state

/-- An event source A = 0 whose only link, to the plain module B = 1, is disabled. -/
def muted_world : World ℚ Nat (List ModulePtr) := example_world [0, 1] [0] []

/-- The graph A -> B with the link disabled, registered in the order A, B. -/
def muted : State ℚ Nat (List ModulePtr) :=
  (run_ops muted_world [registry_op.add 0, registry_op.add 1]
    (State.new (links_of [(0, [{ link_to 0 1 0 with enabled := false }])]))).state

/-- Two plain modules at the addresses 10 and 11, registered in this order; the second
has a link to the first. -/
def back_linked : State ℚ Nat (List ModulePtr) :=
  (run_ops (example_world [10, 11] [] []) [registry_op.add 10, registry_op.add 11]
    (State.new (links_of [(11, [link_to 0 10 0])]))).state

/-- An event source 5, a plain module 6 and two audio sources 7 and 8. -/
def studio_world : World ℚ Nat (List ModulePtr) := example_world [5, 6, 7, 8] [5] [7, 8]

/-- The operations that register the modules of `studio_world`. -/
def studio_ops : List registry_op :=
  [registry_op.add 5, registry_op.add 6, registry_op.add 7, registry_op.add 8]

/-- The state after `studio_ops`. -/
def studio : State ℚ Nat (List ModulePtr) :=
  (run_ops studio_world studio_ops (State.new (links_of []))).state

/-- The diamond with bypass switched on. -/
def bypassed_diamond : State ℚ Nat (List ModulePtr) :=
  { diamond with orchestrator := { diamond.orchestrator with bypass_ := true } }

/-- The event source A = 0 with enabled links to B = 1 and C = 2; C has a disabled link
to B. -/
def relay_table : List (ModulePtr × List module_link) :=
  [(0, [link_to 0 1 0, link_to 0 2 0]), (2, [{ link_to 0 1 1 with enabled := false }])]

/-- The world of the relay graph. -/
def relay_world : World ℚ Nat (List ModulePtr) := example_world [0, 1, 2] [0] []

/-- The relay graph, registered in the order A, B, C. -/
def relay : State ℚ Nat (List ModulePtr) :=
  (run_ops relay_world [registry_op.add 0, registry_op.add 1, registry_op.add 2]
    (State.new (links_of relay_table))).state

/-- A data event on bus 0 whose payload reads 1 as `note_on` and 2 as `note_off`. -/
def data_event_on_bus_0 : event Nat :=
  { bus_index := 0, type := event_type.data_event, core_event := { note_on := 1, note_off := 2 } }

/-- A poly-pressure event on bus 0. -/
def poly_pressure_on_bus_0 : event Nat :=
  { bus_index := 0, type := event_type.poly_pressure_event,
    core_event := { note_on := 1, note_off := 2 } }

/-- The event source A = 0 with the same link to B = 1 twice. -/
def doubled_world : World ℚ Nat (List ModulePtr) := example_world [0, 1] [0] []

/-- The graph with the doubled link, registered in the order A, B. -/
def doubled : State ℚ Nat (List ModulePtr) :=
  (run_ops doubled_world [registry_op.add 0, registry_op.add 1]
    (State.new (links_of [(0, [link_to 0 1 0, link_to 0 1 0])]))).state

/-- The table of the links A->B, A->X, B->X with A = 0, B = 1, X = 2. -/
def stale_table : List (ModulePtr × List module_link) :=
  [(0, [link_to 0 1 0, link_to 0 2 0]), (1, [link_to 0 2 1])]

/-- The world of the graph A->B, A->X, B->X. -/
def stale_world : World ℚ Nat (List ModulePtr) := example_world [0, 1, 2] [0] []

/-- The graph A->B, A->X, B->X in which only A and B are registered, after one block. -/
def stale : State ℚ Nat (List ModulePtr) :=
  (process stale_world 10
    (run_ops stale_world [registry_op.add 0, registry_op.add 1]
      (State.new (links_of stale_table))).state).state

/-! ## Views of the registry -/

/-- The event-source list: the entries of `sources_midi_input_modules_` below the
counter, in index order. -/
def event_source_list (o : processor_orchestrator) : List (Option ModulePtr) :=
  (List.range o.nb_midi_input_modules_).map o.sources_midi_input_modules_

/-- The audio-source list: the entries of `sources_audio_input_modules_` below the
counter, in index order. -/
def audio_source_list (o : processor_orchestrator) : List (Option ModulePtr) :=
  (List.range o.nb_audio_input_modules_).map o.sources_audio_input_modules_

/-- The module list: the entries of `processor_modules_` below the counter, in index
order. -/
def module_list (o : processor_orchestrator) : List (Option ModulePtr) :=
  (List.range o.nb_modules_).map o.processor_modules_


/-- The spec's derived view of the audio sources: the registered modules whose type is
`audio_input`, in the order of their indices. It is compared with `audio_source_list`,
which is what the code keeps. -/
def registered_audio_sources {α ν O : Type} (w : World α ν O) (o : processor_orchestrator) :
    List ModulePtr :=
  (registered_modules o).filter fun m => w.get_type m = processor_module_type.audio_input
/-! ## The factory and the link operations -/

/-- Lines 43-105, `add_processor_module(json)`. `type` is the `type` field of the
definition and `address` the address of the object that `make_shared` creates when a
branch of the chain at lines 48-95 is taken. When no branch is taken `processor` stays
the null pointer and `processor->initialize(...)` at line 97 dereferences it. The calls
of the constructor and of `initialize` are made on a module that is not registered yet
and are not entered in the history. -/
def add_processor_module_definition {α ν O : Type} (w : World α ν O) (type : String)
    (address : ModulePtr) (st : State α ν O) : Run (State α ν O) :=
  let processor : Option ModulePtr :=
    if type = "midi-in" then some address
    else if type = "audio-in" then some address
    else if type = "oscillator" then some address
    else if type = "envelope" then some address
    else if type = "multiplier" then some address
    else if type = "mixer" then some address
    else if type = "sample" then some address
    else if type = "audio-out" then some address
    else if type = "low-pass" then some address
    else if type = "high-pass" then some address
    else if type = "gain" then some address
    else if type = "recorder" then some address
    else none
  match processor with
  | none => Run.undefined st
  | some p => add_processor_module w (some p) st

/-- Replaces the link list of module `m`. -/
def set_links {α ν O : Type} (m : ModulePtr) (ls : List module_link) (st : State α ν O) :
    State α ν O :=
  { st with links := fun x => if x = m then ls else st.links x }

/-- Whether a link joins the given source slot to the given target and target slot. -/
def module_link.joins (l : module_link) (source_slot_id : Nat) (target : Option ModulePtr)
    (target_slot_id : Nat) : Bool :=
  decide (l.source_slot_id = source_slot_id ∧ l.target_module = target ∧
    l.target_slot_id = target_slot_id)

/-- Modelled from the spec: `processor_module::link(slot_id, target_module,
target_slot_id)`, whose body is in the module classes. The spec has a link stored as a
value in the source module's link list, carrying an enabled flag, the source slot and a
reference to the target module and its slot; the new link is enabled and goes to the end
of the list. The call is not entered in the history, its effect is the new link list. -/
def module_link_add {α ν O : Type} (m : ModulePtr) (source_slot_id : Nat)
    (target : Option ModulePtr) (target_slot_id : Nat) (st : State α ν O) : State α ν O :=
  set_links m (st.links m ++
    [{ enabled := true, source_slot_id := source_slot_id, target_module := target,
       target_slot_id := target_slot_id }]) st

/-- Modelled from the spec: `processor_module::unlink(slot_id, target_module,
target_slot_id)`: it takes the links that join the slot to the target slot out of the
link list of `m`. -/
def module_link_remove {α ν O : Type} (m : ModulePtr) (source_slot_id : Nat)
    (target : Option ModulePtr) (target_slot_id : Nat) (st : State α ν O) : State α ν O :=
  set_links m ((st.links m).filter fun l => !l.joins source_slot_id target target_slot_id) st

/-- Modelled from the spec: `processor_module::enable_link` and `disable_link`: they set
the enabled flag of the links that join the slot to the target slot, without removing
them. -/
def module_link_enable {α ν O : Type} (enabled : Bool) (m : ModulePtr) (source_slot_id : Nat)
    (target : Option ModulePtr) (target_slot_id : Nat) (st : State α ν O) : State α ν O :=
  set_links m ((st.links m).map fun l =>
    if l.joins source_slot_id target target_slot_id then { l with enabled := enabled } else l) st

/-- The pattern of lines 166-184: `processor_modules_[source_module_id]->f(source_slot_id,
processor_modules_[target_module_id], target_slot_id)`. Both ids index the module array;
the call goes through the source entry. -/
def on_source_module {α ν O : Type}
    (f : ModulePtr → Nat → Option ModulePtr → Nat → State α ν O → State α ν O)
    (source_module_id source_slot_id target_module_id target_slot_id : Nat)
    (st : State α ν O) : Run (State α ν O) :=
  if source_module_id < max_nb_modules ∧ target_module_id < max_nb_modules then
    match st.orchestrator.processor_modules_ source_module_id with
    | none => Run.undefined st
    | some m =>
      Run.ok (f m source_slot_id (st.orchestrator.processor_modules_ target_module_id)
        target_slot_id st)
  else Run.undefined st

/-- Lines 166-169. -/
def link_modules {α ν O : Type} (source_module_id source_slot_id target_module_id
    target_slot_id : Nat) (st : State α ν O) : Run (State α ν O) :=
  on_source_module module_link_add source_module_id source_slot_id target_module_id
    target_slot_id st

/-- Lines 171-174. -/
def unlink_modules {α ν O : Type} (source_module_id source_slot_id target_module_id
    target_slot_id : Nat) (st : State α ν O) : Run (State α ν O) :=
  on_source_module module_link_remove source_module_id source_slot_id target_module_id
    target_slot_id st

/-- Lines 176-179. -/
def enable_modules_link {α ν O : Type} (source_module_id source_slot_id target_module_id
    target_slot_id : Nat) (st : State α ν O) : Run (State α ν O) :=
  on_source_module (module_link_enable true) source_module_id source_slot_id target_module_id
    target_slot_id st

/-- Lines 181-184. -/
def disable_modules_link {α ν O : Type} (source_module_id source_slot_id target_module_id
    target_slot_id : Nat) (st : State α ν O) : Run (State α ν O) :=
  on_source_module (module_link_enable false) source_module_id source_slot_id target_module_id
    target_slot_id st

/-- A sequence of registry operations stays within the preconditions of the operations:
every operation completes, and every `delete_processor` names an index below the module
count. -/
def within_preconditions {α ν O : Type} (w : World α ν O) :
    List registry_op → State α ν O → Prop
  | [], _ => True
  | op :: rest, st =>
    (match op with
      | registry_op.delete id => id < st.orchestrator.nb_modules_
      | _ => True) ∧
    (op.run w st).status = Status.ok ∧ within_preconditions w rest (op.run w st).state

/-! ## Example registries -/

/-- A world with one event source, at address 5. -/
def solo_world : World ℚ Nat (List ModulePtr) := example_world [5] [5] []

/-- The event source 5 registered and then deleted with `delete_processor(0)`. -/
def deleted_source : State ℚ Nat (List ModulePtr) :=
  (run_ops solo_world [registry_op.add 5, registry_op.delete 0] (State.new (links_of []))).state

/-- The event source 5 registered, followed by `clear()`. -/
def cleared_source : State ℚ Nat (List ModulePtr) :=
  (run_ops solo_world [registry_op.add 5, registry_op.clear] (State.new (links_of []))).state

/-- A world of plain modules in which the module at address 200 is an event source. -/
def crowded_world : World ℚ Nat (List ModulePtr) := example_world [] [200] []

/-- The registry after 128 plain modules, at the addresses 0 to 127, were added to a new
orchestrator. -/
def crowded : State ℚ Nat (List ModulePtr) :=
  (run_ops crowded_world ((List.range 128).map registry_op.add) (State.new (links_of []))).state

/-- A new orchestrator without modules. -/
def empty_graph : State ℚ Nat (List ModulePtr) := State.new (links_of [])


/-- The studio after `delete_processor(2)`, which deletes module 7, the first audio
source: the modules 5, 6 and 8 stay registered. -/
def studio_after_delete : State ℚ Nat (List ModulePtr) :=
  (run_ops studio_world (studio_ops ++ [registry_op.delete 2]) (State.new (links_of []))).state

/-- The studio after `clear()` and a new registration of module 8: module 8 is the only
registered module. -/
def studio_after_clear : State ℚ Nat (List ModulePtr) :=
  (run_ops studio_world (studio_ops ++ [registry_op.clear, registry_op.add 8])
    (State.new (links_of []))).state

/-! ## The order of a block -/

/-- The spec's words for the second phase of a block, "the event-source modules are
pushed in registration order, all before any audio-source module": the pushes of a list
of modules one after the other, each from the state the one before ended in. It is
compared with the two loops of `process` (lines 263-274). -/
def push_in_order {α ν O : Type} (w : World α ν O) (fuel : Nat) :
    List (Option ModulePtr) → State α ν O → Run (State α ν O)
  | [], st => Run.ok st
  | src :: rest, st => (push w fuel src st).andThen (push_in_order w fuel rest)

/-- The calls the push traversal makes on modules: `process`, `get_output_values` and
`set_input_values`. -/
def is_push_call {α ν : Type} : Call α ν → Bool
  | Call.process _ => true
  | Call.get_output_values _ _ => true
  | Call.set_input_values _ _ _ _ => true
  | _ => false

/-- The state with one `preprocess` call appended for each registered module, in index
order. It is compared with the state after the first loop of `process` (lines 258-262). -/
def State.preprocessed {α ν O : Type} (st : State α ν O) : State α ν O :=
  { st with trace := st.trace ++ (registered_modules st.orchestrator).map Call.preprocess }

/-! ## Deliveries over links -/

/-- What follows a delivery to `tgt`, where `h` is the history up to and including the
delivery and `rest` the calls made after it: if `tgt` is ready its `process` call comes
next, unless the traversal stopped right there; if it is not, no `process` call comes
next. -/
def PushStart {α ν O : Type} (w : World α ν O) (links : ModulePtr → List module_link)
    (h : List (Call α ν)) (tgt : ModulePtr) (rest : List (Call α ν)) (stopped : Prop) : Prop :=
  (w.can_process tgt links h = true →
    rest.head? = some (Call.process tgt) ∨ (rest = [] ∧ stopped)) ∧
  (w.can_process tgt links h = false → ∀ x, rest.head? ≠ some (Call.process x))

/-- The call `set_input_values(ts, vals, n)` on `tgt`, made after the calls `pre` that
followed the history `h` and before the calls `post`, is a delivery over a link: the call
before it is `get_output_values(source_slot)` on a module `m` with a link from that slot
to slot `ts` of `tgt`; `m` was processed before (it is `done`, or its `process` call is
in `pre`); `vals` and `n` are what `m` returned to that call, the count narrowed to
`uint_fast8_t`; and the push of `tgt` starts right after the delivery. -/
def DeliveryAt {α ν O : Type} (w : World α ν O) (links : ModulePtr → List module_link)
    (done : ModulePtr → Prop) (h pre : List (Call α ν)) (tgt : ModulePtr) (ts : Nat)
    (vals : output_array α) (n : Nat) (post : List (Call α ν)) (stopped : Prop) : Prop :=
  ∃ pre0 m l, pre = pre0 ++ [Call.get_output_values m l.source_slot_id] ∧
    l ∈ links m ∧ l.target_module = some tgt ∧ l.target_slot_id = ts ∧
    (done m ∨ Call.process m ∈ pre0) ∧
    vals = (w.get_output_values m l.source_slot_id (h ++ pre0)).1 ∧
    n = (w.get_output_values m l.source_slot_id (h ++ pre0)).2 % 256 ∧
    PushStart w links (h ++ pre ++ [Call.set_input_values tgt ts vals n]) tgt post stopped

/-- Every `set_input_values` call among the calls `t` that followed the history `h` is a
delivery over a link. -/
def Propagates {α ν O : Type} (w : World α ν O) (links : ModulePtr → List module_link)
    (done : ModulePtr → Prop) (h t : List (Call α ν)) (stopped : Prop) : Prop :=
  ∀ pre tgt ts vals n post, t = pre ++ Call.set_input_values tgt ts vals n :: post →
    DeliveryAt w links done h pre tgt ts vals n post stopped

/-- Every `process` call among the calls `t` that followed the history `h` is followed by
a delivery over every link of its module: for a link from slot `s` of `m` to slot `ts`
of `tgt`, the calls after `process` on `m` contain `get_output_values(s)` on `m`
directly followed by `set_input_values(ts, ...)` on `tgt` with what `m` returned to that
call, the count narrowed to `uint_fast8_t`. -/
def Delivers {α ν O : Type} (w : World α ν O) (links : ModulePtr → List module_link)
    (h t : List (Call α ν)) : Prop :=
  ∀ pre m post, t = pre ++ Call.process m :: post → ∀ l, l ∈ links m →
    ∃ tgt a b, l.target_module = some tgt ∧
      post = a ++ Call.get_output_values m l.source_slot_id ::
        Call.set_input_values tgt l.target_slot_id
          (w.get_output_values m l.source_slot_id (h ++ pre ++ Call.process m :: a)).1
          ((w.get_output_values m l.source_slot_id (h ++ pre ++ Call.process m :: a)).2 % 256)
        :: b

/-! ## Modules whose `process` throws -/

/-- Lines 278-311 where the `process` of a module may throw: `fails m h` says that
`m->process(output)`, called after the history `h`, throws. The function has no `try`
block, so the exception leaves it at line 292, before the loop over the links, and leaves
every caller up the recursion (line 308). The state keeps the call that threw; what that
call did to the output accumulator before it threw is not modelled. -/
def push_raising {α ν O : Type} (w : World α ν O) (fails : ModulePtr → List (Call α ν) → Bool) :
    Nat → Option ModulePtr → State α ν O → Run (State α ν O)
  | 0, _, st => ⟨Status.out_of_fuel, st⟩
  | _ + 1, none, st => Run.undefined st
  | fuel + 1, some source_module, st =>
    if w.can_process source_module st.links st.trace then
      if fails source_module st.trace then
        ⟨Status.raised, st.call (Call.process source_module)⟩
      else
        let st1 : State α ν O :=
          { st with
            trace := st.trace ++ [Call.process source_module]
            output := w.process source_module st.trace st.output }
        push_links w (push_raising w fails fuel) source_module (st1.links source_module) st1
    else Run.ok st

/-- Body of the loop at lines 263-268 where the `process` of a module may throw. -/
def push_midi_raising_body {α ν O : Type} (w : World α ν O)
    (fails : ModulePtr → List (Call α ν) → Bool) (fuel : Nat) (i : Nat)
    (st : State α ν O) : Run (State α ν O) :=
  if i < w.max_nb_sources then
    push_raising w fails fuel (st.orchestrator.sources_midi_input_modules_ i) st
  else Run.undefined st

/-- Body of the loop at lines 269-274 where the `process` of a module may throw. -/
def push_audio_raising_body {α ν O : Type} (w : World α ν O)
    (fails : ModulePtr → List (Call α ν) → Bool) (fuel : Nat) (i : Nat)
    (st : State α ν O) : Run (State α ν O) :=
  if i < w.max_nb_sources then
    push_raising w fails fuel (st.orchestrator.sources_audio_input_modules_ i) st
  else Run.undefined st

/-- Lines 255-276 where the `process` of a module may throw. The function has no `try`
block either: an exception that leaves a push leaves the loop and the function. -/
def process_raising {α ν O : Type} (w : World α ν O)
    (fails : ModulePtr → List (Call α ν) → Bool) (fuel : Nat) (st : State α ν O) :
    Run (State α ν O) :=
  if !st.orchestrator.bypass_ then
    (for_loop preprocess_body st.orchestrator.nb_modules_ 0 st).andThen fun st1 =>
    (for_loop (push_midi_raising_body w fails fuel)
      st1.orchestrator.nb_midi_input_modules_ 0 st1).andThen fun st2 =>
    for_loop (push_audio_raising_body w fails fuel)
      st2.orchestrator.nb_audio_input_modules_ 0 st2
  else Run.ok st

/-- No `process` call among the calls `t` that followed the history `h` threw. -/
def Unfailing {α ν : Type} (fails : ModulePtr → List (Call α ν) → Bool)
    (h t : List (Call α ν)) : Prop :=
  ∀ pre m post, t = pre ++ Call.process m :: post → fails m (h ++ pre) = false

/-- How a run `r` from the state `st` relates to the exceptions of the modules: it only
appends calls; if it ended in `raised`, the last call is a `process` call that threw and
no call before it threw; otherwise no call threw. -/
def Raises {α ν O : Type} (fails : ModulePtr → List (Call α ν) → Bool)
    (st : State α ν O) (r : Run (State α ν O)) : Prop :=
  ∃ t, r.state.trace = st.trace ++ t ∧
    (r.status = Status.raised →
      ∃ pre m, t = pre ++ [Call.process m] ∧ fails m (st.trace ++ pre) = true ∧
        Unfailing fails st.trace pre) ∧
    (r.status ≠ Status.raised → Unfailing fails st.trace t)

/-- The module `m` throws whenever it is processed; no other module throws. -/
def fails_on {α ν : Type} (m : ModulePtr) : ModulePtr → List (Call α ν) → Bool :=
  fun x _ => x == m

/-- Two event sources A = 0 and B = 1 and a plain module C = 2 with the link A->C. -/
def two_sources_table : List (ModulePtr × List module_link) :=
  [(0, [link_to 0 2 0])]

/-- The world of the two sources. -/
def two_sources_world : World ℚ Nat (List ModulePtr) := example_world [0, 1, 2] [0, 1] []

/-- The two sources and C, registered in the order A, B, C. -/
def two_sources : State ℚ Nat (List ModulePtr) :=
  (run_ops two_sources_world
    [registry_op.add 0, registry_op.add 1, registry_op.add 2]
    (State.new (links_of two_sources_table))).state
/-! ## Sequencing and loops -/

variable {α ν O : Type}

theorem Run.andThen_of_status {σ : Type} (r : Run σ) (f : σ → Run σ) (h : r.status = Status.ok) :
    r.andThen f = f r.state := by
  unfold Run.andThen; rw [h]

theorem Run.andThen_of_not_ok {σ : Type} (r : Run σ) (f : σ → Run σ) (h : r.status ≠ Status.ok) :
    r.andThen f = r := by
  unfold Run.andThen
  split
  · rename_i h2; exact absurd h2 h
  · rfl

/-- Invariant rule for `for_loop`: a property that holds at the start and that every
completed iteration keeps holds at the end, and the loop completes. -/
theorem for_loop_invariant {σ : Type} (body : Nat → σ → Run σ) (P : Nat → σ → Prop)
    (count : Nat) :
    ∀ (i0 : Nat) (s : σ), P i0 s →
      (∀ i s, i0 ≤ i → i < i0 + count → P i s →
        (body i s).status = Status.ok ∧ P (i + 1) (body i s).state) →
      (for_loop body count i0 s).status = Status.ok ∧
        P (i0 + count) (for_loop body count i0 s).state := by
  induction count with
  | zero => intro i0 s h0 _; exact ⟨rfl, h0⟩
  | succ k ih =>
    intro i0 s h0 hstep
    obtain ⟨hs, hP⟩ := hstep i0 s (le_refl _) (by omega) h0
    have := ih (i0 + 1) (body i0 s).state hP
      (fun i s hi hlt hp => hstep i s (by omega) (by omega) hp)
    simp only [for_loop, Run.andThen_of_status _ _ hs]
    rw [show i0 + (k + 1) = i0 + 1 + k by omega]
    exact this

/-! ## The readiness gate of the traversal -/

theorem Extends.refl (w : World α ν O) (st : State α ν O) : Extends w st st := by
  refine ⟨rfl, rfl, [], by simp, ?_⟩
  intro pre x post h
  simp at h

theorem Extends.trans (w : World α ν O) {a b c : State α ν O}
    (h1 : Extends w a b) (h2 : Extends w b c) : Extends w a c := by
  obtain ⟨l1, o1, t1, e1, g1⟩ := h1
  obtain ⟨l2, o2, t2, e2, g2⟩ := h2
  refine ⟨l2.trans l1, o2.trans o1, t1 ++ t2, by rw [e2, e1, List.append_assoc], ?_⟩
  intro pre x post h
  rcases List.append_eq_append_iff.mp h with ⟨a', ha1, ha2⟩ | ⟨c', hc1, hc2⟩
  · have := g2 a' x post ha2
    rw [l1, e1, List.append_assoc, ← ha1] at this
    exact this
  · rcases c' with _ | ⟨y, c'⟩
    · have := g2 [] x post (by simpa using hc2.symm)
      rw [l1, e1] at this
      simpa [hc1] using this
    · simp only [List.cons_append, List.cons.injEq] at hc2
      obtain ⟨rfl, _⟩ := hc2
      exact g1 pre x c' hc1

theorem Extends.call (w : World α ν O) (st : State α ν O) (c : Call α ν)
    (hc : ∀ x, c ≠ Call.process x) : Extends w st (st.call c) := by
  refine ⟨rfl, rfl, [c], rfl, ?_⟩
  intro pre x post h
  rcases pre with _ | ⟨y, pre⟩
  · simp only [List.nil_append, List.cons.injEq] at h; exact absurd h.1 (hc x)
  · simp at h

theorem push_link_extends (w : World α ν O)
    (rec : Option ModulePtr → State α ν O → Run (State α ν O))
    (hrec : ∀ src st, Extends w st (rec src st).state)
    (m : ModulePtr) (l : module_link) (st : State α ν O) :
    Extends w st (push_link w rec m l st).state := by
  unfold push_link
  have h1 := Extends.call w st (Call.get_output_values m l.source_slot_id)
    (fun x h => Call.noConfusion h)
  cases ht : l.target_module with
  | none => exact h1
  | some t =>
    have h2 := Extends.call w (st.call (Call.get_output_values m l.source_slot_id))
      (Call.set_input_values t l.target_slot_id
        (w.get_output_values m l.source_slot_id st.trace).1
        ((w.get_output_values m l.source_slot_id st.trace).2 % 256))
      (fun x h => Call.noConfusion h)
    exact Extends.trans w h1 (Extends.trans w h2 (hrec _ _))

theorem push_links_extends (w : World α ν O)
    (rec : Option ModulePtr → State α ν O → Run (State α ν O))
    (hrec : ∀ src st, Extends w st (rec src st).state)
    (m : ModulePtr) (ls : List module_link) :
    ∀ st, Extends w st (push_links w rec m ls st).state := by
  induction ls with
  | nil => intro st; exact Extends.refl w st
  | cons l rest ih =>
    intro st
    unfold push_links
    by_cases hs : (push_link w rec m l st).status = Status.ok
    · rw [Run.andThen_of_status _ _ hs]
      exact Extends.trans w (push_link_extends w rec hrec m l st) (ih _)
    · rw [Run.andThen_of_not_ok _ _ hs]
      exact push_link_extends w rec hrec m l st

theorem push_extends (w : World α ν O) (fuel : Nat) :
    ∀ (src : Option ModulePtr) (st : State α ν O), Extends w st (push w fuel src st).state := by
  induction fuel with
  | zero => intro src st; exact Extends.refl w st
  | succ n ih =>
    intro src st
    cases src with
    | none => exact Extends.refl w st
    | some m =>
      unfold push
      by_cases hc : w.can_process m st.links st.trace = true
      · rw [if_pos hc]
        refine Extends.trans w ?_ (push_links_extends w (push w n) ih m _ _)
        refine ⟨rfl, rfl, [Call.process m], rfl, ?_⟩
        intro pre x post h
        rcases pre with _ | ⟨y, pre⟩
        · simp at h; obtain ⟨h, _⟩ := h; cases h; simpa using hc
        · simp at h
      · rw [if_neg hc]; exact Extends.refl w st

/-- C2, the readiness gate. For every module `m`: if `m.can_process()` is false at the
moment of the push, the push returns at once and changes nothing (no call on any module);
if it is true, the first call the push makes is `m.process`. And every `process` call the
traversal makes, on `m` or further down, is made on a module whose `can_process()` holds
on the history up to that call. The calls are those made until the traversal stops, also
when the recursion budget of the model runs out. -/
theorem push_readiness_gate (w : World α ν O) (fuel : Nat) (m : ModulePtr)
    (st : State α ν O) :
    (w.can_process m st.links st.trace = false → push w (fuel + 1) (some m) st = Run.ok st) ∧
    ∃ t, (push w (fuel + 1) (some m) st).state.trace = st.trace ++ t ∧
      (w.can_process m st.links st.trace = true → ∃ rest, t = Call.process m :: rest) ∧
      (∀ pre x post, t = pre ++ Call.process x :: post →
        w.can_process x st.links (st.trace ++ pre) = true) := by
  constructor
  · intro h
    simp [push, h]
  · obtain ⟨_, _, t, ht, hg⟩ := push_extends w (fuel + 1) (some m) st
    refine ⟨t, ht, ?_, hg⟩
    intro hc
    have hx := push_links_extends w (push w fuel) (push_extends w fuel) m (st.links m)
      { st with trace := st.trace ++ [Call.process m]
                output := w.process m st.trace st.output }
    obtain ⟨_, _, t2, ht2, _⟩ := hx
    have e : push w (fuel + 1) (some m) st = push_links w (push w fuel) m (st.links m)
      { st with trace := st.trace ++ [Call.process m]
                output := w.process m st.trace st.output } := by
      simp [push, hc]
    rw [e, ht2] at ht
    simp at ht
    exact ⟨t2, ht.symm⟩
/-! ## Deleting a module -/

/-- The unlink loop of `delete_processor` completes when the modules it visits are not
null, and leaves the orchestrator's fields alone. -/
theorem delete_unlink_loop (target : Option ModulePtr) (st : State α ν O) (count : Nat)
    (hc : count ≤ max_nb_modules)
    (hreg : ∀ i, i < count → st.orchestrator.processor_modules_ i ≠ none) :
    (for_loop (delete_unlink_body target) count 0 st).status = Status.ok ∧
    (for_loop (delete_unlink_body target) count 0 st).state.orchestrator = st.orchestrator := by
  have := for_loop_invariant (delete_unlink_body target)
    (fun _ (s : State α ν O) => s.orchestrator = st.orchestrator) count 0 st rfl
    (by
      intro i s _ hi hs
      have hlt : i < max_nb_modules := by omega
      have hnn := hreg i (by omega)
      unfold delete_unlink_body
      rw [if_pos hlt, hs]
      cases hm : st.orchestrator.processor_modules_ i with
      | none => exact absurd hm hnn
      | some m => exact ⟨rfl, hs⟩)
  simpa using this

/-- The shift loop of `delete_processor` moves the entries `k+1 .. k+count` one place
down and changes nothing else. -/
theorem delete_shift_loop (k count : Nat) (st : State α ν O)
    (hc : k + count < max_nb_modules) :
    (for_loop delete_shift_body count k st).status = Status.ok ∧
    (for_loop delete_shift_body count k st).state.orchestrator.nb_modules_ =
      st.orchestrator.nb_modules_ ∧
    ∀ j, (for_loop delete_shift_body count k st).state.orchestrator.processor_modules_ j =
      if k ≤ j ∧ j < k + count then st.orchestrator.processor_modules_ (j + 1)
      else st.orchestrator.processor_modules_ j := by
  have := for_loop_invariant delete_shift_body
    (fun i (s : State α ν O) => s.orchestrator.nb_modules_ = st.orchestrator.nb_modules_ ∧
      ∀ j, s.orchestrator.processor_modules_ j =
        if k ≤ j ∧ j < i then st.orchestrator.processor_modules_ (j + 1)
        else st.orchestrator.processor_modules_ j) count k st
    ⟨rfl, fun j => by rw [if_neg (by omega)]⟩
    (by
      intro i s hki hi ⟨hnb, harr⟩
      have hlt : i + 1 < max_nb_modules := by omega
      unfold delete_shift_body
      rw [if_pos hlt]
      refine ⟨rfl, hnb, fun j => ?_⟩
      show array_set s.orchestrator.processor_modules_ i
        (s.orchestrator.processor_modules_ (i + 1)) j = _
      unfold array_set
      by_cases hj : j = i
      · subst hj
        rw [if_pos rfl, harr (j + 1), if_neg (by omega), if_pos (by omega)]
      · rw [if_neg hj, harr j]
        by_cases h1 : k ≤ j ∧ j < i
        · rw [if_pos h1, if_pos (by omega)]
        · rw [if_neg h1, if_neg (by omega)])
  exact this

/-- C4, id compaction. For every graph with `n` modules (`n` at most the capacity 128,
all of them real modules) and every `k < n`, `delete_processor(k)` completes, the module
count is `n - 1` afterwards, every module at an index `i < k` is still at index `i`, and
every module at an index `i > k` is now at index `i - 1`. -/
theorem delete_processor_compacts (k : Nat) (st : State α ν O)
    (hn : st.orchestrator.nb_modules_ ≤ max_nb_modules)
    (hk : k < st.orchestrator.nb_modules_)
    (hreg : ∀ i, i < st.orchestrator.nb_modules_ →
      st.orchestrator.processor_modules_ i ≠ none) :
    (delete_processor k st).status = Status.ok ∧
    get_nb_processors (delete_processor k st).state = st.orchestrator.nb_modules_ - 1 ∧
    (∀ i, i < k → (delete_processor k st).state.orchestrator.processor_modules_ i =
      st.orchestrator.processor_modules_ i) ∧
    (∀ i, k < i → i < st.orchestrator.nb_modules_ →
      (delete_processor k st).state.orchestrator.processor_modules_ (i - 1) =
        st.orchestrator.processor_modules_ i) := by
  have hkm : k < max_nb_modules := by omega
  obtain ⟨hs1, ho1⟩ := delete_unlink_loop (st.orchestrator.processor_modules_ k) st
    (st.orchestrator.nb_modules_ - 1) (by omega) (fun i hi => hreg i (by omega))
  obtain ⟨hs2, hn2, ha2⟩ := delete_shift_loop k (st.orchestrator.nb_modules_ - 1 - k)
    (for_loop (delete_unlink_body (st.orchestrator.processor_modules_ k))
      (st.orchestrator.nb_modules_ - 1) 0 st).state (by omega)
  have hrun : delete_processor k st = Run.ok
      { (for_loop delete_shift_body (st.orchestrator.nb_modules_ - 1 - k) k
          (for_loop (delete_unlink_body (st.orchestrator.processor_modules_ k))
            (st.orchestrator.nb_modules_ - 1) 0 st).state).state with
        orchestrator :=
          { (for_loop delete_shift_body (st.orchestrator.nb_modules_ - 1 - k) k
              (for_loop (delete_unlink_body (st.orchestrator.processor_modules_ k))
                (st.orchestrator.nb_modules_ - 1) 0 st).state).state.orchestrator with
            nb_modules_ := ((for_loop delete_shift_body (st.orchestrator.nb_modules_ - 1 - k) k
              (for_loop (delete_unlink_body (st.orchestrator.processor_modules_ k))
                (st.orchestrator.nb_modules_ - 1) 0 st).state).state.orchestrator.nb_modules_
                  + 255) % 256 } } := by
    unfold delete_processor
    rw [if_pos hkm]
    simp only [Run.andThen_of_status _ _ hs1, Run.andThen_of_status _ _ hs2]
  rw [hrun]
  refine ⟨rfl, ?_, ?_, ?_⟩
  · show (_ + 255) % 256 = _
    rw [hn2, ho1]; unfold max_nb_modules at hn; omega
  · intro i hi
    show (for_loop delete_shift_body _ k _).state.orchestrator.processor_modules_ i = _
    rw [ha2 i, if_neg (by omega), ho1]
  · intro i hki hin
    show (for_loop delete_shift_body _ k _).state.orchestrator.processor_modules_ (i - 1) = _
    rw [ha2 (i - 1), if_pos (by omega), ho1, show i - 1 + 1 = i by omega]

/-! ## Single execution per block -/

theorem process_count_append (m : ModulePtr) (a b : List (Call α ν)) :
    process_count m (a ++ b) = process_count m a + process_count m b := by
  simp [process_count, List.countP_append]

theorem process_count_process (m x : ModulePtr) :
    process_count m ([Call.process x] : List (Call α ν)) = if x = m then 1 else 0 := by
  by_cases h : x = m <;> simp [process_count, List.countP_cons, h]

theorem process_count_delivery (m p t : ModulePtr) (s ts n : Nat) (v : output_array α) :
    process_count m ([Call.get_output_values p s, Call.set_input_values t ts v n] :
      List (Call α ν)) = 0 := by
  simp [process_count, List.countP_cons]

theorem delivery_count_process (h : List (Call α ν)) (x p : ModulePtr) (l : module_link) :
    delivery_count (h ++ [Call.process x]) p l = delivery_count h p l := by
  unfold delivery_count
  cases l.target_module with
  | none => rfl
  | some m => simp [recent_deliveries]

theorem delivery_count_delivery (h : List (Call α ν)) (m0 t0 : ModulePtr) (s0 ts0 n : Nat)
    (v : output_array α) (p : ModulePtr) (l : module_link) :
    delivery_count (h ++ [Call.get_output_values m0 s0] ++ [Call.set_input_values t0 ts0 v n])
        p l =
      delivery_count h p l +
        if l.target_module = some t0 ∧ p = m0 ∧ l.source_slot_id = s0 ∧ l.target_slot_id = ts0
        then 1 else 0 := by
  unfold delivery_count
  cases hl : l.target_module with
  | none => simp
  | some m =>
    simp only [List.reverse_append, List.reverse_cons, List.reverse_nil, List.nil_append,
      List.singleton_append, List.cons_append, recent_deliveries, List.head?_cons]
    by_cases ht : t0 = m
    · subst ht
      simp only [if_true, List.count_cons, true_and, Option.some.injEq]
      congr 1
      by_cases hk : p = m0 ∧ l.source_slot_id = s0 ∧ l.target_slot_id = ts0
      · obtain ⟨rfl, rfl, rfl⟩ := hk; simp
      · rw [if_neg hk]
        have : ¬ ((m0, s0, ts0) == (p, l.source_slot_id, l.target_slot_id)) = true := by
          simp only [beq_iff_eq, Prod.mk.injEq]
          intro ⟨a, b, c⟩; exact hk ⟨a.symm, b.symm, c.symm⟩
        simp [this]
    · have : ¬ (m = t0) := fun e => ht e.symm
      simp [ht, this]

theorem delivery_count_preprocess_other (h : List (Call α ν)) (x p : ModulePtr) (l : module_link)
    (hx : l.target_module ≠ some x) :
    delivery_count (h ++ [Call.preprocess x]) p l = delivery_count h p l := by
  unfold delivery_count
  cases hl : l.target_module with
  | none => rfl
  | some m =>
    have : x ≠ m := fun e => hx (by rw [hl, e])
    simp [recent_deliveries, this]

theorem delivery_count_preprocess_self (h : List (Call α ν)) (x p : ModulePtr) (l : module_link)
    (hx : l.target_module = some x) :
    delivery_count (h ++ [Call.preprocess x]) p l = 0 := by
  unfold delivery_count
  rw [hx]
  simp [recent_deliveries]

theorem delivery_indicator (links : ModulePtr → List module_link)
    (hE : ∀ p l, l ∈ links p → l.enabled = true)
    (m0 t0 : ModulePtr) (l0 : module_link) (h0 : l0 ∈ links m0)
    (ht0 : l0.target_module = some t0) (p : ModulePtr) (l : module_link) (hl : l ∈ links p) :
    (l.target_module = some t0 ∧ p = m0 ∧ l.source_slot_id = l0.source_slot_id ∧
      l.target_slot_id = l0.target_slot_id) ↔ (p = m0 ∧ l = l0) := by
  constructor
  · rintro ⟨a, b, c, d⟩
    refine ⟨b, ?_⟩
    have e1 := hE p l hl
    have e2 := hE m0 l0 h0
    cases l; cases l0
    simp_all
  · rintro ⟨rfl, rfl⟩
    exact ⟨ht0, rfl, rfl, rfl⟩

/-- The loop over the links of a processed module `m0`, given that the recursive call
meets its specification on the targets. -/
theorem push_links_advance (w : World α ν O) (links : ModulePtr → List module_link)
    (S : ModulePtr → Prop) (rank : ModulePtr → Nat) (fuel : Nat)
    (hE : ∀ p l, l ∈ links p → l.enabled = true)
    (hT : ∀ p l, l ∈ links p → ∃ t, l.target_module = some t ∧ rank t < rank p)
    (hN : ∀ p, (links p).Nodup)
    (rec : Option ModulePtr → State α ν O → Run (State α ν O))
    (hrec : ∀ (m : ModulePtr) (st : State α ν O) (t : List (Call α ν)),
      st.links = links → BlockInv links S st.trace t → (S m ∨ HasIncoming links m) →
      process_count m t = 0 →
      (∀ x, x ≠ m → HasIncoming links x → AllDelivered links st.trace x →
        1 ≤ process_count x t) →
      rank m < fuel →
      ∃ t2, Advance links S st t (rec (some m) st) t2 (fun _ _ => 0))
    (m0 : ModulePtr) (hm0 : rank m0 < fuel + 1) :
    ∀ (rest done : List module_link) (st : State α ν O) (t : List (Call α ν)),
      links m0 = done ++ rest → st.links = links → BlockInv links S st.trace t →
      process_count m0 t = 1 →
      (∀ l, l ∈ rest → delivery_count st.trace m0 l = 0) →
      (∀ l, l ∈ done → 1 ≤ delivery_count st.trace m0 l) →
      (∀ x, HasIncoming links x → AllDelivered links st.trace x → 1 ≤ process_count x t) →
      ∃ t2, Advance links S st t (push_links w rec m0 rest st) t2
          (fun p l => if p = m0 ∧ l ∈ rest then 1 else 0) ∧
        ∀ l, l ∈ links m0 →
          1 ≤ delivery_count (push_links w rec m0 rest st).state.trace m0 l := by
  intro rest
  induction rest with
  | nil =>
    intro done st t hsplit hlinks hinv hp hrest hdone hans
    refine ⟨[], ⟨rfl, rfl, rfl, by simp [push_links, Run.ok], ?_, fun _ _ => le_refl _, ?_, ?_, ?_⟩,
      ?_⟩
    · simpa [push_links, Run.ok] using hinv
    · intro p l _; simp [push_links, Run.ok]
    · intro x h0 h1; simp only [List.append_nil] at h1; omega
    · intro x hx hd; simpa [push_links, Run.ok] using hans x hx hd
    · intro l hl
      rw [hsplit, List.append_nil] at hl
      simpa [push_links, Run.ok] using hdone l hl
  | cons l0 rest ih =>
    intro done st t hsplit hlinks hinv hp hrest hdone hans
    have hl0 : l0 ∈ links m0 := by rw [hsplit]; simp
    obtain ⟨t0, ht0, hrank⟩ := hT m0 l0 hl0
    have hnd : (done ++ l0 :: rest).Nodup := hsplit ▸ hN m0
    have hl0rest : l0 ∉ rest := by
      have := (List.nodup_append.mp hnd).2.1
      exact (List.nodup_cons.mp this).1
    -- the state after the delivery over `l0`
    let vals := (w.get_output_values m0 l0.source_slot_id st.trace).1
    let nb := (w.get_output_values m0 l0.source_slot_id st.trace).2 % 256
    let st2 : State α ν O := (st.call (Call.get_output_values m0 l0.source_slot_id)).call
      (Call.set_input_values t0 l0.target_slot_id vals nb)
    let d : List (Call α ν) := [Call.get_output_values m0 l0.source_slot_id,
      Call.set_input_values t0 l0.target_slot_id vals nb]
    have htr2 : st2.trace = st.trace ++ [Call.get_output_values m0 l0.source_slot_id] ++
        [Call.set_input_values t0 l0.target_slot_id vals nb] := rfl
    have hpc : ∀ x, process_count x (t ++ d) = process_count x t := by
      intro x; rw [process_count_append, process_count_delivery]; rfl
    have hdc : ∀ p l, l ∈ links p → delivery_count st2.trace p l =
        delivery_count st.trace p l + if p = m0 ∧ l = l0 then 1 else 0 := by
      intro p l hl
      rw [htr2, delivery_count_delivery]
      congr 1
      by_cases hk : p = m0 ∧ l = l0
      · rw [if_pos hk, if_pos ((delivery_indicator links hE m0 t0 l0 hl0 ht0 p l hl).mpr hk)]
      · rw [if_neg hk,
          if_neg (fun hh => hk ((delivery_indicator links hE m0 t0 l0 hl0 ht0 p l hl).mp hh))]
    have hdc_le : ∀ p l, delivery_count st.trace p l ≤ delivery_count st2.trace p l := by
      intro p l
      rw [htr2, delivery_count_delivery]; omega
    have hdc_other : ∀ p l, l ∈ links p → l.target_module ≠ some t0 →
        delivery_count st2.trace p l = delivery_count st.trace p l := by
      intro p l hl hne
      rw [hdc p l hl, if_neg, Nat.add_zero]
      rintro ⟨_, rfl⟩; exact hne ht0
    have hd0 : delivery_count st.trace m0 l0 = 0 := hrest l0 (by simp)
    have hinv2 : BlockInv links S st2.trace (t ++ d) := by
      refine ⟨fun m => (hpc m).symm ▸ hinv.once m, ?_, ?_, ?_⟩
      · intro p l hl
        rw [hpc, hdc p l hl]
        by_cases hk : p = m0 ∧ l = l0
        · obtain ⟨rfl, rfl⟩ := hk
          rw [if_pos ⟨rfl, rfl⟩, hd0, hp]
        · rw [if_neg hk]; exact hinv.slack p l hl
      · intro m hm; rw [hpc] at hm; exact hinv.origin m hm
      · intro m hm p l hl hlt
        rw [hpc] at hm
        have := hinv.fed m hm p l hl hlt
        rw [hdc p l hl]; omega
    have hpt0 : process_count t0 (t ++ d) = 0 := by
      rw [hpc]
      by_contra hne
      have := hinv.fed t0 (by omega) m0 l0 hl0 ht0
      omega
    have hans2 : ∀ x, x ≠ t0 → HasIncoming links x → AllDelivered links st2.trace x →
        1 ≤ process_count x (t ++ d) := by
      intro x hx hin hall
      rw [hpc]
      apply hans x hin
      intro p l hl hlt
      have := hall p l hl hlt
      rwa [hdc_other p l hl (by rw [hlt]; intro e; exact hx (Option.some.inj e))] at this
    obtain ⟨ta, ha⟩ := hrec t0 st2 (t ++ d) hlinks hinv2 (Or.inr ⟨m0, l0, hl0, ht0⟩) hpt0 hans2
      (by omega)
    -- the rest of the loop
    have hstep : push_link w rec m0 l0 st = rec (some t0) st2 := by
      unfold push_link; simp only [ht0]
    have hrun : push_links w rec m0 (l0 :: rest) st =
        push_links w rec m0 rest (rec (some t0) st2).state := by
      show (push_link w rec m0 l0 st).andThen _ = _
      rw [hstep, Run.andThen_of_status _ _ ha.status]
    have hp3 : process_count m0 (t ++ d ++ ta) = 1 := by
      have h1 := ha.inv.once m0
      have h2 : process_count m0 (t ++ d ++ ta) =
          process_count m0 t + process_count m0 d + process_count m0 ta := by
        rw [process_count_append, process_count_append]
      have h3 : process_count m0 d = 0 := process_count_delivery _ _ _ _ _ _ _
      omega
    have hrest3 : ∀ l, l ∈ rest → delivery_count (rec (some t0) st2).state.trace m0 l = 0 := by
      intro l hl
      have hlm : l ∈ links m0 := by rw [hsplit]; simp [hl]
      have h1 := ha.frame m0 l hlm
      have h2 := hdc m0 l hlm
      have h3 : ¬ (m0 = m0 ∧ l = l0) := by rintro ⟨_, rfl⟩; exact hl0rest hl
      rw [if_neg h3] at h2
      have h4 := hrest l (by simp [hl])
      have h5 := hpc m0
      simp only [Nat.add_zero] at h1 h2
      omega
    have hdone3 : ∀ l, l ∈ done ++ [l0] →
        1 ≤ delivery_count (rec (some t0) st2).state.trace m0 l := by
      intro l hl
      have hlm : l ∈ links m0 := by
        rw [hsplit]; simp only [List.mem_append, List.mem_singleton] at hl
        rcases hl with h | h <;> simp [h]
      have h1 := ha.mono m0 l
      have h2 := hdc m0 l hlm
      simp only [List.mem_append, List.mem_singleton] at hl
      rcases hl with h | h
      · have := hdone l h; omega
      · rw [if_pos ⟨rfl, h⟩] at h2; omega
    obtain ⟨tb, hb, hall⟩ := ih (done ++ [l0]) (rec (some t0) st2).state (t ++ d ++ ta)
      (by rw [hsplit]; simp) (ha.links_eq.trans hlinks) ha.inv hp3 hrest3 hdone3 ha.answered
    rw [hrun]
    have hassoc : t ++ (d ++ ta ++ tb) = t ++ d ++ ta ++ tb := by simp
    refine ⟨d ++ ta ++ tb, ⟨hb.status, hb.links_eq.trans ha.links_eq,
      hb.orchestrator_eq.trans ha.orchestrator_eq, ?_, ?_, ?_, ?_, ?_, ?_⟩, hall⟩
    · rw [hb.trace_eq, ha.trace_eq, htr2]; simp [d]
    · rw [hassoc]; exact hb.inv
    · intro p l
      have := hb.mono p l
      have := ha.mono p l
      have := hdc_le p l
      omega
    · intro p l hl
      rw [hassoc]
      have h1 := hb.frame p l hl
      have h2 := ha.frame p l hl
      have h3 := hdc p l hl
      have h4 := hpc p
      simp only [Nat.add_zero] at h2
      by_cases hk : p = m0 ∧ l = l0
      · obtain ⟨rfl, rfl⟩ := hk
        rw [if_pos ⟨rfl, rfl⟩] at h3
        rw [if_neg (by rintro ⟨_, h⟩; exact hl0rest h)] at h1
        rw [if_pos ⟨rfl, by simp⟩]
        omega
      · rw [if_neg hk] at h3
        by_cases hr : p = m0 ∧ l ∈ rest
        · rw [if_pos hr] at h1
          rw [if_pos ⟨hr.1, by simp [hr.2]⟩]
          omega
        · rw [if_neg hr] at h1
          have : ¬ (p = m0 ∧ l ∈ l0 :: rest) := by
            rintro ⟨a, b⟩
            simp only [List.mem_cons] at b
            rcases b with b | b
            · exact hk ⟨a, b⟩
            · exact hr ⟨a, b⟩
          rw [if_neg this]
          omega
    · intro x hx0 hx1 l hl
      rw [hassoc] at hx1
      by_cases h3 : process_count x (t ++ d ++ ta) = 0
      · exact hb.complete x h3 hx1 l hl
      · have := ha.complete x (by rw [hpc]; exact hx0) (by omega) l hl
        have := hb.mono x l
        omega
    · intro x hx hd
      rw [hassoc]
      exact hb.answered x hx hd

theorem contract_all_delivered (w : World α ν O) (links : ModulePtr → List module_link)
    (hC : ReadinessContract w links) (hE : ∀ p l, l ∈ links p → l.enabled = true)
    (h : List (Call α ν)) (m : ModulePtr) :
    w.can_process m links h = true ↔ AllDelivered links h m := by
  rw [hC h m]
  constructor
  · intro H p l hl ht; exact H p l hl (hE p l hl) ht
  · intro H p l hl _ ht; exact H p l hl ht

/-- The traversal started at a module `m` that was not processed in this block, with
enough budget for the paths that leave `m`. -/
theorem push_advance (w : World α ν O) (links : ModulePtr → List module_link)
    (S : ModulePtr → Prop) (rank : ModulePtr → Nat)
    (hC : ReadinessContract w links)
    (hE : ∀ p l, l ∈ links p → l.enabled = true)
    (hT : ∀ p l, l ∈ links p → ∃ t, l.target_module = some t ∧ rank t < rank p)
    (hN : ∀ p, (links p).Nodup) (fuel : Nat) :
    ∀ (m : ModulePtr) (st : State α ν O) (t : List (Call α ν)),
      st.links = links → BlockInv links S st.trace t → (S m ∨ HasIncoming links m) →
      process_count m t = 0 →
      (∀ x, x ≠ m → HasIncoming links x → AllDelivered links st.trace x →
        1 ≤ process_count x t) →
      rank m < fuel →
      ∃ t2, Advance links S st t (push w fuel (some m) st) t2 (fun _ _ => 0) ∧
        (w.can_process m links st.trace = true → 1 ≤ process_count m (t ++ t2)) := by
  induction fuel with
  | zero => intro m st t _ _ _ _ _ hr; omega
  | succ n ih =>
    intro m st t hlinks hinv hS hp0 hans hr
    by_cases hc : w.can_process m links st.trace = true
    · -- the module is ready: it is processed, then its links are followed
      let st1 : State α ν O :=
        { st with
          trace := st.trace ++ [Call.process m]
          output := w.process m st.trace st.output }
      have hrun : push w (n + 1) (some m) st = push_links w (push w n) m (links m) st1 := by
        have hc' : w.can_process m st.links st.trace = true := by rw [hlinks]; exact hc
        have hlm : st.links m = links m := by rw [hlinks]
        show (if w.can_process m st.links st.trace then _ else _) = _
        rw [if_pos hc']
        show push_links w (push w n) m (st.links m) st1 = _
        rw [hlm]
      have hpc : ∀ x, process_count x (t ++ [Call.process m]) =
          process_count x t + if m = x then 1 else 0 := by
        intro x; rw [process_count_append, process_count_process]
      have hdc : ∀ p l, delivery_count st1.trace p l = delivery_count st.trace p l :=
        fun p l => delivery_count_process st.trace m p l
      have hall : AllDelivered links st.trace m :=
        (contract_all_delivered w links hC hE st.trace m).mp hc
      have hinv1 : BlockInv links S st1.trace (t ++ [Call.process m]) := by
        refine ⟨?_, ?_, ?_, ?_⟩
        · intro x
          rw [hpc]
          by_cases hx : m = x
          · subst hx; rw [if_pos rfl, hp0]
          · rw [if_neg hx]; exact hinv.once x
        · intro p l hl
          rw [hpc, hdc]
          have := hinv.slack p l hl
          omega
        · intro x hx
          rw [hpc] at hx
          by_cases hxm : m = x
          · subst hxm; exact hS
          · rw [if_neg hxm] at hx; exact hinv.origin x hx
        · intro x hx p l hl hlt
          rw [hpc] at hx
          rw [hdc]
          by_cases hxm : m = x
          · subst hxm; exact hall p l hl hlt
          · rw [if_neg hxm] at hx; exact hinv.fed x hx p l hl hlt
      have hp1 : process_count m (t ++ [Call.process m]) = 1 := by
        rw [hpc, if_pos rfl, hp0]
      have hrest : ∀ l, l ∈ links m → delivery_count st1.trace m l = 0 := by
        intro l hl
        rw [hdc]
        have := hinv.slack m l hl
        omega
      have hans1 : ∀ x, HasIncoming links x → AllDelivered links st1.trace x →
          1 ≤ process_count x (t ++ [Call.process m]) := by
        intro x hx hd
        rw [hpc]
        by_cases hxm : m = x
        · rw [if_pos hxm]; omega
        · rw [if_neg hxm]
          refine hans x (fun e => hxm e.symm) hx ?_
          intro p l hl hlt
          have := hd p l hl hlt
          rwa [hdc] at this
      obtain ⟨tb, hb, hlinked⟩ := push_links_advance w links S rank n hE hT hN (push w n)
        (fun m' st' t' a b c d e f => by
          obtain ⟨t2, h2, _⟩ := ih m' st' t' a b c d e f
          exact ⟨t2, h2⟩)
        m hr (links m) [] st1 (t ++ [Call.process m]) (by simp) hlinks hinv1 hp1 hrest
        (by intro l hl; simp at hl) hans1
      rw [hrun]
      have hassoc : t ++ ([Call.process m] ++ tb) = t ++ [Call.process m] ++ tb := by simp
      refine ⟨[Call.process m] ++ tb, ⟨hb.status, hb.links_eq, hb.orchestrator_eq, ?_, ?_, ?_, ?_,
        ?_, ?_⟩, ?_⟩
      · rw [hb.trace_eq]; simp [st1]
      · rw [hassoc]; exact hb.inv
      · intro p l
        have := hb.mono p l
        rw [hdc] at this
        exact this
      · intro p l hl
        rw [hassoc]
        have h1 := hb.frame p l hl
        rw [hdc, hpc] at h1
        by_cases hpm : p = m
        · subst hpm
          rw [if_pos rfl, if_pos ⟨rfl, hl⟩] at h1
          omega
        · rw [if_neg (fun e => hpm e.symm), if_neg (fun hh => hpm hh.1)] at h1
          omega
      · intro x hx0 hx1 l hl
        by_cases hxm : m = x
        · subst hxm; exact hlinked l hl
        · rw [hassoc] at hx1
          exact hb.complete x (by rw [hpc, if_neg hxm]; exact hx0) hx1 l hl
      · intro x hx hd
        rw [hassoc]; exact hb.answered x hx hd
      · intro _
        rw [hassoc, process_count_append, hp1]; omega
    · -- the module is not ready: nothing happens
      have hrun : push w (n + 1) (some m) st = Run.ok st := by
        have hc' : ¬ w.can_process m st.links st.trace = true := by rw [hlinks]; exact hc
        show (if w.can_process m st.links st.trace then _ else _) = _
        rw [if_neg hc']
      rw [hrun]
      refine ⟨[], ⟨rfl, rfl, rfl, by simp [Run.ok], ?_, fun _ _ => le_refl _, ?_, ?_, ?_⟩, ?_⟩
      · simpa [Run.ok] using hinv
      · intro p l _; simp [Run.ok]
      · intro x h0 h1; simp only [List.append_nil] at h1; omega
      · intro x hx hd
        simp only [List.append_nil]
        by_cases hxm : x = m
        · subst hxm
          exact absurd ((contract_all_delivered w links hC hE st.trace x).mpr hd) hc
        · exact hans x hxm hx hd
      · intro h; exact absurd h hc

/-- The first loop of `process`: it calls `preprocess` on the registered modules, after
which no link into a registered module counts as delivered. -/
theorem preprocess_loop (st : State α ν O) (n : Nat) (hn : n ≤ max_nb_modules)
    (hreg : ∀ i, i < n → st.orchestrator.processor_modules_ i ≠ none) :
    (for_loop preprocess_body n 0 st).status = Status.ok ∧
    (for_loop preprocess_body n 0 st).state.links = st.links ∧
    (for_loop preprocess_body n 0 st).state.orchestrator = st.orchestrator ∧
    ∃ pre, (for_loop preprocess_body n 0 st).state.trace = st.trace ++ pre ∧
      (∀ m, process_count m pre = 0) ∧
      ∀ p l t, l.target_module = some t →
        (∃ i, i < n ∧ st.orchestrator.processor_modules_ i = some t) →
        delivery_count (for_loop preprocess_body n 0 st).state.trace p l = 0 := by
  have := for_loop_invariant preprocess_body
    (fun i (s : State α ν O) => s.links = st.links ∧ s.orchestrator = st.orchestrator ∧
      ∃ pre, s.trace = st.trace ++ pre ∧ (∀ m, process_count m pre = 0) ∧
        ∀ p l t, l.target_module = some t →
          (∃ j, j < i ∧ st.orchestrator.processor_modules_ j = some t) →
          delivery_count s.trace p l = 0) n 0 st
    ⟨rfl, rfl, [], by simp, fun _ => rfl, fun p l t _ ⟨j, hj, _⟩ => absurd hj (by omega)⟩
    (by
      intro i s _ hi ⟨hl, ho, pre, htr, hpc, hd⟩
      have hlt : i < max_nb_modules := by omega
      have hnn := hreg i (by omega)
      unfold preprocess_body
      rw [if_pos hlt, ho]
      cases hm : st.orchestrator.processor_modules_ i with
      | none => exact absurd hm hnn
      | some x =>
        refine ⟨rfl, hl, ho, pre ++ [Call.preprocess x], ?_, ?_, ?_⟩
        · show s.trace ++ [Call.preprocess x] = _
          rw [htr, List.append_assoc]
        · intro m
          rw [process_count_append, hpc]
          simp [process_count]
        · intro p l t hlt ⟨j, hj, hjm⟩
          show delivery_count (s.trace ++ [Call.preprocess x]) p l = 0
          by_cases htx : t = x
          · subst htx; exact delivery_count_preprocess_self _ _ _ _ hlt
          · rw [delivery_count_preprocess_other _ _ _ _
              (by rw [hlt]; intro e; exact htx (Option.some.inj e))]
            refine hd p l t hlt ⟨j, ?_, hjm⟩
            by_contra hji
            have : j = i := by omega
            subst this
            rw [hm] at hjm
            exact htx (Option.some.inj hjm).symm)
  simpa using this

theorem BlockInv.weaken {links : ModulePtr → List module_link} {S S' : ModulePtr → Prop}
    {h t : List (Call α ν)} (hinv : BlockInv links S h t) (hS : ∀ x, S x → S' x) :
    BlockInv links S' h t :=
  ⟨hinv.once, hinv.slack,
    fun m hm => (hinv.origin m hm).elim (fun a => Or.inl (hS m a)) Or.inr, hinv.fed⟩

/-- The push of one source module from a point where no traversal is under way. -/
theorem push_source (w : World α ν O) (links : ModulePtr → List module_link)
    (S S' : ModulePtr → Prop) (rank : ModulePtr → Nat)
    (hC : ReadinessContract w links)
    (hE : ∀ p l, l ∈ links p → l.enabled = true)
    (hT : ∀ p l, l ∈ links p → ∃ t, l.target_module = some t ∧ rank t < rank p)
    (hN : ∀ p, (links p).Nodup) (fuel : Nat) (o : processor_orchestrator)
    (base : List (Call α ν)) (m : ModulePtr) (s : State α ν O)
    (hS1 : ∀ x, S x → S' x) (hS2 : S' m) (hS3 : ∀ x, S' x → S x ∨ x = m) (hnew : ¬ S m)
    (hroot : ¬ HasIncoming links m) (hrank : rank m < fuel)
    (hq : Quiet links S o base s) :
    (push w fuel (some m) s).status = Status.ok ∧
      Quiet links S' o base (push w fuel (some m) s).state := by
  obtain ⟨hl, ho, t, htr, hinv, hcomp, hans, hpushed⟩ := hq
  have hp0 : process_count m t = 0 := by
    by_contra hne
    rcases hinv.origin m (by omega) with h | h
    · exact hnew h
    · exact hroot h
  obtain ⟨t2, ha, hdone⟩ := push_advance w links S' rank hC hE hT hN fuel m s t hl
    (hinv.weaken hS1) (Or.inl hS2) hp0 (fun x _ hx hd => hans x hx hd) hrank
  have hready : w.can_process m links s.trace = true :=
    (contract_all_delivered w links hC hE s.trace m).mpr
      (fun p l hl ht => absurd ⟨p, l, hl, ht⟩ hroot)
  refine ⟨ha.status, ha.links_eq.trans hl, ha.orchestrator_eq.trans ho, t ++ t2, ?_, ha.inv,
    ?_, ha.answered, ?_⟩
  · rw [ha.trace_eq, htr, List.append_assoc]
  · intro x hx l hlx
    by_cases h0 : process_count x t = 0
    · exact ha.complete x h0 hx l hlx
    · have := hcomp x (by omega) l hlx
      have := ha.mono x l
      omega
  · intro x hx
    rcases hS3 x hx with h | h
    · have := hpushed x h
      rw [process_count_append]; omega
    · subst h; exact hdone hready

theorem Quiet.congr {links : ModulePtr → List module_link} {S S' : ModulePtr → Prop}
    {o : processor_orchestrator} {base : List (Call α ν)} {s : State α ν O}
    (hq : Quiet links S o base s) (hS : ∀ x, S x ↔ S' x) : Quiet links S' o base s := by
  obtain ⟨hl, ho, t, htr, hinv, hcomp, hans, hpushed⟩ := hq
  exact ⟨hl, ho, t, htr, hinv.weaken (fun x => (hS x).mp), hcomp, hans,
    fun x hx => hpushed x ((hS x).mpr hx)⟩

theorem mem_source_modules (o : processor_orchestrator) (x : Option ModulePtr) :
    x ∈ source_modules o ↔
      (∃ j, j < o.nb_midi_input_modules_ ∧ o.sources_midi_input_modules_ j = x) ∨
      (∃ j, j < o.nb_audio_input_modules_ ∧ o.sources_audio_input_modules_ j = x) := by
  simp [source_modules]

theorem source_modules_nodup (o : processor_orchestrator) (h : (source_modules o).Nodup) :
    (∀ i j, i < o.nb_midi_input_modules_ → j < i →
      o.sources_midi_input_modules_ j ≠ o.sources_midi_input_modules_ i) ∧
    (∀ i j, i < o.nb_audio_input_modules_ → j < i →
      o.sources_audio_input_modules_ j ≠ o.sources_audio_input_modules_ i) ∧
    (∀ i j, i < o.nb_audio_input_modules_ → j < o.nb_midi_input_modules_ →
      o.sources_midi_input_modules_ j ≠ o.sources_audio_input_modules_ i) := by
  unfold source_modules at h
  obtain ⟨h1, h2, h3⟩ := List.nodup_append.mp h
  refine ⟨?_, ?_, ?_⟩
  · intro i j hi hj e
    have := List.inj_on_of_nodup_map h1 (List.mem_range.mpr (by omega : j < _))
      (List.mem_range.mpr hi) e
    omega
  · intro i j hi hj e
    have := List.inj_on_of_nodup_map h2 (List.mem_range.mpr (by omega : j < _))
      (List.mem_range.mpr hi) e
    omega
  · intro i j hi hj e
    refine List.disjoint_left.mp h3 (List.mem_map.mpr ⟨j, List.mem_range.mpr hj, rfl⟩) ?_
    rw [e]
    exact List.mem_map.mpr ⟨i, List.mem_range.mpr hi, rfl⟩

/-- Single execution per block for a graph with a rank that falls along every link. -/
theorem process_single_execution_ranked (w : World α ν O) (fuel : Nat) (rank : ModulePtr → Nat)
    (st : State α ν O)
    (hbypass : st.orchestrator.bypass_ = false)
    (hcontract : ReadinessContract w st.links)
    (henabled : ∀ p l, l ∈ st.links p → l.enabled = true)
    (hnodup : ∀ p, (st.links p).Nodup)
    (hacyclic : ∀ p l, l ∈ st.links p → ∃ t, l.target_module = some t ∧ rank t < rank p)
    (htargets : ∀ p l t, l ∈ st.links p → l.target_module = some t →
      ∃ i, i < st.orchestrator.nb_modules_ ∧ st.orchestrator.processor_modules_ i = some t)
    (hcount : st.orchestrator.nb_modules_ ≤ max_nb_modules)
    (hmodules : ∀ i, i < st.orchestrator.nb_modules_ →
      st.orchestrator.processor_modules_ i ≠ none)
    (hcap : st.orchestrator.nb_midi_input_modules_ ≤ w.max_nb_sources ∧
      st.orchestrator.nb_audio_input_modules_ ≤ w.max_nb_sources)
    (hsources : (source_modules st.orchestrator).Nodup)
    (hnonnull : none ∉ source_modules st.orchestrator)
    (hroots : ∀ s, some s ∈ source_modules st.orchestrator → ¬ HasIncoming st.links s)
    (hfuel : ∀ s, some s ∈ source_modules st.orchestrator → rank s < fuel)
    (bound : Nat) (hbound : ∀ m, rank m ≤ bound) :
    (process w fuel st).status = Status.ok ∧
    ∃ t, (process w fuel st).state.trace = st.trace ++ t ∧
      (∀ m, process_count m t ≤ 1) ∧
      (∀ m, Driven st.links (source_modules st.orchestrator) m → process_count m t = 1) ∧
      (∀ m, ¬ Driven st.links (source_modules st.orchestrator) m → process_count m t = 0) := by
  -- the preprocess loop
  obtain ⟨hs1, hl1, ho1, pre, htr1, hpre, hzero⟩ :=
    preprocess_loop st st.orchestrator.nb_modules_ hcount hmodules
  generalize hst1 : (for_loop preprocess_body st.orchestrator.nb_modules_ 0 st).state = s1
    at hl1 ho1 htr1 hzero
  have hz : ∀ p l, l ∈ st.links p → delivery_count s1.trace p l = 0 := by
    intro p l hl
    obtain ⟨t, ht, _⟩ := hacyclic p l hl
    exact hzero p l t ht (htargets p l t hl ht)
  obtain ⟨hnd1, hnd2, hnd3⟩ := source_modules_nodup st.orchestrator hsources
  have hq0 : Quiet st.links (fun x => ∃ j, j < 0 ∧
      st.orchestrator.sources_midi_input_modules_ j = some x) st.orchestrator s1.trace s1 := by
    refine ⟨hl1, ho1, [], by simp, ⟨fun _ => Nat.zero_le _, ?_, ?_, ?_⟩, ?_, ?_, ?_⟩
    · intro p l hl; rw [hz p l hl]; exact Nat.zero_le _
    · intro m hm; simp [process_count] at hm
    · intro m hm; simp [process_count] at hm
    · intro x hx; simp [process_count] at hx
    · intro x ⟨p, l, hl, ht⟩ hd
      have := hd p l hl ht
      rw [hz p l hl] at this
      omega
    · intro x ⟨j, hj, _⟩; omega
  -- the loop over the event sources
  have hmidi := for_loop_invariant (push_midi_body w fuel)
    (fun i (s : State α ν O) => Quiet st.links (fun x => ∃ j, j < i ∧
      st.orchestrator.sources_midi_input_modules_ j = some x) st.orchestrator s1.trace s)
    st.orchestrator.nb_midi_input_modules_ 0 s1 hq0
    (by
      intro i s _ hi hq
      have hi' : i < st.orchestrator.nb_midi_input_modules_ := by omega
      have hmem : st.orchestrator.sources_midi_input_modules_ i ∈
          source_modules st.orchestrator :=
        (mem_source_modules _ _).mpr (Or.inl ⟨i, hi', rfl⟩)
      unfold push_midi_body
      rw [if_pos (by omega), hq.2.1]
      cases hm : st.orchestrator.sources_midi_input_modules_ i with
      | none => rw [hm] at hmem; exact absurd hmem hnonnull
      | some m =>
        rw [hm] at hmem
        refine push_source w st.links _ _ rank hcontract henabled hacyclic hnodup fuel
          st.orchestrator s1.trace m s ?_ ⟨i, by omega, hm⟩ ?_ ?_ (hroots m hmem)
          (hfuel m hmem) hq
        · rintro x ⟨j, hj, hx⟩; exact ⟨j, by omega, hx⟩
        · rintro x ⟨j, hj, hx⟩
          by_cases hji : j = i
          · subst hji; rw [hm] at hx; exact Or.inr (Option.some.inj hx).symm
          · exact Or.inl ⟨j, by omega, hx⟩
        · rintro ⟨j, hj, hx⟩
          exact hnd1 i j hi' hj (by rw [hx, hm]))
  obtain ⟨hs2, hq2⟩ := hmidi
  generalize hst2 : (for_loop (push_midi_body w fuel) st.orchestrator.nb_midi_input_modules_ 0
    s1).state = s2 at hq2
  simp only [Nat.zero_add] at hq2
  -- the loop over the audio sources
  have haudio := for_loop_invariant (push_audio_body w fuel)
    (fun i (s : State α ν O) => Quiet st.links (fun x =>
      (∃ j, j < st.orchestrator.nb_midi_input_modules_ ∧
        st.orchestrator.sources_midi_input_modules_ j = some x) ∨
      (∃ j, j < i ∧ st.orchestrator.sources_audio_input_modules_ j = some x))
      st.orchestrator s1.trace s)
    st.orchestrator.nb_audio_input_modules_ 0 s2
    (hq2.congr (fun x => ⟨Or.inl, fun h => h.elim id (fun ⟨j, hj, _⟩ => absurd hj (by omega))⟩))
    (by
      intro i s _ hi hq
      have hi' : i < st.orchestrator.nb_audio_input_modules_ := by omega
      have hmem : st.orchestrator.sources_audio_input_modules_ i ∈
          source_modules st.orchestrator :=
        (mem_source_modules _ _).mpr (Or.inr ⟨i, hi', rfl⟩)
      unfold push_audio_body
      rw [if_pos (by omega), hq.2.1]
      cases hm : st.orchestrator.sources_audio_input_modules_ i with
      | none => rw [hm] at hmem; exact absurd hmem hnonnull
      | some m =>
        rw [hm] at hmem
        refine push_source w st.links _ _ rank hcontract henabled hacyclic hnodup fuel
          st.orchestrator s1.trace m s ?_ (Or.inr ⟨i, by omega, hm⟩) ?_ ?_ (hroots m hmem)
          (hfuel m hmem) hq
        · rintro x (h | ⟨j, hj, hx⟩)
          · exact Or.inl h
          · exact Or.inr ⟨j, by omega, hx⟩
        · rintro x (h | ⟨j, hj, hx⟩)
          · exact Or.inl (Or.inl h)
          · by_cases hji : j = i
            · subst hji; rw [hm] at hx; exact Or.inr (Option.some.inj hx).symm
            · exact Or.inl (Or.inr ⟨j, by omega, hx⟩)
        · rintro (⟨j, hj, hx⟩ | ⟨j, hj, hx⟩)
          · exact hnd3 i j hi' hj (by rw [hx, hm])
          · exact hnd2 i j hi' hj (by rw [hx, hm]))
  obtain ⟨hs3, hq3⟩ := haudio
  -- the three loops together
  have hrun : process w fuel st =
      for_loop (push_audio_body w fuel) st.orchestrator.nb_audio_input_modules_ 0 s2 := by
    unfold process
    rw [hbypass]
    simp only [Bool.not_false, if_true]
    rw [Run.andThen_of_status _ _ hs1, hst1, ho1, Run.andThen_of_status _ _ hs2, hst2, hq2.2.1]
  rw [hrun]
  obtain ⟨_, _, t, htr3, hinv, hcomp, hans, hpushed⟩ := hq3
  have hconv : ∀ k m, bound - rank m ≤ k → 1 ≤ process_count m t →
      Driven st.links (source_modules st.orchestrator) m := by
    intro k
    induction k with
    | zero =>
      intro m hk hm
      rcases hinv.origin m hm with (⟨j, hj, hx⟩ | ⟨j, hj, hx⟩) | ⟨p, l, hl, ht⟩
      · exact Driven.source m ((mem_source_modules _ _).mpr (Or.inl ⟨j, hj, hx⟩))
      · exact Driven.source m ((mem_source_modules _ _).mpr (Or.inr ⟨j, by omega, hx⟩))
      · obtain ⟨t', ht', hr⟩ := hacyclic p l hl
        rw [ht] at ht'
        rw [← Option.some.inj ht'] at hr
        have := hbound p
        omega
    | succ k ih =>
      intro m hk hm
      rcases hinv.origin m hm with (⟨j, hj, hx⟩ | ⟨j, hj, hx⟩) | hin
      · exact Driven.source m ((mem_source_modules _ _).mpr (Or.inl ⟨j, hj, hx⟩))
      · exact Driven.source m ((mem_source_modules _ _).mpr (Or.inr ⟨j, by omega, hx⟩))
      · refine Driven.inner m hin ?_
        intro p l hl ht
        obtain ⟨t', ht', hr⟩ := hacyclic p l hl
        rw [ht] at ht'
        rw [← Option.some.inj ht'] at hr
        have h1 := hinv.fed m hm p l hl ht
        have h2 := hinv.slack p l hl
        have := hbound p
        exact ih p (by omega) (by omega)
  refine ⟨hs3, pre ++ t, by rw [htr3, htr1, List.append_assoc], ?_, ?_, ?_⟩
  · intro m
    rw [process_count_append, hpre, Nat.zero_add]
    exact hinv.once m
  · intro m hm
    have key : 1 ≤ process_count m t := by
      induction hm with
      | source m hmem =>
        apply hpushed
        rcases (mem_source_modules _ _).mp hmem with ⟨j, hj, hx⟩ | ⟨j, hj, hx⟩
        · exact Or.inl ⟨j, hj, hx⟩
        · exact Or.inr ⟨j, by omega, hx⟩
      | inner m hin _ ih =>
        refine hans m hin ?_
        intro p l hl ht
        exact hcomp p (ih p l hl ht) l hl
    have := hinv.once m
    rw [process_count_append, hpre]
    omega
  · intro m hm
    rw [process_count_append, hpre, Nat.zero_add]
    by_contra hne
    exact hm (hconv (bound - rank m) m (le_refl _) (by omega))

/-! ### Graphs without directed cycle -/

theorem le_foldr_max (xs : List Nat) (x : Nat) (h : x ∈ xs) : x ≤ xs.foldr max 0 := by
  induction xs with
  | nil => simp at h
  | cons y ys ih =>
    simp only [List.foldr_cons, List.mem_cons] at h ⊢
    rcases h with rfl | h
    · exact le_max_left _ _
    · exact le_trans (ih h) (le_max_right _ _)

theorem foldr_max_mem (xs : List Nat) : xs.foldr max 0 = 0 ∨ xs.foldr max 0 ∈ xs := by
  induction xs with
  | nil => exact Or.inl rfl
  | cons y ys ih =>
    simp only [List.foldr_cons, List.mem_cons]
    rcases le_total y (ys.foldr max 0) with h | h
    · rw [max_eq_right h]
      rcases ih with h0 | h1
      · exact Or.inl h0
      · exact Or.inr (Or.inr h1)
    · rw [max_eq_left h]
      exact Or.inr (Or.inl rfl)

/-- A path of `height links k m` links leaves `m`. -/
theorem height_path (links : ModulePtr → List module_link) (k : Nat) :
    ∀ m, ∃ path, link_path links m path ∧ path.length = height links k m := by
  induction k with
  | zero => intro m; exact ⟨[], trivial, rfl⟩
  | succ k ih =>
    intro m
    unfold height
    rcases foldr_max_mem ((links m).map fun l =>
      match l.target_module with
      | some t => height links k t + 1
      | none => 0) with h0 | h1
    · rw [h0]; exact ⟨[], trivial, rfl⟩
    · obtain ⟨l, hl, hv⟩ := List.mem_map.mp h1
      rw [← hv]
      cases ht : l.target_module with
      | none => exact ⟨[], trivial, rfl⟩
      | some t =>
        obtain ⟨path, hp, hlen⟩ := ih t
        exact ⟨t :: path, ⟨⟨l, hl, ht⟩, hp⟩, by simp [hlen]⟩

/-- No path of at most `k` links that leaves `m` is longer than `height links k m`. -/
theorem le_height (links : ModulePtr → List module_link) (k : Nat) :
    ∀ m path, link_path links m path → path.length ≤ k → path.length ≤ height links k m := by
  induction k with
  | zero => intro m path _ h; exact h
  | succ k ih =>
    intro m path hp hlen
    cases path with
    | nil => exact Nat.zero_le _
    | cons t rest =>
      obtain ⟨⟨l, hl, ht⟩, hrest⟩ := hp
      have h1 := ih t rest hrest (by simpa using hlen)
      unfold height
      refine le_trans ?_ (le_foldr_max _ (height links k t + 1)
        (List.mem_map.mpr ⟨l, hl, by rw [ht]⟩))
      simpa using h1

theorem link_path_append (links : ModulePtr → List module_link) :
    ∀ (a : List ModulePtr) (m x : ModulePtr) (b : List ModulePtr),
      link_path links m (a ++ x :: b) → link_path links m (a ++ [x]) ∧ link_path links x b := by
  intro a
  induction a with
  | nil => intro m x b h; exact ⟨⟨h.1, trivial⟩, h.2⟩
  | cons y ys ih =>
    intro m x b h
    obtain ⟨h1, h2⟩ := h
    obtain ⟨h3, h4⟩ := ih y x b h2
    exact ⟨⟨h1, h3⟩, h4⟩

/-- In a graph without directed cycle a path visits no module twice. -/
theorem link_path_nodup (links : ModulePtr → List module_link) (hno : NoCycle links) :
    ∀ path m, link_path links m path → path.Nodup := by
  intro path
  induction path with
  | nil => intro _ _; exact List.nodup_nil
  | cons t rest ih =>
    intro m hp
    refine List.nodup_cons.mpr ⟨?_, ih t hp.2⟩
    intro hmem
    obtain ⟨a, b, hab⟩ := List.append_of_mem hmem
    have h := hp.2
    rw [hab] at h
    have hc := (link_path_append links a t t b h).1
    exact hno t (a ++ [t]) (by simp) hc (by simp)

theorem link_path_targets (links : ModulePtr → List module_link) (Q : ModulePtr → Prop)
    (hQ : ∀ p l t, l ∈ links p → l.target_module = some t → Q t) :
    ∀ path m, link_path links m path → ∀ t, t ∈ path → Q t := by
  intro path
  induction path with
  | nil => intro _ _ t ht; simp at ht
  | cons x rest ih =>
    intro m hp t ht
    obtain ⟨⟨l, hl, hlt⟩, hrest⟩ := hp
    rcases List.mem_cons.mp ht with rfl | h
    · exact hQ m l t hl hlt
    · exact ih x hrest t h

theorem mem_registered_modules (o : processor_orchestrator) (t : ModulePtr) :
    t ∈ registered_modules o ↔ ∃ i, i < o.nb_modules_ ∧ o.processor_modules_ i = some t := by
  simp [registered_modules]

/-- In a graph without directed cycle whose links lead to registered modules, no path is
longer than the number of registered modules, and the height falls along every link. -/
theorem height_descends (links : ModulePtr → List module_link) (o : processor_orchestrator)
    (hno : NoCycle links)
    (htargets : ∀ p l, l ∈ links p →
      ∃ t, l.target_module = some t ∧ t ∈ registered_modules o) :
    (∀ m, height links o.nb_modules_ m ≤ o.nb_modules_) ∧
    ∀ p l, l ∈ links p →
      ∃ t, l.target_module = some t ∧
        height links o.nb_modules_ t < height links o.nb_modules_ p := by
  have hlen : ∀ m path, link_path links m path → path.length ≤ o.nb_modules_ := by
    intro m path hp
    have hnd := link_path_nodup links hno path m hp
    have hsub : path ⊆ registered_modules o := by
      intro t ht
      refine link_path_targets links (fun t => t ∈ registered_modules o) ?_ path m hp t ht
      intro p l t hl hlt
      obtain ⟨t', ht', hr⟩ := htargets p l hl
      rw [hlt] at ht'
      rw [Option.some.inj ht']; exact hr
    have h1 := (List.subperm_of_subset hnd hsub).length_le
    have h2 : (registered_modules o).length ≤ o.nb_modules_ := by
      unfold registered_modules
      exact le_trans (List.length_filterMap_le _ _) (by simp)
    omega
  constructor
  · intro m
    obtain ⟨path, hp, hl⟩ := height_path links o.nb_modules_ m
    rw [← hl]; exact hlen m path hp
  · intro p l hl
    obtain ⟨t, ht, _⟩ := htargets p l hl
    refine ⟨t, ht, ?_⟩
    obtain ⟨path, hp, hpl⟩ := height_path links o.nb_modules_ t
    have hp' : link_path links p (t :: path) := ⟨⟨l, hl, ht⟩, hp⟩
    have h1 := hlen p (t :: path) hp'
    have h2 := le_height links o.nb_modules_ p (t :: path) hp' h1
    simp only [List.length_cons] at h2
    omega

/-- C1 as the code has it. Take a graph without directed cycle whose modules follow the
readiness contract, whose links are all enabled, pairwise different within a module and
lead to registered modules, and whose source modules are registered once each and have
no incoming link. Then a non-bypassed `process(context)` completes (a recursion budget
above the number of modules is enough), calls `process` at most once on every module,
exactly once on every module the sources drive (a source, or a module with an incoming
link all of whose parents are driven) and not at all on the other modules. -/
theorem process_single_execution (w : World α ν O) (fuel : Nat) (st : State α ν O)
    (hbypass : st.orchestrator.bypass_ = false)
    (hcontract : ReadinessContract w st.links)
    (henabled : ∀ p l, l ∈ st.links p → l.enabled = true)
    (hnodup : ∀ p, (st.links p).Nodup)
    (hacyclic : NoCycle st.links)
    (htargets : ∀ p l, l ∈ st.links p →
      ∃ t, l.target_module = some t ∧ t ∈ registered_modules st.orchestrator)
    (hcount : st.orchestrator.nb_modules_ ≤ max_nb_modules)
    (hmodules : ∀ i, i < st.orchestrator.nb_modules_ →
      st.orchestrator.processor_modules_ i ≠ none)
    (hcap : st.orchestrator.nb_midi_input_modules_ ≤ w.max_nb_sources ∧
      st.orchestrator.nb_audio_input_modules_ ≤ w.max_nb_sources)
    (hsources : (source_modules st.orchestrator).Nodup)
    (hnonnull : none ∉ source_modules st.orchestrator)
    (hroots : ∀ s, some s ∈ source_modules st.orchestrator → ¬ HasIncoming st.links s)
    (hfuel : st.orchestrator.nb_modules_ < fuel) :
    (process w fuel st).status = Status.ok ∧
    ∃ t, (process w fuel st).state.trace = st.trace ++ t ∧
      (∀ m, process_count m t ≤ 1) ∧
      (∀ m, Driven st.links (source_modules st.orchestrator) m → process_count m t = 1) ∧
      (∀ m, ¬ Driven st.links (source_modules st.orchestrator) m → process_count m t = 0) := by
  obtain ⟨hbound, hdesc⟩ := height_descends st.links st.orchestrator hacyclic htargets
  refine process_single_execution_ranked w fuel (height st.links st.orchestrator.nb_modules_) st
    hbypass hcontract henabled hnodup hdesc ?_ hcount hmodules hcap hsources hnonnull hroots ?_
    st.orchestrator.nb_modules_ hbound
  · intro p l t hl ht
    obtain ⟨t', ht', hr⟩ := htargets p l hl
    rw [ht] at ht'
    rw [Option.some.inj ht']
    exact (mem_registered_modules _ _).mp hr
  · intro s _
    have := hbound s
    omega

/-! ## Routing of audio buffers -/

theorem Run.andThen_preserves {σ : Type} (Q : σ → Prop) (r : Run σ) (f : σ → Run σ)
    (hr : Q r.state) (hf : ∀ s, Q s → Q (f s).state) : Q (r.andThen f).state := by
  unfold Run.andThen
  split
  · exact hf _ hr
  · exact hr

theorem Run.andThen_status {σ : Type} (r : Run σ) (f : σ → Run σ)
    (h : (r.andThen f).status = Status.ok) :
    r.status = Status.ok ∧ (f r.state).status = Status.ok := by
  by_cases hr : r.status = Status.ok
  · rw [Run.andThen_of_status _ _ hr] at h; exact ⟨hr, h⟩
  · rw [Run.andThen_of_not_ok _ _ hr] at h; exact absurd h hr

/-- A property of the state that every iteration keeps holds after the loop, however the
loop ends. -/
theorem for_loop_preserves {σ : Type} (body : Nat → σ → Run σ) (Q : σ → Prop)
    (hbody : ∀ i s, Q s → Q (body i s).state) (count : Nat) :
    ∀ (i : Nat) (s : σ), Q s → Q (for_loop body count i s).state := by
  induction count with
  | zero => intro i s h; exact h
  | succ k ih =>
    intro i s h
    exact Run.andThen_preserves Q _ _ (hbody i s h) (fun s' hs' => ih (i + 1) s' hs')

/-- The audio-source fields of the orchestrator. -/
theorem delete_processor_audio (id : Nat) (st : State α ν O) :
    (delete_processor id st).state.orchestrator.nb_audio_input_modules_ =
      st.orchestrator.nb_audio_input_modules_ ∧
    (delete_processor id st).state.orchestrator.sources_audio_input_modules_ =
      st.orchestrator.sources_audio_input_modules_ := by
  let Q : State α ν O → Prop := fun s =>
    s.orchestrator.nb_audio_input_modules_ = st.orchestrator.nb_audio_input_modules_ ∧
    s.orchestrator.sources_audio_input_modules_ = st.orchestrator.sources_audio_input_modules_
  show Q (delete_processor id st).state
  have h1 : ∀ t i s, Q s → Q (delete_unlink_body t i s : Run (State α ν O)).state := by
    intro t i s hs
    unfold delete_unlink_body
    split
    · split
      · exact hs
      · exact hs
    · exact hs
  have h2 : ∀ i s, Q s → Q (delete_shift_body i s : Run (State α ν O)).state := by
    intro i s hs
    unfold delete_shift_body
    split
    · exact hs
    · exact hs
  unfold delete_processor
  split
  · exact Run.andThen_preserves Q _ _ (for_loop_preserves _ Q (h1 _) _ 0 st ⟨rfl, rfl⟩)
      (fun s hs => Run.andThen_preserves Q _ _ (for_loop_preserves _ Q h2 _ id s hs)
        (fun s hs => hs))
  · exact ⟨rfl, rfl⟩

/-- Where the audio-source list the code keeps is the view of the registered audio
sources, `process_input_audio(buffer, bus_id)` with `bus_id` below the number of
registered audio sources makes one call, `set_buffer(buffer)` on the registered audio
source number `bus_id`, and changes nothing else. -/
theorem process_input_audio_routes_view (w : World α ν O) (st : State α ν O)
    (buffer bus_id : Nat) (m : ModulePtr)
    (hview : audio_source_list st.orchestrator =
      (registered_audio_sources w st.orchestrator).map some)
    (hcap : st.orchestrator.nb_audio_input_modules_ ≤ w.max_nb_sources)
    (hreg : (registered_audio_sources w st.orchestrator)[bus_id]? = some m) :
    process_input_audio w buffer bus_id st =
      Run.ok (st.call (Call.set_buffer m buffer)) := by
  have hlen : st.orchestrator.nb_audio_input_modules_ =
      (registered_audio_sources w st.orchestrator).length := by
    have := congrArg List.length hview
    simpa [audio_source_list] using this
  have hlt : bus_id < (registered_audio_sources w st.orchestrator).length := by
    by_contra hge
    rw [List.getElem?_eq_none (by omega)] at hreg
    exact Option.noConfusion hreg
  have hentry : st.orchestrator.sources_audio_input_modules_ bus_id = some m := by
    have h1 : (audio_source_list st.orchestrator)[bus_id]? =
        some (st.orchestrator.sources_audio_input_modules_ bus_id) := by
      unfold audio_source_list
      rw [List.getElem?_map, List.getElem?_range (by omega)]
      rfl
    rw [hview, List.getElem?_map, hreg] at h1
    exact (Option.some.inj h1).symm
  unfold process_input_audio get_audio_input_module_for_buffer
  rw [if_pos ⟨by omega, by omega⟩]
  simp only [Int.toNat_ofNat, hentry, call_on]

/-- An orchestrator without modules and without sources has the view. -/
theorem new_view (w : World α ν O) :
    audio_source_list processor_orchestrator.new =
      (registered_audio_sources w processor_orchestrator.new).map some := by
  rfl
/-! ## Bypass, events and parameters -/

/-- C7, bypass. With bypass enabled `process(context)` returns at once: it makes no call
on any module (the history of calls is unchanged) and leaves the orchestrator, the link
lists and the output accumulator of the block context as they were. -/
theorem process_bypass (w : World α ν O) (fuel : Nat) (st : State α ν O)
    (h : st.orchestrator.bypass_ = true) :
    process w fuel st = Run.ok st ∧
    (process w fuel st).state.trace = st.trace ∧
    (process w fuel st).state.orchestrator = st.orchestrator ∧
    (process w fuel st).state.output = st.output := by
  have : process w fuel st = Run.ok st := by simp [process, h]
  rw [this]
  exact ⟨rfl, rfl, rfl, rfl⟩

/-- C9, event dead-letters. For every event whose bus index lies within the array of
event sources and whose type is poly-pressure, note-expression-value,
note-expression-text, chord, scale or legacy-CC-out, `process_input_event` completes,
calls no handler and leaves the whole state unchanged. -/
theorem process_input_event_dead_letter (w : World α ν O) (e : event ν) (st : State α ν O)
    (hbus : 0 ≤ e.bus_index ∧ e.bus_index < w.max_nb_sources)
    (htype : e.type = event_type.poly_pressure_event ∨
      e.type = event_type.note_expression_value_event ∨
      e.type = event_type.note_expression_text_event ∨
      e.type = event_type.chord_event ∨
      e.type = event_type.scale_event ∨
      e.type = event_type.legacy_midi_cc_out_event) :
    process_input_event w e st = Run.ok st := by
  unfold process_input_event get_midi_input_module_for_event
  rw [if_pos hbus]
  rcases htype with h | h | h | h | h | h <;> simp [h]

/-- Note-on and note-off events are routed: when the event source stored at the event's
bus index is `m`, `process_input_event` makes exactly one call, the handler that matches
the tag, on `m`, with the payload member of that tag. -/
theorem process_input_event_note (w : World α ν O) (e : event ν) (st : State α ν O)
    (m : ModulePtr)
    (hbus : 0 ≤ e.bus_index ∧ e.bus_index < w.max_nb_sources)
    (hm : st.orchestrator.sources_midi_input_modules_ e.bus_index.toNat = some m) :
    (e.type = event_type.note_on →
      process_input_event w e st = Run.ok (st.call (Call.note_on m e.core_event.note_on))) ∧
    (e.type = event_type.note_off →
      process_input_event w e st = Run.ok (st.call (Call.note_off m e.core_event.note_off))) := by
  unfold process_input_event get_midi_input_module_for_event
  rw [if_pos hbus]
  constructor <;> intro h <;> simp [h, hm, call_on]

/-- The id `(module_index << 16) | slot` splits into its two parts. -/
theorem parameter_id_split (module_index slot : Nat) (hs : slot < 2 ^ 16) :
    (module_index <<< 16 ||| slot) >>> 16 = module_index ∧
    (module_index <<< 16 ||| slot) &&& 0xffff = slot := by
  have e : module_index <<< 16 ||| slot = 2 ^ 16 * module_index + slot := by
    rw [Nat.mul_add_lt_is_or hs, Nat.shiftLeft_eq, Nat.mul_comm]
  rw [e]
  constructor
  · rw [Nat.shiftRight_eq_div_pow]; omega
  · have : (0xffff : Nat) = 2 ^ 16 - 1 := by norm_num
    rw [this, Nat.and_pow_two_sub_one_eq_mod]; omega

/-- C6, parameter routing. When `parameter_id >> 16` is the index of a registered
module `m`, `parameter_changed` completes and makes exactly one call:
`set_input_values` on `m`, slot `parameter_id & 0xffff`, with a count of 1 and the array
that holds the one value `float_module_output(0, value)`; no other call is made and
nothing else changes. In particular the id `(module_index << 16) | slot` with
`slot < 2^16` addresses slot `slot` of the module at `module_index`. -/
theorem parameter_changed_routes (parameter_id : Nat) (sample_offset : Int) (value : α)
    (st : State α ν O) (m : ModulePtr)
    (hn : st.orchestrator.nb_modules_ ≤ max_nb_modules)
    (hid : parameter_id >>> 16 < st.orchestrator.nb_modules_)
    (hm : st.orchestrator.processor_modules_ (parameter_id >>> 16) = some m) :
    parameter_changed parameter_id sample_offset value st =
      Run.ok (st.call (Call.set_input_values m (parameter_id &&& 0xffff)
        (single_input_values value) 1)) ∧
    (single_input_values value).head? =
      some (some (module_output.float_module_output 0 value)) ∧
    ∀ module_index slot, slot < 2 ^ 16 → parameter_id = module_index <<< 16 ||| slot →
      parameter_id >>> 16 = module_index ∧ parameter_id &&& 0xffff = slot := by
  have h1 : parameter_id >>> 16 < 128 := by unfold max_nb_modules at hn; omega
  have h2 : (parameter_id >>> 16) % 2 ^ 32 = parameter_id >>> 16 := Nat.mod_eq_of_lt (by omega)
  have h3 : (parameter_id &&& 0xffff) % 2 ^ 32 = parameter_id &&& 0xffff := by
    apply Nat.mod_eq_of_lt
    have : parameter_id &&& 0xffff ≤ 0xffff := Nat.and_le_right
    omega
  refine ⟨?_, rfl, ?_⟩
  · unfold parameter_changed
    simp only [h2, h3, max_nb_modules, h1, if_true, hm, call_on]
  · intro module_index slot hs he
    rw [he]
    exact parameter_id_split module_index slot hs

/-! ## The example graphs -/

theorem links_of_forall (table : List (ModulePtr × List module_link))
    (Q : ModulePtr → module_link → Prop) (h : ∀ e, e ∈ table → ∀ l, l ∈ e.2 → Q e.1 l) :
    ∀ p l, l ∈ links_of table p → Q p l := by
  induction table with
  | nil => intro p l hl; simp [links_of] at hl
  | cons e rest ih =>
    intro p l hl
    obtain ⟨k, v⟩ := e
    unfold links_of at hl
    rw [List.lookup_cons] at hl
    by_cases hk : p = k
    · subst hk
      simp only [beq_self_eq_true] at hl
      exact h (p, v) (by simp) l hl
    · have : (p == k) = false := by simpa using hk
      simp only [this] at hl
      exact ih (fun e he => h e (by simp [he])) p l hl

theorem links_of_support (table : List (ModulePtr × List module_link)) (modules : List ModulePtr)
    (h : ∀ e, e ∈ table → e.1 ∈ modules) (p : ModulePtr) (hp : p ∉ modules) :
    links_of table p = [] := by
  cases hl : links_of table p with
  | nil => rfl
  | cons l rest =>
    have := links_of_forall table (fun q _ => q ∈ modules) (fun e he _ _ => h e he) p l
      (by rw [hl]; simp)
    exact absurd this hp

/-- The modules of the example worlds follow the readiness contract. -/
theorem example_world_contract (table : List (ModulePtr × List module_link))
    (modules event_sources audio_sources : List ModulePtr)
    (h : ∀ e, e ∈ table → e.1 ∈ modules) :
    ReadinessContract (example_world modules event_sources audio_sources) (links_of table) := by
  intro hist m
  show ready modules m (links_of table) hist = true ↔ _
  unfold ready
  simp only [List.all_eq_true, Bool.or_eq_true, Bool.not_eq_true', decide_eq_false_iff_not,
    decide_eq_true_eq]
  constructor
  · intro H p l hl he ht
    by_cases hp : p ∈ modules
    · rcases H p hp l hl with (h1 | h1) | h1
      · rw [he] at h1; exact absurd h1 (by simp)
      · exact absurd ht h1
      · exact h1
    · rw [links_of_support table modules h p hp] at hl
      simp at hl
  · intro H p _ l hl
    by_cases he : l.enabled = true
    · by_cases ht : l.target_module = some m
      · exact Or.inr (H p l hl he ht)
      · exact Or.inl (Or.inr ht)
    · exact Or.inl (Or.inl (by simpa using he))

/-- In the example worlds a module of type `audio_input` is an `audio_input` object. -/
theorem example_world_cast (modules event_sources audio_sources : List ModulePtr)
    (p : ModulePtr)
    (h : (example_world modules event_sources audio_sources).get_type p =
      processor_module_type.audio_input) :
    (example_world modules event_sources audio_sources).is_audio_input p = true := by
  simp only [example_world] at h ⊢
  by_cases h1 : p ∈ event_sources
  · rw [if_pos h1] at h; exact absurd h (by decide)
  · rw [if_neg h1] at h
    by_cases h2 : p ∈ audio_sources
    · simpa using h2
    · rw [if_neg h2] at h; exact absurd h (by decide)

theorem link_descends_spec (rank : ModulePtr → Nat) (p : ModulePtr) (l : module_link)
    (h : link_descends rank p l = true) : ∃ t, l.target_module = some t ∧ rank t < rank p := by
  unfold link_descends at h
  cases ht : l.target_module with
  | none => rw [ht] at h; exact absurd h (by simp)
  | some t => rw [ht] at h; exact ⟨t, rfl, by simpa using h⟩

theorem link_registered_spec (o : processor_orchestrator) (l : module_link)
    (h : link_registered o l = true) :
    ∃ t, l.target_module = some t ∧ t ∈ registered_modules o := by
  unfold link_registered at h
  cases ht : l.target_module with
  | none => rw [ht] at h; exact absurd h (by simp)
  | some t => rw [ht] at h; exact ⟨t, rfl, by simpa using h⟩

/-- A graph with a rank that falls along every link has no directed cycle. -/
theorem no_cycle_of_rank (links : ModulePtr → List module_link) (rank : ModulePtr → Nat)
    (h : ∀ p l, l ∈ links p → ∃ t, l.target_module = some t ∧ rank t < rank p) :
    NoCycle links := by
  have key : ∀ path m, link_path links m path → ∀ x, path.getLast? = some x →
      rank x < rank m := by
    intro path
    induction path with
    | nil => intro m _ x hx; simp at hx
    | cons t rest ih =>
      intro m hp x hx
      obtain ⟨⟨l, hl, hlt⟩, hrest⟩ := hp
      obtain ⟨t', ht', hr⟩ := h m l hl
      rw [hlt] at ht'
      have htt : t = t' := Option.some.inj ht'
      subst htt
      cases rest with
      | nil =>
        simp at hx
        subst hx
        exact hr
      | cons y ys =>
        have := ih t hrest x (by simpa [List.getLast?_cons_cons] using hx)
        omega
  intro m path _ hp hlast
  have := key path m hp m hlast
  omega

/-- The hypotheses of `process_single_execution` hold of the diamond, so D = 3, which
gets a delivery and a push from B and from C, is processed once; the calls of the block
are listed. -/
theorem process_single_execution_diamond :
    ((process diamond_world 5 diamond).status = Status.ok ∧
    ∃ t, (process diamond_world 5 diamond).state.trace = diamond.trace ++ t ∧
      (∀ m, process_count m t ≤ 1) ∧
      (∀ m, Driven diamond.links (source_modules diamond.orchestrator) m →
        process_count m t = 1) ∧
      (∀ m, ¬ Driven diamond.links (source_modules diamond.orchestrator) m →
        process_count m t = 0)) ∧
    (process diamond_world 5 diamond).state.trace =
      [Call.preprocess 0, Call.preprocess 1, Call.preprocess 2, Call.preprocess 3,
        Call.process 0,
        Call.get_output_values 0 0, Call.set_input_values 1 0 [some (module_output.owned 0)] 1,
        Call.process 1,
        Call.get_output_values 1 0, Call.set_input_values 3 0 [some (module_output.owned 32)] 1,
        Call.get_output_values 0 0, Call.set_input_values 2 0 [some (module_output.owned 0)] 1,
        Call.process 2,
        Call.get_output_values 2 0, Call.set_input_values 3 1 [some (module_output.owned 64)] 1,
        Call.process 3] :=
  ⟨process_single_execution diamond_world 5 diamond
    (by decide)
    (example_world_contract diamond_table [0, 1, 2, 3] [0] [] (by decide))
    (links_of_forall diamond_table (fun _ l => l.enabled = true) (by decide))
    (by
      intro p
      by_cases hp : p ∈ [0, 1, 2]
      · simp only [List.mem_cons, List.mem_singleton, List.not_mem_nil, or_false] at hp
        rcases hp with rfl | rfl | rfl <;> decide
      · have : diamond.links p = [] :=
          links_of_support diamond_table [0, 1, 2] (by decide) p hp
        rw [this]; exact List.nodup_nil)
    (no_cycle_of_rank diamond.links diamond_rank
      (fun p l hl => link_descends_spec diamond_rank p l
        (links_of_forall diamond_table (fun p l => link_descends diamond_rank p l = true)
          (by decide) p l hl)))
    (fun p l hl => link_registered_spec diamond.orchestrator l
      (links_of_forall diamond_table (fun _ l => link_registered diamond.orchestrator l = true)
        (by decide) p l hl))
    (by decide)
    (by decide)
    (by decide)
    (by decide)
    (by decide)
    (by
      intro s hs
      have : s = 0 := by
        have : source_modules diamond.orchestrator = [some 0] := by decide
        rw [this] at hs
        simpa using hs
      subst this
      rintro ⟨p, l, hl, ht⟩
      exact links_of_forall diamond_table (fun _ l => l.target_module ≠ some 0) (by decide)
        p l hl ht)
    (by decide),
    by decide⟩

/-- C1 as stated fails. The diamond with one more parent E of D meets the hypotheses of
the claim: the modules follow the readiness contract, all links are enabled, the graph
has no directed cycle, the one source A is registered once and bypass is off. D = 3 is reachable from the source A = 0 along A, B, D and along
A, C, D. Yet `process` completes without calling `process` on D: E is not a source and
has no parent, so it never delivers and D never becomes ready. -/
theorem process_skips_fed_diamond :
    ReadinessContract fed_diamond_world fed_diamond.links ∧
    (∀ p l, l ∈ fed_diamond.links p → l.enabled = true) ∧
    NoCycle fed_diamond.links ∧
    source_modules fed_diamond.orchestrator = [some 0] ∧
    fed_diamond.orchestrator.bypass_ = false ∧
    link_path fed_diamond.links 0 [1, 3] ∧ link_path fed_diamond.links 0 [2, 3] ∧
    (process fed_diamond_world 10 fed_diamond).status = Status.ok ∧
    process_count 3 ((process fed_diamond_world 10 fed_diamond).state.trace.drop
      fed_diamond.trace.length) = 0 := by
  refine ⟨example_world_contract fed_diamond_table [0, 1, 2, 3, 4] [0] [] (by decide),
    links_of_forall fed_diamond_table (fun _ l => l.enabled = true) (by decide),
    no_cycle_of_rank fed_diamond.links fed_diamond_rank
      (fun p l hl => link_descends_spec fed_diamond_rank p l
        (links_of_forall fed_diamond_table
          (fun p l => link_descends fed_diamond_rank p l = true) (by decide) p l hl)),
    by decide, by decide, ?_, ?_, by decide, by decide⟩
  · exact ⟨⟨link_to 0 1 0, by decide, rfl⟩, ⟨link_to 0 3 0, by decide, rfl⟩, trivial⟩
  · exact ⟨⟨link_to 0 2 0, by decide, rfl⟩, ⟨link_to 0 3 1, by decide, rfl⟩, trivial⟩

/-- A source module with an incoming link is processed twice in one block: once when its
parent delivers, once more when it is pushed as a source. Both modules are event sources
registered once, the link 0 -> 1 is enabled and the modules follow the readiness
contract. -/
theorem process_twice_chained_sources :
    ReadinessContract chained_sources_world chained_sources.links ∧
    source_modules chained_sources.orchestrator = [some 0, some 1] ∧
    (process chained_sources_world 10 chained_sources).status = Status.ok ∧
    (process chained_sources_world 10 chained_sources).state.trace =
      [Call.preprocess 0, Call.preprocess 1, Call.process 0, Call.get_output_values 0 0,
        Call.set_input_values 1 0 [some (module_output.owned 0)] 1, Call.process 1,
        Call.process 1] :=
  ⟨example_world_contract [(0, [link_to 0 1 0])] [0, 1] [0, 1] [] (by decide), by decide,
    by decide, by decide⟩

/-- A module that is ready after its enabled parent delivered is processed again when a
disabled link delivers to it: in the relay graph B = 1 is processed twice. -/
theorem process_twice_over_disabled_link :
    ReadinessContract relay_world relay.links ∧
    (process relay_world 10 relay).status = Status.ok ∧
    process_count 1 (process relay_world 10 relay).state.trace = 2 :=
  ⟨example_world_contract relay_table [0, 1, 2] [0] [] (by decide), by decide, by decide⟩

/-- Two equal links of one module count as one link that has delivered: B = 1 is ready
after the first delivery and is processed once per delivery. -/
theorem process_twice_doubled_link :
    ReadinessContract doubled_world doubled.links ∧
    (process doubled_world 10 doubled).status = Status.ok ∧
    process_count 1 (process doubled_world 10 doubled).state.trace = 2 :=
  ⟨example_world_contract [(0, [link_to 0 1 0, link_to 0 1 0])] [0, 1] [0] [] (by decide),
    by decide, by decide⟩

/-- A link target that is not registered gets no `preprocess`, so the deliveries of the
block before still count: in the second block X = 2 is ready when B delivers, and again
when A delivers. -/
theorem process_twice_unregistered_target :
    ReadinessContract stale_world stale.links ∧
    registered_modules stale.orchestrator = [0, 1] ∧
    (process stale_world 10 stale).status = Status.ok ∧
    process_count 2 ((process stale_world 10 stale).state.trace.drop stale.trace.length) = 2 :=
  ⟨example_world_contract stale_table [0, 1, 2] [0] [] (by decide), by decide, by decide,
    by decide⟩

/-- C3 at a failing input. The only link of the source A = 0 is disabled, yet the
traversal reads the link's source slot, delivers to B = 1 and pushes B, which is
processed. -/
theorem push_follows_disabled_link :
    muted.links 0 =
      [{ enabled := false, source_slot_id := 0, target_module := some 1, target_slot_id := 0 }] ∧
    (process muted_world 10 muted).status = Status.ok ∧
    (process muted_world 10 muted).state.trace =
      [Call.preprocess 0, Call.preprocess 1, Call.process 0, Call.get_output_values 0 0,
        Call.set_input_values 1 0 [some (module_output.owned 0)] 1, Call.process 1] := by
  decide

/-- C5 at a failing input. Of the two registered modules 10 (index 0) and 11 (index 1),
the second links to the first. `delete_processor(0)` calls `unlink` once, on the deleted
module itself, and never on module 11, whose link to the deleted module is still there
after the call. -/
theorem delete_processor_misses_last_module :
    get_nb_processors back_linked = 2 ∧
    back_linked.orchestrator.processor_modules_ 0 = some 10 ∧
    back_linked.orchestrator.processor_modules_ 1 = some 11 ∧
    (delete_processor 0 back_linked).status = Status.ok ∧
    (delete_processor 0 back_linked).state.trace = [Call.unlink 10 (some 10)] ∧
    (delete_processor 0 back_linked).state.orchestrator.processor_modules_ 0 = some 11 ∧
    (delete_processor 0 back_linked).state.links 11 = [link_to 0 10 0] := by
  decide

/-- C8 at a failing input. A data event on bus 0 makes one call on the event source
registered first, module 5, but the call is the note-off handler with the `note_off`
member of the payload. -/
theorem data_event_calls_note_off :
    source_modules studio.orchestrator = [some 5, some 7, some 8] ∧
    process_input_event studio_world data_event_on_bus_0 studio =
      Run.ok (studio.call (Call.note_off 5 2)) ∧
    (process_input_event studio_world data_event_on_bus_0 studio).state.trace =
      [Call.note_off 5 2] := by
  refine ⟨by decide, rfl, by decide⟩

/-- The compaction theorem at the diamond: deleting B = 1 leaves A at index 0 and moves
C and D to the indices 1 and 2. -/
theorem delete_processor_compacts_diamond :
    (delete_processor 1 diamond).status = Status.ok ∧
    get_nb_processors (delete_processor 1 diamond).state = diamond.orchestrator.nb_modules_ - 1 ∧
    (∀ i, i < 1 → (delete_processor 1 diamond).state.orchestrator.processor_modules_ i =
      diamond.orchestrator.processor_modules_ i) ∧
    (∀ i, 1 < i → i < diamond.orchestrator.nb_modules_ →
      (delete_processor 1 diamond).state.orchestrator.processor_modules_ (i - 1) =
        diamond.orchestrator.processor_modules_ i) :=
  delete_processor_compacts 1 diamond (by decide) (by decide) (by decide)

/-- The parameter id `(3 << 16) | 2` with the value 0.75 reaches slot 2 of the module at
index 3 of the diamond, which is D. -/
theorem parameter_changed_routes_diamond :
    parameter_changed (3 <<< 16 ||| 2) 0 (3 / 4 : ℚ) diamond =
      Run.ok (diamond.call (Call.set_input_values 3 2 (single_input_values (3 / 4 : ℚ)) 1)) :=
  (parameter_changed_routes (3 <<< 16 ||| 2) 0 (3 / 4 : ℚ) diamond 3 (by decide) (by decide)
    (by decide)).1

/-- With bypass on, a block of the diamond makes no call. -/
theorem process_bypass_diamond :
    process diamond_world 5 bypassed_diamond = Run.ok bypassed_diamond :=
  (process_bypass diamond_world 5 bypassed_diamond rfl).1

/-- A poly-pressure event on bus 0 changes nothing. -/
theorem process_input_event_dead_letter_studio :
    process_input_event studio_world poly_pressure_on_bus_0 studio = Run.ok studio :=
  process_input_event_dead_letter studio_world poly_pressure_on_bus_0 studio (by decide)
    (Or.inl rfl)

/-! ## Registration and reset -/

theorem map_range_succ {β : Type} (f g : Nat → β) (n : Nat) (x : β)
    (hf : ∀ i, i < n → g i = f i) (hx : g n = x) :
    (List.range (n + 1)).map g = (List.range n).map f ++ [x] := by
  rw [List.range_succ, List.map_append, List.map_singleton, hx]
  congr 1
  apply List.map_congr_left
  intro i hi
  exact hf i (List.mem_range.mp hi)

/-- What `add_processor_module` does when the arrays have room and the casts succeed. -/
theorem add_processor_module_spec (w : World α ν O) (m : ModulePtr) (st : State α ν O)
    (hn : st.orchestrator.nb_modules_ < max_nb_modules)
    (hevent : w.get_type m = processor_module_type.event_input →
      st.orchestrator.nb_midi_input_modules_ < w.max_nb_sources ∧ w.is_midi_input m = true)
    (haudio : w.get_type m = processor_module_type.audio_input →
      st.orchestrator.nb_audio_input_modules_ < w.max_nb_sources ∧ w.is_audio_input m = true) :
    (add_processor_module w (some m) st).status = Status.ok ∧
    (add_processor_module w (some m) st).state.orchestrator.nb_modules_ =
      st.orchestrator.nb_modules_ + 1 ∧
    (∀ i, (add_processor_module w (some m) st).state.orchestrator.processor_modules_ i =
      if i = st.orchestrator.nb_modules_ then some m
      else st.orchestrator.processor_modules_ i) ∧
    event_source_list (add_processor_module w (some m) st).state.orchestrator =
      (if w.get_type m = processor_module_type.event_input
        then event_source_list st.orchestrator ++ [some m]
        else event_source_list st.orchestrator) ∧
    audio_source_list (add_processor_module w (some m) st).state.orchestrator =
      (if w.get_type m = processor_module_type.audio_input
        then audio_source_list st.orchestrator ++ [some m]
        else audio_source_list st.orchestrator) ∧
    (add_processor_module w (some m) st).state.links = st.links ∧
    (add_processor_module w (some m) st).state.trace = st.trace ∧
    (add_processor_module w (some m) st).state.output = st.output ∧
    (add_processor_module w (some m) st).state.orchestrator.bypass_ =
      st.orchestrator.bypass_ := by
  by_cases he : w.get_type m = processor_module_type.event_input
  · obtain ⟨hroom, hcast⟩ := hevent he
    have hne : (processor_module_type.event_input = processor_module_type.audio_input) = False :=
      eq_false (by decide)
    have hrun : add_processor_module w (some m) st = Run.ok
        { st with orchestrator := { st.orchestrator with
            sources_midi_input_modules_ :=
              array_set st.orchestrator.sources_midi_input_modules_
                st.orchestrator.nb_midi_input_modules_ (some m)
            nb_midi_input_modules_ := st.orchestrator.nb_midi_input_modules_ + 1
            processor_modules_ :=
              array_set st.orchestrator.processor_modules_ st.orchestrator.nb_modules_ (some m)
            nb_modules_ := st.orchestrator.nb_modules_ + 1 } } := by
      unfold add_processor_module
      simp only [he, hne, if_true, if_false, hroom, hcast, Run.andThen, Run.ok, hn]
    rw [hrun, if_pos he, if_neg (by rw [he]; decide)]
    refine ⟨rfl, rfl, fun i => rfl, ?_, rfl, rfl, rfl, rfl, rfl⟩
    exact map_range_succ _ _ _ _ (fun i hi => by simp [Run.ok, array_set]; omega)
      (by simp [Run.ok, array_set])
  · by_cases ha : w.get_type m = processor_module_type.audio_input
    · obtain ⟨hroom, hcast⟩ := haudio ha
      have hne : (processor_module_type.audio_input = processor_module_type.event_input) = False :=
        eq_false (by decide)
      have hrun : add_processor_module w (some m) st = Run.ok
          { st with orchestrator := { st.orchestrator with
              sources_audio_input_modules_ :=
                array_set st.orchestrator.sources_audio_input_modules_
                  st.orchestrator.nb_audio_input_modules_ (some m)
              nb_audio_input_modules_ := st.orchestrator.nb_audio_input_modules_ + 1
              processor_modules_ :=
                array_set st.orchestrator.processor_modules_ st.orchestrator.nb_modules_ (some m)
              nb_modules_ := st.orchestrator.nb_modules_ + 1 } } := by
        unfold add_processor_module
        simp only [ha, hne, if_true, if_false, hroom, hcast, Run.andThen, Run.ok, hn]
      rw [hrun, if_neg he, if_pos ha]
      refine ⟨rfl, rfl, fun i => rfl, rfl, ?_, rfl, rfl, rfl, rfl⟩
      exact map_range_succ _ _ _ _ (fun i hi => by simp [Run.ok, array_set]; omega)
        (by simp [Run.ok, array_set])
    · have hrun : add_processor_module w (some m) st = Run.ok
          { st with orchestrator := { st.orchestrator with
              processor_modules_ :=
                array_set st.orchestrator.processor_modules_ st.orchestrator.nb_modules_ (some m)
              nb_modules_ := st.orchestrator.nb_modules_ + 1 } } := by
        unfold add_processor_module
        simp only [he, ha, if_false, Run.andThen, Run.ok, hn, if_true]
      rw [hrun, if_neg he, if_neg ha]
      exact ⟨rfl, rfl, fun i => rfl, rfl, rfl, rfl, rfl, rfl, rfl⟩

/-- C11, registration. For every graph with `n < 128` modules and every module `m` (for a
source module: whose source list has room, and which is an object of the source class),
`add_processor_module(m)` completes, the module count is `n + 1`, `get_processor(n)` is
`m`, every module at an index `i < n` is unchanged, and `m` is appended to the
event-source list if and only if its type is `event_input`, to the audio-source list if
and only if its type is `audio_input`; otherwise the list is unchanged. -/
theorem add_processor_module_registers (w : World α ν O) (m : ModulePtr) (st : State α ν O)
    (hn : st.orchestrator.nb_modules_ < max_nb_modules)
    (hevent : w.get_type m = processor_module_type.event_input →
      st.orchestrator.nb_midi_input_modules_ < w.max_nb_sources ∧ w.is_midi_input m = true)
    (haudio : w.get_type m = processor_module_type.audio_input →
      st.orchestrator.nb_audio_input_modules_ < w.max_nb_sources ∧ w.is_audio_input m = true) :
    (add_processor_module w (some m) st).status = Status.ok ∧
    get_nb_processors (add_processor_module w (some m) st).state = get_nb_processors st + 1 ∧
    get_processor (st.orchestrator.nb_modules_ : Int) (add_processor_module w (some m) st).state =
      some (some m) ∧
    (∀ i, i < st.orchestrator.nb_modules_ →
      (add_processor_module w (some m) st).state.orchestrator.processor_modules_ i =
        st.orchestrator.processor_modules_ i) ∧
    event_source_list (add_processor_module w (some m) st).state.orchestrator =
      (if w.get_type m = processor_module_type.event_input
        then event_source_list st.orchestrator ++ [some m]
        else event_source_list st.orchestrator) ∧
    audio_source_list (add_processor_module w (some m) st).state.orchestrator =
      (if w.get_type m = processor_module_type.audio_input
        then audio_source_list st.orchestrator ++ [some m]
        else audio_source_list st.orchestrator) := by
  obtain ⟨h1, h2, h3, h4, h5, _⟩ := add_processor_module_spec w m st hn hevent haudio
  refine ⟨h1, h2, ?_, ?_, h4, h5⟩
  · unfold get_processor
    rw [if_pos ⟨by omega, by exact_mod_cast hn⟩, Int.toNat_ofNat, h3, if_pos rfl]
  · intro i hi
    rw [h3, if_neg (by omega)]

/-- The loop of `terminate` completes on a graph within the capacity and changes only the
module array. -/
theorem terminate_loop (st : State α ν O) (hn : st.orchestrator.nb_modules_ ≤ max_nb_modules) :
    (for_loop terminate_body st.orchestrator.nb_modules_ 0 st).status = Status.ok ∧
    (for_loop terminate_body st.orchestrator.nb_modules_ 0 st).state.orchestrator.nb_midi_input_modules_
      = st.orchestrator.nb_midi_input_modules_ ∧
    (for_loop terminate_body st.orchestrator.nb_modules_ 0 st).state.orchestrator.nb_audio_input_modules_
      = st.orchestrator.nb_audio_input_modules_ ∧
    (for_loop terminate_body st.orchestrator.nb_modules_ 0 st).state.orchestrator.sources_midi_input_modules_
      = st.orchestrator.sources_midi_input_modules_ ∧
    (for_loop terminate_body st.orchestrator.nb_modules_ 0 st).state.orchestrator.sources_audio_input_modules_
      = st.orchestrator.sources_audio_input_modules_ := by
  have := for_loop_invariant terminate_body
    (fun _ (s : State α ν O) =>
      s.orchestrator.nb_midi_input_modules_ = st.orchestrator.nb_midi_input_modules_ ∧
      s.orchestrator.nb_audio_input_modules_ = st.orchestrator.nb_audio_input_modules_ ∧
      s.orchestrator.sources_midi_input_modules_ = st.orchestrator.sources_midi_input_modules_ ∧
      s.orchestrator.sources_audio_input_modules_ = st.orchestrator.sources_audio_input_modules_)
    st.orchestrator.nb_modules_ 0 st ⟨rfl, rfl, rfl, rfl⟩
    (by
      intro i s _ hi hs
      unfold terminate_body
      rw [if_pos (by omega)]
      exact ⟨rfl, hs⟩)
  exact this

/-- C12, reset. On every graph within the capacity `clear()` and `terminate()` complete
and leave a module count of 0, and the module added next (for a source module: one whose
source list has room) is registered at index 0, after which the count is 1. -/
theorem clear_and_terminate_reset (w : World α ν O) (m : ModulePtr) (st : State α ν O)
    (hn : st.orchestrator.nb_modules_ ≤ max_nb_modules)
    (hevent : w.get_type m = processor_module_type.event_input →
      st.orchestrator.nb_midi_input_modules_ < w.max_nb_sources ∧ w.is_midi_input m = true)
    (haudio : w.get_type m = processor_module_type.audio_input →
      st.orchestrator.nb_audio_input_modules_ < w.max_nb_sources ∧ w.is_audio_input m = true) :
    (get_nb_processors (clear st) = 0 ∧
      (add_processor_module w (some m) (clear st)).status = Status.ok ∧
      get_processor 0 (add_processor_module w (some m) (clear st)).state = some (some m) ∧
      get_nb_processors (add_processor_module w (some m) (clear st)).state = 1) ∧
    ((terminate st).status = Status.ok ∧
      get_nb_processors (terminate st).state = 0 ∧
      (add_processor_module w (some m) (terminate st).state).status = Status.ok ∧
      get_processor 0 (add_processor_module w (some m) (terminate st).state).state =
        some (some m) ∧
      get_nb_processors (add_processor_module w (some m) (terminate st).state).state = 1) := by
  constructor
  · obtain ⟨h1, h2, h3, _⟩ := add_processor_module_spec w m (clear st)
      (by show 0 < max_nb_modules; decide) hevent haudio
    refine ⟨rfl, h1, ?_, h2⟩
    unfold get_processor
    rw [if_pos ⟨le_refl _, by decide⟩, h3]
    exact congrArg some (if_pos rfl)
  · obtain ⟨hs, _, _, _, _⟩ := terminate_loop st hn
    have hrun : terminate st = Run.ok
        { (for_loop terminate_body st.orchestrator.nb_modules_ 0 st).state with
          orchestrator :=
            { (for_loop terminate_body st.orchestrator.nb_modules_ 0 st).state.orchestrator with
              nb_modules_ := 0
              nb_midi_input_modules_ := 0
              nb_audio_input_modules_ := 0 } } := by
      unfold terminate
      rw [Run.andThen_of_status _ _ hs]
    rw [hrun]
    obtain ⟨h1, h2, h3, _⟩ := add_processor_module_spec w m (Run.ok
        { (for_loop terminate_body st.orchestrator.nb_modules_ 0 st).state with
          orchestrator :=
            { (for_loop terminate_body st.orchestrator.nb_modules_ 0 st).state.orchestrator with
              nb_modules_ := 0
              nb_midi_input_modules_ := 0
              nb_audio_input_modules_ := 0 } }).state
      (by show 0 < max_nb_modules; decide)
      (fun h => ⟨by have := (hevent h).1; show 0 < _; omega, (hevent h).2⟩)
      (fun h => ⟨by have := (haudio h).1; show 0 < _; omega, (haudio h).2⟩)
    refine ⟨rfl, rfl, h1, ?_, h2⟩
    unfold get_processor
    rw [if_pos ⟨le_refl _, by decide⟩, h3]
    exact congrArg some (if_pos rfl)

/-- Registration keeps the view: if the audio-source list is the view of the registered
audio sources before `add_processor_module(m)`, it is so after it. -/
theorem add_processor_module_view (w : World α ν O) (m : ModulePtr) (st : State α ν O)
    (hn : st.orchestrator.nb_modules_ < max_nb_modules)
    (hevent : w.get_type m = processor_module_type.event_input →
      st.orchestrator.nb_midi_input_modules_ < w.max_nb_sources ∧ w.is_midi_input m = true)
    (haudio : w.get_type m = processor_module_type.audio_input →
      st.orchestrator.nb_audio_input_modules_ < w.max_nb_sources ∧ w.is_audio_input m = true)
    (hview : audio_source_list st.orchestrator =
      (registered_audio_sources w st.orchestrator).map some) :
    audio_source_list (add_processor_module w (some m) st).state.orchestrator =
      (registered_audio_sources w (add_processor_module w (some m) st).state.orchestrator).map
        some := by
  obtain ⟨_, h2, h3, _, h5, _⟩ := add_processor_module_spec w m st hn hevent haudio
  have hreg : registered_modules (add_processor_module w (some m) st).state.orchestrator =
      registered_modules st.orchestrator ++ [m] := by
    unfold registered_modules
    rw [h2, List.range_succ, List.filterMap_append]
    congr 1
    · apply List.filterMap_congr
      intro i hi
      rw [h3, if_neg (by have := List.mem_range.mp hi; omega)]
    · simp [h3]
  rw [h5]
  unfold registered_audio_sources
  rw [hreg, List.filter_append]
  by_cases ha : w.get_type m = processor_module_type.audio_input
  · rw [if_pos ha, hview]
    simp [registered_audio_sources, ha]
  · rw [if_neg ha, hview]
    simp [registered_audio_sources, ha]

/-- After `terminate()` the audio-source list is the view of the registered audio
sources: both are empty. -/
theorem terminate_view (w : World α ν O) (st : State α ν O)
    (hn : st.orchestrator.nb_modules_ ≤ max_nb_modules) :
    audio_source_list (terminate st).state.orchestrator =
      (registered_audio_sources w (terminate st).state.orchestrator).map some := by
  obtain ⟨hs, _, _, _, _⟩ := terminate_loop st hn
  unfold terminate
  rw [Run.andThen_of_status _ _ hs]
  rfl

/-- C10 at a failing input. The studio registers the modules 5, 6, 7 and 8, of which 7
and 8 are audio sources. After `delete_processor(2)` the registered modules are 5, 6 and
8 and the only registered audio source is 8, but `process_input_audio(99, 0)` calls
`set_buffer(99)` on module 7, the deleted module. After `clear()` and a new registration
of module 8 the same call again reaches module 7. -/
theorem process_input_audio_reaches_deleted_module :
    registered_modules studio_after_delete.orchestrator = [5, 6, 8] ∧
    registered_audio_sources studio_world studio_after_delete.orchestrator = [8] ∧
    (process_input_audio studio_world 99 0 studio_after_delete).status = Status.ok ∧
    (process_input_audio studio_world 99 0 studio_after_delete).state.trace =
      studio_after_delete.trace ++ [Call.set_buffer 7 99] ∧
    registered_modules studio_after_clear.orchestrator = [8] ∧
    registered_audio_sources studio_world studio_after_clear.orchestrator = [8] ∧
    (process_input_audio studio_world 99 0 studio_after_clear).status = Status.ok ∧
    (process_input_audio studio_world 99 0 studio_after_clear).state.trace =
      studio_after_clear.trace ++ [Call.set_buffer 7 99] := by
  decide

/-- In the studio, where nothing was deleted, the audio-source list is the view of the
registered audio sources 7 and 8, and the buffer 99 sent to bus 1 reaches module 8. -/
theorem process_input_audio_routes_view_studio :
    registered_audio_sources studio_world studio.orchestrator = [7, 8] ∧
    process_input_audio studio_world 99 1 studio =
      Run.ok (studio.call (Call.set_buffer 8 99)) :=
  ⟨by decide, process_input_audio_routes_view studio_world studio 99 1 8 (by decide)
    (by decide) (by decide)⟩
/-! ## The factory, the capacity and the references -/

/-- C13 at a failing input. The tag `reverb` is none of the twelve tags of the factory:
no branch of the chain is taken, `processor` stays null and `processor->initialize` is
called through the null pointer. No error is raised before that point. -/
theorem unknown_type_dereferences_null :
    add_processor_module_definition diamond_world "reverb" 9 diamond =
      Run.undefined diamond ∧
    (add_processor_module_definition diamond_world "reverb" 9 diamond).status =
      Status.undefined_behaviour ∧
    (add_processor_module_definition diamond_world "gain" 9 diamond).status = Status.ok := by
  refine ⟨rfl, by decide, by decide⟩

/-- C16 at a failing input. After the event source 5 was registered and deleted again
(or the registry cleared), no module is registered, but the event-source list still
holds module 5, and the next `process` pushes it: its `process` is called, without a
`preprocess` before. -/
theorem deleted_source_is_still_pushed :
    module_list deleted_source.orchestrator = [] ∧
    event_source_list deleted_source.orchestrator = [some 5] ∧
    (process solo_world 5 deleted_source).state.trace = deleted_source.trace ++ [Call.process 5] ∧
    module_list cleared_source.orchestrator = [] ∧
    event_source_list cleared_source.orchestrator = [some 5] ∧
    (process solo_world 5 cleared_source).state.trace = cleared_source.trace ++ [Call.process 5] := by
  decide

/-- On a graph that holds 128 modules or more `add_processor_module` runs into undefined
behaviour, whatever the module. -/
theorem add_processor_module_overflows (w : World α ν O) (processor : Option ModulePtr)
    (st : State α ν O) (hn : max_nb_modules ≤ st.orchestrator.nb_modules_) :
    (add_processor_module w processor st).status = Status.undefined_behaviour := by
  cases processor with
  | none => rfl
  | some p =>
    have hn' : ¬ st.orchestrator.nb_modules_ < max_nb_modules := by omega
    unfold add_processor_module
    by_cases he : w.get_type p = processor_module_type.event_input <;>
      by_cases ha : w.get_type p = processor_module_type.audio_input <;>
      by_cases hre : st.orchestrator.nb_midi_input_modules_ < w.max_nb_sources <;>
      by_cases hra : st.orchestrator.nb_audio_input_modules_ < w.max_nb_sources <;>
      simp [he, ha, hre, hra, hn', Run.andThen, Run.ok, Run.undefined]

/-- When `add_processor_module` completes, the module count has grown by one. -/
theorem add_processor_module_count (w : World α ν O) (p : ModulePtr) (st : State α ν O)
    (h : (add_processor_module w (some p) st).status = Status.ok) :
    st.orchestrator.nb_modules_ < max_nb_modules ∧
    (add_processor_module w (some p) st).state.orchestrator.nb_modules_ =
      st.orchestrator.nb_modules_ + 1 := by
  have hlt : st.orchestrator.nb_modules_ < max_nb_modules := by
    by_contra hge
    rw [add_processor_module_overflows w (some p) st (by omega)] at h
    exact Status.noConfusion h
  refine ⟨hlt, ?_⟩
  revert h
  unfold add_processor_module
  by_cases he : w.get_type p = processor_module_type.event_input <;>
    by_cases ha : w.get_type p = processor_module_type.audio_input <;>
    by_cases hre : st.orchestrator.nb_midi_input_modules_ < w.max_nb_sources <;>
    by_cases hra : st.orchestrator.nb_audio_input_modules_ < w.max_nb_sources <;>
    simp [he, ha, hre, hra, hlt, Run.andThen, Run.ok, Run.undefined]

/-- The loops of `delete_processor` leave the module count alone; the count is
decremented modulo 256 at the end. -/
theorem delete_processor_count (id : Nat) (st : State α ν O)
    (h : (delete_processor id st).status = Status.ok) :
    (delete_processor id st).state.orchestrator.nb_modules_ =
      (st.orchestrator.nb_modules_ + 255) % 256 := by
  let Q : State α ν O → Prop := fun s => s.orchestrator.nb_modules_ = st.orchestrator.nb_modules_
  have h1 : ∀ t i s, Q s → Q (delete_unlink_body t i s : Run (State α ν O)).state := by
    intro t i s hs
    unfold delete_unlink_body
    split
    · split
      · exact hs
      · exact hs
    · exact hs
  have h2 : ∀ i s, Q s → Q (delete_shift_body i s : Run (State α ν O)).state := by
    intro i s hs
    unfold delete_shift_body
    split
    · exact hs
    · exact hs
  unfold delete_processor at h ⊢
  by_cases hid : id < max_nb_modules
  · rw [if_pos hid] at h ⊢
    simp only at h ⊢
    obtain ⟨ha, hb⟩ := Run.andThen_status _ _ h
    rw [Run.andThen_of_status _ _ ha] at h ⊢
    obtain ⟨hc, _⟩ := Run.andThen_status _ _ h
    rw [Run.andThen_of_status _ _ hc]
    have q1 : Q (for_loop (delete_unlink_body (st.orchestrator.processor_modules_ id))
        (st.orchestrator.nb_modules_ - 1) 0 st).state :=
      for_loop_preserves _ Q (h1 _) _ 0 st rfl
    have q2 := for_loop_preserves delete_shift_body Q h2
      (st.orchestrator.nb_modules_ - 1 - id) id _ q1
    show (_ + 255) % 256 = _
    rw [q2]
  · rw [if_neg hid] at h
    exact Status.noConfusion h

/-- When `terminate` completes, the module count is 0. -/
theorem terminate_count (st : State α ν O) (h : (terminate st).status = Status.ok) :
    (terminate st).state.orchestrator.nb_modules_ = 0 := by
  unfold terminate at h ⊢
  obtain ⟨h1, _⟩ := Run.andThen_status _ _ h
  rw [Run.andThen_of_status _ _ h1]
  rfl

/-- C15 as the code has it. `add_processor_module` has no capacity check: on a graph that
holds 128 modules it writes past the end of the module array, which is undefined
behaviour and no `CapacityExceeded` error. After a sequence of add, delete, clear and
terminate operations that stays within the preconditions (every operation completes,
every delete names an index below the module count) on a graph of at most 128 modules,
the module count is at most 128. -/
theorem module_capacity (w : World α ν O) (ops : List registry_op) :
    ∀ (st : State α ν O),
      (∀ processor, st.orchestrator.nb_modules_ = max_nb_modules →
        (add_processor_module w processor st).status = Status.undefined_behaviour) ∧
      (st.orchestrator.nb_modules_ ≤ max_nb_modules → within_preconditions w ops st →
        (run_ops w ops st).status = Status.ok ∧
        get_nb_processors (run_ops w ops st).state ≤ max_nb_modules) := by
  induction ops with
  | nil =>
    intro st
    exact ⟨fun p h => add_processor_module_overflows w p st (by omega), fun h _ => ⟨rfl, h⟩⟩
  | cons op rest ih =>
    intro st
    refine ⟨fun p h => add_processor_module_overflows w p st (by omega), ?_⟩
    intro hn ⟨hpre, hok, hrest⟩
    unfold run_ops
    rw [Run.andThen_of_status _ _ hok]
    refine (ih (op.run w st).state).2 ?_ hrest
    cases op with
    | add p =>
      have := add_processor_module_count w p st hok
      show (add_processor_module w (some p) st).state.orchestrator.nb_modules_ ≤ _
      omega
    | delete id =>
      have := delete_processor_count id st hok
      show (delete_processor id st).state.orchestrator.nb_modules_ ≤ _
      have hid : id < st.orchestrator.nb_modules_ := hpre
      unfold max_nb_modules at hn ⊢
      omega
    | clear => exact Nat.zero_le _
    | terminate =>
      have := terminate_count st hok
      show (terminate st).state.orchestrator.nb_modules_ ≤ _
      omega

set_option maxRecDepth 100000 in
/-- C15 as stated fails. The registry `crowded` holds 128 modules. Adding the event
source 200 raises no error: the module is entered in the event-source list, which was
empty, and the write to the module array then goes past its end. -/
theorem add_at_capacity_overflows :
    get_nb_processors crowded = 128 ∧
    event_source_list crowded.orchestrator = [] ∧
    (add_processor_module crowded_world (some 200) crowded).status =
      Status.undefined_behaviour ∧
    event_source_list (add_processor_module crowded_world (some 200) crowded).state.orchestrator =
      [some 200] := by
  decide

/-- C14 as the code has it. No operation checks a module id. With `n` at most 128
registered modules and an id `n <= id`: for `id < 128`, `delete_processor(id)` completes,
changes no array of the orchestrator and still decrements the module count modulo 256;
where the entry at `id` is null, `link_modules`, `unlink_modules`, `enable_modules_link`
and `disable_modules_link` with `id` as source and `parameter_changed` with `id` as module
index call through the null pointer; as target of `link_modules`, the entry at `id`
becomes the target of the new link as it is; for `id >= 128` the operations index the
module array out of bounds. -/
theorem out_of_range_unchecked (id : Nat) (st : State α ν O)
    (hn : st.orchestrator.nb_modules_ ≤ max_nb_modules)
    (hreg : ∀ i, i < st.orchestrator.nb_modules_ →
      st.orchestrator.processor_modules_ i ≠ none)
    (hid : st.orchestrator.nb_modules_ ≤ id) :
    (id < max_nb_modules →
      (delete_processor id st).status = Status.ok ∧
      (delete_processor id st).state.orchestrator =
        { st.orchestrator with nb_modules_ := (st.orchestrator.nb_modules_ + 255) % 256 }) ∧
    (st.orchestrator.processor_modules_ id = none →
      ∀ (source_slot_id target_module_id target_slot_id : Nat),
        link_modules id source_slot_id target_module_id target_slot_id st = Run.undefined st ∧
        unlink_modules id source_slot_id target_module_id target_slot_id st = Run.undefined st ∧
        enable_modules_link id source_slot_id target_module_id target_slot_id st =
          Run.undefined st ∧
        disable_modules_link id source_slot_id target_module_id target_slot_id st =
          Run.undefined st) ∧
    (st.orchestrator.processor_modules_ id = none → id < 2 ^ 32 →
      ∀ (parameter_id : Nat) (sample_offset : Int) (value : α), parameter_id >>> 16 = id →
        parameter_changed parameter_id sample_offset value st = Run.undefined st) ∧
    (id < max_nb_modules →
      ∀ (source_module_id source_slot_id target_slot_id : Nat) (m : ModulePtr),
        source_module_id < max_nb_modules →
        st.orchestrator.processor_modules_ source_module_id = some m →
        link_modules source_module_id source_slot_id id target_slot_id st =
          Run.ok (module_link_add m source_slot_id (st.orchestrator.processor_modules_ id)
            target_slot_id st)) ∧
    (max_nb_modules ≤ id →
      delete_processor id st = Run.undefined st ∧
      ∀ (source_slot_id other_module_id target_slot_id : Nat),
        link_modules id source_slot_id other_module_id target_slot_id st = Run.undefined st ∧
        link_modules other_module_id source_slot_id id target_slot_id st = Run.undefined st) := by
  refine ⟨?_, ?_, ?_, ?_, ?_⟩
  · intro hlt
    obtain ⟨hs1, ho1⟩ := delete_unlink_loop (st.orchestrator.processor_modules_ id) st
      (st.orchestrator.nb_modules_ - 1) (by omega) (fun i hi => hreg i (by omega))
    have hz : st.orchestrator.nb_modules_ - 1 - id = 0 := by omega
    unfold delete_processor
    rw [if_pos hlt]
    simp only
    rw [Run.andThen_of_status _ _ hs1, hz]
    refine ⟨rfl, ?_⟩
    simp only [for_loop, Run.ok, Run.andThen, ho1]
  · intro hnull s t ts
    simp only [link_modules, unlink_modules, enable_modules_link, disable_modules_link,
      on_source_module, hnull]
    refine ⟨?_, ?_, ?_, ?_⟩ <;> split <;> rfl
  · intro hnull h32 pid off v hp
    unfold parameter_changed
    simp only [hp, Nat.mod_eq_of_lt h32, hnull, call_on]
    split <;> rfl
  · intro hlt src s ts m hsrc hm
    simp only [link_modules, on_source_module, hsrc, hlt, and_self, if_true, hm]
  · intro hge
    have hnot : ¬ id < max_nb_modules := by omega
    refine ⟨by unfold delete_processor; rw [if_neg hnot], ?_⟩
    intro s other ts
    simp only [link_modules, on_source_module, hnot, false_and, and_false, if_false, and_self]

/-- C14 as stated fails. `delete_processor(0)` on an orchestrator without modules raises
no error and changes the module count, from 0 to 255. -/
theorem delete_on_empty_graph_wraps :
    get_nb_processors empty_graph = 0 ∧
    (delete_processor 0 empty_graph).status = Status.ok ∧
    get_nb_processors (delete_processor 0 empty_graph).state = 255 := by
  decide

/-- Two loops whose bodies agree on the states of an invariant compute the same. -/
theorem for_loop_congr {σ : Type} (body body' : Nat → σ → Run σ) (Q : σ → Prop)
    (count : Nat) :
    ∀ (i0 : Nat) (s : σ), Q s →
      (∀ i s, i0 ≤ i → i < i0 + count → Q s → body i s = body' i s ∧ Q (body i s).state) →
      for_loop body count i0 s = for_loop body' count i0 s := by
  induction count with
  | zero => intro i0 s _ _; rfl
  | succ n ih =>
    intro i0 s hs hb
    unfold for_loop
    obtain ⟨he, hq⟩ := hb i0 s (le_refl _) (by omega) hs
    rw [← he]
    by_cases hok : (body i0 s).status = Status.ok
    · rw [Run.andThen_of_status _ _ hok, Run.andThen_of_status _ _ hok]
      exact ih (i0 + 1) _ hq (fun i s h1 h2 => hb i s (by omega) (by omega))
    · rw [Run.andThen_of_not_ok _ _ hok, Run.andThen_of_not_ok _ _ hok]

/-- The loop over the links of a module completes, and does not depend on the recursion
budget, when the pushes of the targets do. -/
theorem push_links_total (w : World α ν O) (links : ModulePtr → List module_link)
    (rec rec' : Option ModulePtr → State α ν O → Run (State α ν O))
    (hrec : ∀ src st, (rec src st).state.links = st.links) (m : ModulePtr) :
    ∀ (ls : List module_link),
      (∀ l, l ∈ ls → ∃ t, l.target_module = some t ∧ ∀ s : State α ν O, s.links = links →
        rec (some t) s = rec' (some t) s ∧ (rec (some t) s).status = Status.ok) →
      ∀ st : State α ν O, st.links = links →
        push_links w rec m ls st = push_links w rec' m ls st ∧
        (push_links w rec m ls st).status = Status.ok := by
  intro ls
  induction ls with
  | nil => intro _ st _; exact ⟨rfl, rfl⟩
  | cons l rest ih =>
    intro hl st hst
    obtain ⟨t, ht, hpush⟩ := hl l (List.mem_cons_self _ _)
    have hlink : push_link w rec m l st = push_link w rec' m l st ∧
        (push_link w rec m l st).status = Status.ok ∧
        (push_link w rec m l st).state.links = links := by
      unfold push_link
      simp only [ht]
      obtain ⟨h1, h2⟩ := hpush
        ((st.call (Call.get_output_values m l.source_slot_id)).call
          (Call.set_input_values t l.target_slot_id
            (w.get_output_values m l.source_slot_id st.trace).1
            ((w.get_output_values m l.source_slot_id st.trace).2 % 256))) hst
      refine ⟨h1, h2, ?_⟩
      rw [hrec]
      exact hst
    obtain ⟨h1, h2, h3⟩ := hlink
    unfold push_links
    rw [← h1, Run.andThen_of_status _ _ h2, Run.andThen_of_status _ _ h2]
    exact ih (fun l' hl' => hl l' (List.mem_cons_of_mem _ hl')) _ h3

/-- A push whose recursion budget exceeds the length of every link path that leaves the
module completes, with a result that does not depend on the budget. -/
theorem push_within_depth (w : World α ν O) (links : ModulePtr → List module_link)
    (hnn : ∀ p l, l ∈ links p → l.target_module ≠ none) :
    ∀ (fuel fuel' : Nat) (m : ModulePtr) (st : State α ν O),
      (∀ path, link_path links m path → path.length < fuel) →
      (∀ path, link_path links m path → path.length < fuel') →
      st.links = links →
      push w fuel (some m) st = push w fuel' (some m) st ∧
      (push w fuel (some m) st).status = Status.ok := by
  intro fuel
  induction fuel with
  | zero =>
    intro fuel' m st h _ _
    exact absurd (h [] trivial) (by simp)
  | succ f ih =>
    intro fuel' m st h h' hst
    cases fuel' with
    | zero => exact absurd (h' [] trivial) (by simp)
    | succ f' =>
      unfold push
      by_cases hc : w.can_process m st.links st.trace = true
      · rw [if_pos hc, if_pos hc]
        simp only
        have hlm : st.links m = links m := by rw [hst]
        rw [hlm]
        refine push_links_total w links (push w f) (push w f')
          (fun src s => (push_extends w f src s).1) m (links m) ?_ _ hst
        intro l hl
        cases ht : l.target_module with
        | none => exact absurd ht (hnn m l hl)
        | some t =>
          refine ⟨t, rfl, fun s hs => ih f' t s ?_ ?_ hs⟩
          · intro path hp
            have := h (t :: path) ⟨⟨l, hl, ht⟩, hp⟩
            simpa using this
          · intro path hp
            have := h' (t :: path) ⟨⟨l, hl, ht⟩, hp⟩
            simpa using this
      · rw [if_neg hc, if_neg hc]
        exact ⟨rfl, rfl⟩

/-- On an acyclic graph whose link targets are registered modules, no link path is longer
than the module count. -/
theorem link_path_length_le (links : ModulePtr → List module_link) (o : processor_orchestrator)
    (hno : NoCycle links)
    (htargets : ∀ p l, l ∈ links p →
      ∃ t, l.target_module = some t ∧ t ∈ registered_modules o)
    (m : ModulePtr) (path : List ModulePtr) (hp : link_path links m path) :
    path.length ≤ o.nb_modules_ := by
  have hnd := link_path_nodup links hno path m hp
  have hsub : path ⊆ registered_modules o := by
    intro t ht
    refine link_path_targets links (fun t => t ∈ registered_modules o) ?_ path m hp t ht
    intro p l t hl hlt
    obtain ⟨t', ht', hreg⟩ := htargets p l hl
    rw [hlt] at ht'
    cases ht'
    exact hreg
  have h1 := (List.Nodup.subperm hnd hsub).length_le
  have h2 : (registered_modules o).length ≤ o.nb_modules_ := by
    unfold registered_modules
    exact le_trans (List.length_filterMap_le _ _) (by simp)
  omega

/-- A loop over source modules completes, and does not depend on the recursion budget,
when its body does on the states with the links `links` and the orchestrator `o`. -/
theorem source_loop_total (links : ModulePtr → List module_link) (o : processor_orchestrator)
    (body body' : Nat → State α ν O → Run (State α ν O)) (count : Nat)
    (hbody : ∀ i s, i < count → s.links = links → s.orchestrator = o →
      body i s = body' i s ∧ (body i s).status = Status.ok ∧
        (body i s).state.links = links ∧ (body i s).state.orchestrator = o)
    (s : State α ν O) (hl : s.links = links) (ho : s.orchestrator = o) :
    for_loop body count 0 s = for_loop body' count 0 s ∧
    (for_loop body count 0 s).status = Status.ok ∧
    (for_loop body count 0 s).state.links = links ∧
    (for_loop body count 0 s).state.orchestrator = o := by
  have h1 := for_loop_invariant body
    (fun _ (s : State α ν O) => s.links = links ∧ s.orchestrator = o) count 0 s ⟨hl, ho⟩
    (fun i s _ hi hs => by
      obtain ⟨_, h2, h3, h4⟩ := hbody i s (by omega) hs.1 hs.2
      exact ⟨h2, h3, h4⟩)
  have h2 := for_loop_congr body body'
    (fun (s : State α ν O) => s.links = links ∧ s.orchestrator = o) count 0 s ⟨hl, ho⟩
    (fun i s _ hi hs => by
      obtain ⟨h1, _, h3, h4⟩ := hbody i s (by omega) hs.1 hs.2
      exact ⟨h1, h3, h4⟩)
  exact ⟨h2, h1.1, h1.2.1, h1.2.2⟩

/-- C20, termination on acyclic graphs. On every graph of at most 128 registered modules
whose links lead to registered modules and contain no directed cycle, and for every
behaviour of the modules (in particular of `can_process`): no link path is longer than
the module count; a push from any module, given a recursion budget above the length of
the longest link path that leaves the module, completes, and its result is the same for
every such budget (so the recursion never goes deeper than the longest path, plus the
first call); and `process(output)` completes, with the same result for every budget above
the module count. -/
theorem push_terminates (w : World α ν O) (st : State α ν O)
    (hacyclic : NoCycle st.links)
    (htargets : ∀ p l, l ∈ st.links p →
      ∃ t, l.target_module = some t ∧ t ∈ registered_modules st.orchestrator)
    (hcount : st.orchestrator.nb_modules_ ≤ max_nb_modules)
    (hmodules : ∀ i, i < st.orchestrator.nb_modules_ →
      st.orchestrator.processor_modules_ i ≠ none)
    (hcap : st.orchestrator.nb_midi_input_modules_ ≤ w.max_nb_sources ∧
      st.orchestrator.nb_audio_input_modules_ ≤ w.max_nb_sources)
    (hnonnull : none ∉ source_modules st.orchestrator) :
    (∀ m path, link_path st.links m path → path.length ≤ st.orchestrator.nb_modules_) ∧
    (∀ m d, (∀ path, link_path st.links m path → path.length ≤ d) →
      ∀ fuel, d < fuel →
        (push w fuel (some m) st).status = Status.ok ∧
        push w fuel (some m) st = push w (d + 1) (some m) st) ∧
    (∀ m fuel, st.orchestrator.nb_modules_ < fuel →
      (push w fuel (some m) st).status = Status.ok) ∧
    (∀ fuel, st.orchestrator.nb_modules_ < fuel →
      (process w fuel st).status = Status.ok ∧
      process w fuel st = process w (st.orchestrator.nb_modules_ + 1) st) := by
  have hnn : ∀ p l, l ∈ st.links p → l.target_module ≠ none := by
    intro p l hl hnone
    obtain ⟨t, ht, _⟩ := htargets p l hl
    rw [hnone] at ht
    exact Option.noConfusion ht
  have hlen := link_path_length_le st.links st.orchestrator hacyclic htargets
  refine ⟨hlen, ?_, ?_, ?_⟩
  · intro m d hd fuel hf
    have := push_within_depth w st.links hnn fuel (d + 1) m st
      (fun path hp => lt_of_le_of_lt (hd path hp) hf)
      (fun path hp => Nat.lt_succ_of_le (hd path hp)) rfl
    exact ⟨this.2, this.1⟩
  · intro m fuel hf
    exact (push_within_depth w st.links hnn fuel fuel m st
      (fun path hp => lt_of_le_of_lt (hlen m path hp) hf)
      (fun path hp => lt_of_le_of_lt (hlen m path hp) hf) rfl).2
  · intro fuel hf
    have hpush : ∀ (x : Option ModulePtr) (s : State α ν O), x ≠ none →
        s.links = st.links → s.orchestrator = st.orchestrator →
        push w fuel x s = push w (st.orchestrator.nb_modules_ + 1) x s ∧
        (push w fuel x s).status = Status.ok ∧
        (push w fuel x s).state.links = st.links ∧
        (push w fuel x s).state.orchestrator = st.orchestrator := by
      intro x s hx hl ho
      cases x with
      | none => exact absurd rfl hx
      | some m =>
        have := push_within_depth w st.links hnn fuel (st.orchestrator.nb_modules_ + 1) m s
          (fun path hp => lt_of_le_of_lt (hlen m path hp) hf)
          (fun path hp => Nat.lt_succ_of_le (hlen m path hp)) hl
        have he := push_extends w fuel (some m) s
        exact ⟨this.1, this.2, he.1.trans hl, he.2.1.trans ho⟩
    have hsrc := mem_source_modules st.orchestrator none
    unfold process
    by_cases hb : st.orchestrator.bypass_ = true
    · simp only [hb, Bool.not_true, Bool.false_eq_true, if_false]
      exact ⟨rfl, trivial⟩
    · have hb' : (!st.orchestrator.bypass_) = true := by simpa using hb
      rw [if_pos hb', if_pos hb']
      obtain ⟨hs0, hl0, ho0, _⟩ := preprocess_loop st st.orchestrator.nb_modules_ hcount hmodules
      rw [Run.andThen_of_status _ _ hs0, Run.andThen_of_status _ _ hs0]
      simp only [ho0]
      obtain ⟨e1, s1, l1, o1⟩ := source_loop_total st.links st.orchestrator
        (push_midi_body w fuel) (push_midi_body w (st.orchestrator.nb_modules_ + 1))
        st.orchestrator.nb_midi_input_modules_
        (fun i s hi hl ho => by
          unfold push_midi_body
          rw [if_pos (by omega), if_pos (by omega), ho]
          exact hpush _ s (fun hx => hnonnull (hsrc.mpr (Or.inl ⟨i, hi, hx⟩))) hl ho)
        (for_loop preprocess_body st.orchestrator.nb_modules_ 0 st).state hl0 ho0
      rw [← e1, Run.andThen_of_status _ _ s1, Run.andThen_of_status _ _ s1]
      simp only [o1]
      obtain ⟨e2, s2, _, _⟩ := source_loop_total st.links st.orchestrator
        (push_audio_body w fuel) (push_audio_body w (st.orchestrator.nb_modules_ + 1))
        st.orchestrator.nb_audio_input_modules_
        (fun i s hi hl ho => by
          unfold push_audio_body
          rw [if_pos (by omega), if_pos (by omega), ho]
          exact hpush _ s (fun hx => hnonnull (hsrc.mpr (Or.inr ⟨i, hi, hx⟩))) hl ho)
        (for_loop (push_midi_body w fuel) st.orchestrator.nb_midi_input_modules_ 0
          (for_loop preprocess_body st.orchestrator.nb_modules_ 0 st).state).state l1 o1
      exact ⟨s2, e2⟩
/-- Sequencing with two continuations that agree on the state reached. -/
theorem Run.andThen_congr {σ : Type} (r : Run σ) (f g : σ → Run σ)
    (h : f r.state = g r.state) : r.andThen f = r.andThen g := by
  unfold Run.andThen
  split
  · exact h
  · rfl

/-- The `preprocess` loop appends one `preprocess` call per index, in index order. -/
theorem preprocess_loop_trace (count : Nat) :
    ∀ (i0 : Nat) (s : State α ν O), i0 + count ≤ max_nb_modules →
      (∀ i, i0 ≤ i → i < i0 + count → s.orchestrator.processor_modules_ i ≠ none) →
      for_loop preprocess_body count i0 s =
        Run.ok { s with
          trace := s.trace ++ ((List.range' i0 count).filterMap
            s.orchestrator.processor_modules_).map Call.preprocess } := by
  induction count with
  | zero =>
    intro i0 s _ _
    simp [for_loop]
  | succ n ih =>
    intro i0 s hle hreg
    unfold for_loop preprocess_body
    rw [if_pos (by omega)]
    cases hm : s.orchestrator.processor_modules_ i0 with
    | none => exact absurd hm (hreg i0 (le_refl _) (by omega))
    | some m =>
      have hok : (call_on (some m) Call.preprocess s).status = Status.ok := rfl
      rw [Run.andThen_of_status _ _ hok]
      have := ih (i0 + 1) (s.call (Call.preprocess m)) (by omega)
        (fun i h1 h2 => hreg i (by omega) (by omega))
      show for_loop preprocess_body n (i0 + 1) (s.call (Call.preprocess m)) = _
      rw [this]
      simp [State.call, List.range'_succ, hm]

/-- Where no entry is null, a list of entries is the list of the modules they hold. -/
theorem map_eq_map_some_filterMap (f : Nat → Option ModulePtr) :
    ∀ (l : List Nat), (∀ i, i ∈ l → f i ≠ none) → l.map f = (l.filterMap f).map some := by
  intro l
  induction l with
  | nil => intro _; rfl
  | cons a rest ih =>
    intro h
    cases ha : f a with
    | none => exact absurd ha (h a (List.mem_cons_self _ _))
    | some m =>
      simp only [List.map_cons, List.filterMap_cons, ha]
      rw [ih (fun i hi => h i (List.mem_cons_of_mem _ hi))]

/-- A loop that pushes the modules `src i` is the sequence of the pushes. -/
theorem source_loop_in_order (w : World α ν O) (fuel : Nat) (o : processor_orchestrator)
    (body : Nat → State α ν O → Run (State α ν O)) (src : Nat → Option ModulePtr)
    (bound : Nat)
    (hbody : ∀ i s, i < bound → s.orchestrator = o → body i s = push w fuel (src i) s)
    (count : Nat) :
    ∀ (i0 : Nat) (s : State α ν O), i0 + count ≤ bound → s.orchestrator = o →
      for_loop body count i0 s = push_in_order w fuel ((List.range' i0 count).map src) s := by
  induction count with
  | zero => intro i0 s _ _; rfl
  | succ n ih =>
    intro i0 s hle ho
    rw [List.range'_succ, List.map_cons]
    unfold for_loop push_in_order
    rw [hbody i0 s (by omega) ho]
    refine Run.andThen_congr _ _ _ ?_
    exact ih (i0 + 1) _ (by omega) ((push_extends w fuel (src i0) s).2.1.trans ho)

/-- Pushing a list of modules and then another is pushing the two lists joined. -/
theorem push_in_order_append (w : World α ν O) (fuel : Nat) :
    ∀ (a b : List (Option ModulePtr)) (s : State α ν O),
      push_in_order w fuel (a ++ b) s =
        (push_in_order w fuel a s).andThen (push_in_order w fuel b) := by
  intro a
  induction a with
  | nil => intro b s; rfl
  | cons x rest ih =>
    intro b s
    simp only [List.cons_append, push_in_order]
    by_cases hs : (push w fuel x s).status = Status.ok
    · rw [Run.andThen_of_status _ _ hs, Run.andThen_of_status _ _ hs]
      exact ih b _
    · rw [Run.andThen_of_not_ok _ _ hs, Run.andThen_of_not_ok _ _ hs,
        Run.andThen_of_not_ok _ _ hs]

/-- The calls a push appends to the history are calls of the traversal. -/
theorem push_calls (w : World α ν O) (fuel : Nat) :
    ∀ (src : Option ModulePtr) (st : State α ν O),
      ∃ t, (push w fuel src st).state.trace = st.trace ++ t ∧
        ∀ c, c ∈ t → is_push_call c = true := by
  induction fuel with
  | zero => intro src st; exact ⟨[], by simp [push], by simp⟩
  | succ n ih =>
    intro src st
    cases src with
    | none => exact ⟨[], by simp [push, Run.undefined], by simp⟩
    | some m =>
      have hlink : ∀ (l : module_link) (s : State α ν O),
          ∃ t, (push_link w (push w n) m l s).state.trace = s.trace ++ t ∧
            ∀ c, c ∈ t → is_push_call c = true := by
        intro l s
        unfold push_link
        cases ht : l.target_module with
        | none =>
          exact ⟨[Call.get_output_values m l.source_slot_id], rfl, by simp [is_push_call]⟩
        | some t =>
          obtain ⟨u, hu, hc⟩ := ih (some t)
            ((s.call (Call.get_output_values m l.source_slot_id)).call
              (Call.set_input_values t l.target_slot_id
                (w.get_output_values m l.source_slot_id s.trace).1
                ((w.get_output_values m l.source_slot_id s.trace).2 % 256)))
          refine ⟨Call.get_output_values m l.source_slot_id ::
            Call.set_input_values t l.target_slot_id
              (w.get_output_values m l.source_slot_id s.trace).1
              ((w.get_output_values m l.source_slot_id s.trace).2 % 256) :: u, ?_, ?_⟩
          · rw [hu]
            simp only [State.call, List.append_assoc, List.cons_append, List.nil_append]
          · intro c hcm
            simp only [List.mem_cons] at hcm
            rcases hcm with rfl | rfl | hcm
            · rfl
            · rfl
            · exact hc c hcm
      have hlinks : ∀ (ls : List module_link) (s : State α ν O),
          ∃ t, (push_links w (push w n) m ls s).state.trace = s.trace ++ t ∧
            ∀ c, c ∈ t → is_push_call c = true := by
        intro ls
        induction ls with
        | nil => intro s; exact ⟨[], by simp [push_links, Run.ok], by simp⟩
        | cons l rest ihl =>
          intro s
          obtain ⟨t1, h1, c1⟩ := hlink l s
          unfold push_links
          by_cases hs : (push_link w (push w n) m l s).status = Status.ok
          · rw [Run.andThen_of_status _ _ hs]
            obtain ⟨t2, h2, c2⟩ := ihl (push_link w (push w n) m l s).state
            refine ⟨t1 ++ t2, by rw [h2, h1, List.append_assoc], ?_⟩
            intro c hc
            rcases List.mem_append.mp hc with h | h
            · exact c1 c h
            · exact c2 c h
          · rw [Run.andThen_of_not_ok _ _ hs]
            exact ⟨t1, h1, c1⟩
      unfold push
      by_cases hc : w.can_process m st.links st.trace = true
      · rw [if_pos hc]
        obtain ⟨t, ht, hcalls⟩ := hlinks (st.links m)
          { st with
            trace := st.trace ++ [Call.process m]
            output := w.process m st.trace st.output }
        refine ⟨Call.process m :: t, ?_, ?_⟩
        · simp only [] at ht ⊢
          rw [ht, List.append_assoc]
          rfl
        · intro c hcm
          rcases List.mem_cons.mp hcm with rfl | h
          · rfl
          · exact hcalls c h
      · rw [if_neg hc]
        exact ⟨[], by simp [Run.ok], by simp⟩

/-- The calls a sequence of pushes appends to the history are calls of the traversal. -/
theorem push_in_order_calls (w : World α ν O) (fuel : Nat) :
    ∀ (srcs : List (Option ModulePtr)) (st : State α ν O),
      ∃ t, (push_in_order w fuel srcs st).state.trace = st.trace ++ t ∧
        ∀ c, c ∈ t → is_push_call c = true := by
  intro srcs
  induction srcs with
  | nil => intro st; exact ⟨[], by simp [push_in_order, Run.ok], by simp⟩
  | cons x rest ih =>
    intro st
    obtain ⟨t1, h1, c1⟩ := push_calls w fuel x st
    unfold push_in_order
    by_cases hs : (push w fuel x st).status = Status.ok
    · rw [Run.andThen_of_status _ _ hs]
      obtain ⟨t2, h2, c2⟩ := ih (push w fuel x st).state
      refine ⟨t1 ++ t2, by rw [h2, h1, List.append_assoc], ?_⟩
      intro c hc
      rcases List.mem_append.mp hc with h | h
      · exact c1 c h
      · exact c2 c h
    · rw [Run.andThen_of_not_ok _ _ hs]
      exact ⟨t1, h1, c1⟩

/-- C17, block phase order. In every non-bypassed call of `process(output)` on a graph
within the capacities whose registered entries are not null: the first loop completes and
appends `preprocess` calls only, one per index `0 .. count-1` in index order on the
module at that index; what follows is the pushes of the event-source list and then of the
audio-source list, each list in its order and each push from the state the one before
ended in; and these pushes append no `preprocess` call, so every `preprocess` call of the
block precedes every `process` call of the block. -/
theorem process_phase_order (w : World α ν O) (fuel : Nat) (st : State α ν O)
    (hbypass : st.orchestrator.bypass_ = false)
    (hcount : st.orchestrator.nb_modules_ ≤ max_nb_modules)
    (hmodules : ∀ i, i < st.orchestrator.nb_modules_ →
      st.orchestrator.processor_modules_ i ≠ none)
    (hcap : st.orchestrator.nb_midi_input_modules_ ≤ w.max_nb_sources ∧
      st.orchestrator.nb_audio_input_modules_ ≤ w.max_nb_sources) :
    module_list st.orchestrator = (registered_modules st.orchestrator).map some ∧
    for_loop preprocess_body st.orchestrator.nb_modules_ 0 st =
      Run.ok st.preprocessed ∧
    process w fuel st =
      push_in_order w fuel
        (event_source_list st.orchestrator ++ audio_source_list st.orchestrator)
        st.preprocessed ∧
    ∃ t, (process w fuel st).state.trace =
        st.trace ++ (registered_modules st.orchestrator).map Call.preprocess ++ t ∧
      (∀ c, c ∈ t → is_push_call c = true) ∧
      (∀ c m, c ∈ t → c ≠ Call.preprocess m) ∧
      (∀ (c : Call α ν) m, c ∈ (registered_modules st.orchestrator).map Call.preprocess →
        c ≠ Call.process m) := by
  have hpre : for_loop preprocess_body st.orchestrator.nb_modules_ 0 st =
      Run.ok st.preprocessed := by
    have := preprocess_loop_trace st.orchestrator.nb_modules_ 0 st (by omega)
      (fun i _ hi => hmodules i (by omega))
    rw [this, State.preprocessed, registered_modules, List.range_eq_range']
  have hproc : process w fuel st =
      push_in_order w fuel
        (event_source_list st.orchestrator ++ audio_source_list st.orchestrator)
        st.preprocessed := by
    unfold process
    rw [hbypass, if_pos (by rfl), hpre, Run.andThen_of_status _ _ rfl, push_in_order_append]
    have h1 := source_loop_in_order w fuel st.orchestrator (push_midi_body w fuel)
      st.orchestrator.sources_midi_input_modules_ w.max_nb_sources
      (fun i s hi ho => by unfold push_midi_body; rw [if_pos hi, ho])
      st.orchestrator.nb_midi_input_modules_ 0
      st.preprocessed (by omega) rfl
    rw [← List.range_eq_range'] at h1
    have h2 := fun s hs => source_loop_in_order w fuel st.orchestrator (push_audio_body w fuel)
      st.orchestrator.sources_audio_input_modules_ w.max_nb_sources
      (fun i s hi ho => by unfold push_audio_body; rw [if_pos hi, ho])
      st.orchestrator.nb_audio_input_modules_ 0 s (by omega) hs
    rw [← List.range_eq_range'] at h2
    show (for_loop (push_midi_body w fuel) st.orchestrator.nb_midi_input_modules_ 0
      st.preprocessed).andThen _ = _
    rw [h1]
    show (push_in_order w fuel (event_source_list st.orchestrator) st.preprocessed).andThen _
      = _
    refine Run.andThen_congr _ _ _ ?_
    have ho : (push_in_order w fuel (event_source_list st.orchestrator)
        st.preprocessed).state.orchestrator
        = st.orchestrator := by
      show (push_in_order w fuel (List.map st.orchestrator.sources_midi_input_modules_
        (List.range st.orchestrator.nb_midi_input_modules_)) st.preprocessed).state.orchestrator
        = st.orchestrator
      rw [← h1]
      exact for_loop_preserves (push_midi_body w fuel)
        (fun (s : State α ν O) => s.orchestrator = st.orchestrator)
        (fun i s hs => by
          unfold push_midi_body
          split
          · exact (push_extends w fuel _ s).2.1.trans hs
          · exact hs) _ 0 _ rfl
    show for_loop (push_audio_body w fuel) _ 0 _ = _
    rw [ho]
    exact h2 _ ho
  refine ⟨?_, hpre, hproc, ?_⟩
  · unfold module_list registered_modules
    exact map_eq_map_some_filterMap _ _ (fun i hi => hmodules i (List.mem_range.mp hi))
  · obtain ⟨t, ht, hc⟩ := push_in_order_calls w fuel
      (event_source_list st.orchestrator ++ audio_source_list st.orchestrator)
      st.preprocessed
    refine ⟨t, by rw [hproc, ht]; rfl, hc, ?_, ?_⟩
    · intro c m hct he
      have := hc c hct
      rw [he] at this
      exact absurd this (by simp [is_push_call])
    · intro c m hcm he
      rw [he] at hcm
      simp at hcm
theorem push_start_append (w : World α ν O) (links : ModulePtr → List module_link)
    (h : List (Call α ν)) (tgt : ModulePtr) (post t2 : List (Call α ν)) (f1 f : Prop)
    (hp : PushStart w links h tgt post f1)
    (hhead : ∀ x, t2.head? ≠ some (Call.process x))
    (hstop : f1 → t2 = [] ∧ f) :
    PushStart w links h tgt (post ++ t2) f := by
  obtain ⟨h1, h2⟩ := hp
  constructor
  · intro hr
    rcases h1 hr with hh | ⟨he, hf⟩
    · left
      cases post with
      | nil => simp at hh
      | cons a rest => simpa using hh
    · right
      obtain ⟨ht2, hff⟩ := hstop hf
      exact ⟨by rw [he, ht2]; rfl, hff⟩
  · intro hr x
    cases post with
    | nil => simpa using hhead x
    | cons a rest => simpa using h2 hr x

theorem propagates_nil (w : World α ν O) (links : ModulePtr → List module_link)
    (done : ModulePtr → Prop) (h : List (Call α ν)) (f : Prop) :
    Propagates w links done h [] f := by
  intro pre tgt ts vals n post hsplit
  simp at hsplit

/-- The deliveries among the calls `a ++ t`: those in `a` are given, those in `t` are
deliveries with respect to the history extended by `a`. -/
theorem propagates_append (w : World α ν O) (links : ModulePtr → List module_link)
    (done done' : ModulePtr → Prop) (h a t : List (Call α ν)) (f' f : Prop)
    (h1 : ∀ pre tgt ts vals n c, a = pre ++ Call.set_input_values tgt ts vals n :: c →
      DeliveryAt w links done h pre tgt ts vals n (c ++ t) f)
    (h2 : Propagates w links done' (h ++ a) t f')
    (hd : ∀ m, done' m → done m ∨ Call.process m ∈ a)
    (hf : f' → f) :
    Propagates w links done h (a ++ t) f := by
  intro pre tgt ts vals n post hsplit
  rcases List.append_eq_append_iff.mp hsplit with ⟨b, hb1, hb2⟩ | ⟨c, hc1, hc2⟩
  · -- the call lies in `t`
    obtain ⟨pre0, m, l, e1, e2, e3, e4, e5, e6, e7, e8, e9⟩ := h2 b tgt ts vals n post hb2
    refine ⟨a ++ pre0, m, l, by rw [hb1, e1, List.append_assoc], e2, e3, e4, ?_, ?_, ?_, ?_, ?_⟩
    · rcases e5 with hdm | hin
      · rcases hd m hdm with h' | h'
        · exact Or.inl h'
        · exact Or.inr (List.mem_append_left _ h')
      · exact Or.inr (List.mem_append_right _ hin)
    · rw [← List.append_assoc]; exact e6
    · rw [← List.append_assoc]; exact e7
    · intro hr
      rw [hb1, ← List.append_assoc h a b] at hr
      rcases e8 hr with hh | ⟨he, hff⟩
      · exact Or.inl hh
      · exact Or.inr ⟨he, hf hff⟩
    · intro hr
      rw [hb1, ← List.append_assoc h a b] at hr
      exact e9 hr
  · cases c with
    | nil =>
      -- the call is the first of `t`
      simp only [List.append_nil] at hc1
      simp only [List.nil_append] at hc2
      obtain ⟨pre0, m, l, e1, _⟩ := h2 [] tgt ts vals n post hc2.symm
      simp at e1
    | cons x c' =>
      simp only [List.cons_append, List.cons.injEq] at hc2
      obtain ⟨hx, hpost⟩ := hc2
      subst hx
      rw [hpost]
      exact h1 pre tgt ts vals n c' hc1

/-- One pass of the loop over the links of a processed module makes deliveries only,
given that the pushes it starts do. -/
theorem push_link_propagates (w : World α ν O) (links : ModulePtr → List module_link)
    (rec : Option ModulePtr → State α ν O → Run (State α ν O))
    (hrec : ∀ (tgt : ModulePtr) (s : State α ν O), s.links = links →
      ∃ u, (rec (some tgt) s).state.trace = s.trace ++ u ∧
        Propagates w links (fun _ => False) s.trace u ((rec (some tgt) s).status ≠ Status.ok) ∧
        PushStart w links s.trace tgt u ((rec (some tgt) s).status ≠ Status.ok) ∧
        (rec (some tgt) s).state.links = links)
    (done : ModulePtr → Prop) (m : ModulePtr) (hm : done m) (l : module_link)
    (hl : l ∈ links m) (st : State α ν O) (hst : st.links = links) :
    ∃ t, (push_link w rec m l st).state.trace = st.trace ++ t ∧
      Propagates w links done st.trace t ((push_link w rec m l st).status ≠ Status.ok) ∧
      (∀ x, t.head? ≠ some (Call.process x)) ∧
      (push_link w rec m l st).state.links = links := by
  unfold push_link
  cases ht : l.target_module with
  | none =>
    refine ⟨[Call.get_output_values m l.source_slot_id], rfl, ?_, by simp, hst⟩
    intro pre tgt ts vals n post hsplit
    rcases pre with _ | ⟨x, pre⟩
    · simp at hsplit
    · simp at hsplit
  | some tgt =>
    obtain ⟨u, hu, hp, hs, hlk⟩ := hrec tgt
      ((st.call (Call.get_output_values m l.source_slot_id)).call
        (Call.set_input_values tgt l.target_slot_id
          (w.get_output_values m l.source_slot_id st.trace).1
          ((w.get_output_values m l.source_slot_id st.trace).2 % 256))) hst
    refine ⟨[Call.get_output_values m l.source_slot_id,
      Call.set_input_values tgt l.target_slot_id
        (w.get_output_values m l.source_slot_id st.trace).1
        ((w.get_output_values m l.source_slot_id st.trace).2 % 256)] ++ u, ?_, ?_, by simp, hlk⟩
    · simp only at hu ⊢
      rw [hu]
      simp [State.call]
    · refine propagates_append w links done (fun _ => False) st.trace _ u _ _ ?_ ?_
        (fun _ hf => absurd hf id) id
      · intro pre tgt' ts vals n c hsplit
        rcases pre with _ | ⟨x, pre⟩
        · simp at hsplit
        · rcases pre with _ | ⟨y, pre⟩
          · simp only [List.cons_append, List.nil_append, List.cons.injEq] at hsplit
            obtain ⟨hx, hy, hc⟩ := hsplit
            cases hy
            subst hx
            subst hc
            refine ⟨[], m, l, rfl, hl, ht, rfl, Or.inl hm, by simp, by simp, ?_⟩
            simpa [State.call] using hs
          · simp only [List.cons_append, List.cons.injEq] at hsplit
            obtain ⟨_, _, hc⟩ := hsplit
            rcases pre with _ | ⟨z, pre⟩ <;> simp at hc
      · simpa [State.call] using hp

theorem push_links_propagates (w : World α ν O) (links : ModulePtr → List module_link)
    (rec : Option ModulePtr → State α ν O → Run (State α ν O))
    (hrec : ∀ (tgt : ModulePtr) (s : State α ν O), s.links = links →
      ∃ u, (rec (some tgt) s).state.trace = s.trace ++ u ∧
        Propagates w links (fun _ => False) s.trace u ((rec (some tgt) s).status ≠ Status.ok) ∧
        PushStart w links s.trace tgt u ((rec (some tgt) s).status ≠ Status.ok) ∧
        (rec (some tgt) s).state.links = links)
    (done : ModulePtr → Prop) (m : ModulePtr) (hm : done m) :
    ∀ (ls : List module_link), (∀ l, l ∈ ls → l ∈ links m) →
      ∀ (st : State α ν O), st.links = links →
        ∃ t, (push_links w rec m ls st).state.trace = st.trace ++ t ∧
          Propagates w links done st.trace t ((push_links w rec m ls st).status ≠ Status.ok) ∧
          (∀ x, t.head? ≠ some (Call.process x)) ∧
          (push_links w rec m ls st).state.links = links := by
  intro ls
  induction ls with
  | nil =>
    intro _ st hst
    exact ⟨[], by simp [push_links, Run.ok], propagates_nil w links done _ _, by simp, hst⟩
  | cons l rest ih =>
    intro hls st hst
    obtain ⟨t1, e1, p1, hd1, l1⟩ := push_link_propagates w links rec hrec done m hm l
      (hls l (List.mem_cons_self _ _)) st hst
    unfold push_links
    by_cases hs : (push_link w rec m l st).status = Status.ok
    · rw [Run.andThen_of_status _ _ hs]
      obtain ⟨t2, e2, p2, hd2, l2⟩ := ih (fun l' hl' => hls l' (List.mem_cons_of_mem _ hl'))
        (push_link w rec m l st).state l1
      refine ⟨t1 ++ t2, by rw [e2, e1, List.append_assoc], ?_, ?_, l2⟩
      · rw [e1] at p2
        refine propagates_append w links done done st.trace t1 t2 _ _ ?_ p2
          (fun x hx => Or.inl hx) id
        intro pre tgt ts vals n c hsplit
        obtain ⟨pre0, m', l', a1, a2, a3, a4, a5, a6, a7, a8⟩ := p1 pre tgt ts vals n c hsplit
        refine ⟨pre0, m', l', a1, a2, a3, a4, a5, a6, a7, ?_⟩
        exact push_start_append w links _ tgt c t2 _ _ a8 hd2 (fun hf => absurd hs hf)
      · intro x
        cases t1 with
        | nil => simpa using hd2 x
        | cons a r => simpa using hd1 x
    · rw [Run.andThen_of_not_ok _ _ hs]
      exact ⟨t1, e1, p1, hd1, l1⟩

theorem push_propagates (w : World α ν O) (links : ModulePtr → List module_link)
    (fuel : Nat) :
    ∀ (m : ModulePtr) (st : State α ν O), st.links = links →
      ∃ t, (push w fuel (some m) st).state.trace = st.trace ++ t ∧
        Propagates w links (fun _ => False) st.trace t
          ((push w fuel (some m) st).status ≠ Status.ok) ∧
        PushStart w links st.trace m t ((push w fuel (some m) st).status ≠ Status.ok) ∧
        (push w fuel (some m) st).state.links = links := by
  induction fuel with
  | zero =>
    intro m st hst
    refine ⟨[], by simp [push], propagates_nil w links _ _ _, ?_, hst⟩
    exact ⟨fun _ => Or.inr ⟨rfl, by simp [push]⟩, fun _ x => by simp⟩
  | succ k ih =>
    intro m st hst
    unfold push
    by_cases hc : w.can_process m st.links st.trace = true
    · rw [if_pos hc]
      have hlm : st.links m = links m := by rw [hst]
      obtain ⟨t, e, p, hd, lk⟩ := push_links_propagates w links (push w k) ih
        (fun x => x = m) m rfl (links m) (fun _ h => h)
        { st with
          trace := st.trace ++ [Call.process m]
          output := w.process m st.trace st.output } hst
      simp only
      rw [hlm]
      refine ⟨[Call.process m] ++ t, ?_, ?_, ?_, lk⟩
      · rw [e, List.append_assoc]
      · refine propagates_append w links (fun _ => False) (fun x => x = m) st.trace _ t _ _ ?_ p
          (fun x hx => Or.inr (by rw [hx]; simp)) id
        intro pre tgt ts vals n c hsplit
        rcases pre with _ | ⟨x, pre⟩
        · simp at hsplit
        · simp only [List.cons_append, List.cons.injEq] at hsplit
          obtain ⟨_, hc'⟩ := hsplit
          rcases pre with _ | ⟨z, pre⟩ <;> simp at hc'
      · refine ⟨fun _ => Or.inl rfl, fun hr => ?_⟩
        rw [← hst, hc] at hr
        exact absurd hr (by simp)
    · rw [if_neg hc]
      refine ⟨[], by simp [Run.ok], propagates_nil w links _ _ _, ?_, hst⟩
      refine ⟨fun hr => ?_, fun _ x => by simp⟩
      rw [← hst] at hr
      exact absurd hr hc

theorem delivers_nil (w : World α ν O) (links : ModulePtr → List module_link)
    (h : List (Call α ν)) : Delivers w links h [] := by
  intro pre m post hsplit
  simp at hsplit

/-- The `process` calls among the calls `a ++ t`: for those in `a` the deliveries are
given, those in `t` have them with respect to the history extended by `a`. -/
theorem delivers_append (w : World α ν O) (links : ModulePtr → List module_link)
    (h a t : List (Call α ν))
    (h1 : ∀ pre m c, a = pre ++ Call.process m :: c → ∀ l, l ∈ links m →
      ∃ tgt x b, l.target_module = some tgt ∧
        c ++ t = x ++ Call.get_output_values m l.source_slot_id ::
          Call.set_input_values tgt l.target_slot_id
            (w.get_output_values m l.source_slot_id (h ++ pre ++ Call.process m :: x)).1
            ((w.get_output_values m l.source_slot_id (h ++ pre ++ Call.process m :: x)).2 % 256)
          :: b)
    (h2 : Delivers w links (h ++ a) t) :
    Delivers w links h (a ++ t) := by
  intro pre m post hsplit l hl
  rcases List.append_eq_append_iff.mp hsplit with ⟨b, hb1, hb2⟩ | ⟨c, hc1, hc2⟩
  · obtain ⟨tgt, x, y, e1, e2⟩ := h2 b m post hb2 l hl
    refine ⟨tgt, x, y, e1, ?_⟩
    rw [e2, hb1]
    simp only [List.append_assoc]
  · cases c with
    | nil =>
      simp only [List.append_nil] at hc1
      simp only [List.nil_append] at hc2
      obtain ⟨tgt, x, y, e1, e2⟩ := h2 [] m post hc2.symm l hl
      refine ⟨tgt, x, y, e1, ?_⟩
      rw [e2, ← hc1]
      simp only [List.append_nil]
    | cons z c' =>
      simp only [List.cons_append, List.cons.injEq] at hc2
      obtain ⟨hz, hpost⟩ := hc2
      subst hz
      rw [hpost]
      exact h1 pre m c' hc1 l hl

/-- A completed pass of the loop over the links delivers over its link, given that the
pushes it starts leave no processed module without deliveries. -/
theorem push_link_delivers (w : World α ν O) (links : ModulePtr → List module_link)
    (rec : Option ModulePtr → State α ν O → Run (State α ν O))
    (hrec : ∀ (tgt : ModulePtr) (s : State α ν O), s.links = links →
      (rec (some tgt) s).status = Status.ok →
      ∃ u, (rec (some tgt) s).state.trace = s.trace ++ u ∧ Delivers w links s.trace u ∧
        (rec (some tgt) s).state.links = links)
    (m : ModulePtr) (l : module_link) (st : State α ν O) (hst : st.links = links)
    (hok : (push_link w rec m l st).status = Status.ok) :
    ∃ tgt u, l.target_module = some tgt ∧
      (push_link w rec m l st).state.trace = st.trace ++
        (Call.get_output_values m l.source_slot_id ::
          Call.set_input_values tgt l.target_slot_id
            (w.get_output_values m l.source_slot_id st.trace).1
            ((w.get_output_values m l.source_slot_id st.trace).2 % 256) :: u) ∧
      Delivers w links st.trace
        (Call.get_output_values m l.source_slot_id ::
          Call.set_input_values tgt l.target_slot_id
            (w.get_output_values m l.source_slot_id st.trace).1
            ((w.get_output_values m l.source_slot_id st.trace).2 % 256) :: u) ∧
      (push_link w rec m l st).state.links = links := by
  unfold push_link at hok ⊢
  cases ht : l.target_module with
  | none =>
    rw [ht] at hok
    exact Status.noConfusion hok
  | some tgt =>
    rw [ht] at hok
    obtain ⟨u, hu, hd, hlk⟩ := hrec tgt
      ((st.call (Call.get_output_values m l.source_slot_id)).call
        (Call.set_input_values tgt l.target_slot_id
          (w.get_output_values m l.source_slot_id st.trace).1
          ((w.get_output_values m l.source_slot_id st.trace).2 % 256))) hst hok
    refine ⟨tgt, u, rfl, ?_, ?_, hlk⟩
    · simp only at hu ⊢
      rw [hu]
      simp [State.call]
    · have := delivers_append w links st.trace
        [Call.get_output_values m l.source_slot_id,
          Call.set_input_values tgt l.target_slot_id
            (w.get_output_values m l.source_slot_id st.trace).1
            ((w.get_output_values m l.source_slot_id st.trace).2 % 256)] u
        (by
          intro pre x c hsplit
          rcases pre with _ | ⟨y, pre⟩
          · simp at hsplit
          · rcases pre with _ | ⟨z, pre⟩
            · simp at hsplit
            · simp only [List.cons_append, List.cons.injEq] at hsplit
              obtain ⟨_, _, hc⟩ := hsplit
              rcases pre with _ | ⟨z', pre⟩ <;> simp at hc)
        (by simpa [State.call] using hd)
      simpa using this

theorem push_links_delivers (w : World α ν O) (links : ModulePtr → List module_link)
    (rec : Option ModulePtr → State α ν O → Run (State α ν O))
    (hrec : ∀ (tgt : ModulePtr) (s : State α ν O), s.links = links →
      (rec (some tgt) s).status = Status.ok →
      ∃ u, (rec (some tgt) s).state.trace = s.trace ++ u ∧ Delivers w links s.trace u ∧
        (rec (some tgt) s).state.links = links)
    (m : ModulePtr) :
    ∀ (ls : List module_link) (st : State α ν O), st.links = links →
      (push_links w rec m ls st).status = Status.ok →
      ∃ t, (push_links w rec m ls st).state.trace = st.trace ++ t ∧
        Delivers w links st.trace t ∧
        (∀ l, l ∈ ls → ∃ tgt a b, l.target_module = some tgt ∧
          t = a ++ Call.get_output_values m l.source_slot_id ::
            Call.set_input_values tgt l.target_slot_id
              (w.get_output_values m l.source_slot_id (st.trace ++ a)).1
              ((w.get_output_values m l.source_slot_id (st.trace ++ a)).2 % 256) :: b) ∧
        (push_links w rec m ls st).state.links = links := by
  intro ls
  induction ls with
  | nil =>
    intro st hst _
    exact ⟨[], by simp [push_links, Run.ok], delivers_nil w links _,
      fun l hl => absurd hl (List.not_mem_nil l), hst⟩
  | cons l rest ih =>
    intro st hst hok
    unfold push_links at hok ⊢
    obtain ⟨hok1, hok2⟩ := Run.andThen_status _ _ hok
    rw [Run.andThen_of_status _ _ hok1]
    obtain ⟨tgt, u, e0, e1, d1, l1⟩ := push_link_delivers w links rec hrec m l st hst hok1
    obtain ⟨t2, e2, d2, c2, l2⟩ := ih (push_link w rec m l st).state l1 hok2
    rw [e1] at e2 d2 c2
    refine ⟨_ ++ t2, e2.trans (List.append_assoc _ _ _), ?_, ?_, l2⟩
    · refine delivers_append w links st.trace _ t2 ?_ d2
      intro pre x c hsplit l' hl'
      obtain ⟨tgt', a, b, f1, f2⟩ := d1 pre x c hsplit l' hl'
      exact ⟨tgt', a, b ++ t2, f1, by rw [f2]; simp⟩
    · intro l' hl'
      rcases List.mem_cons.mp hl' with rfl | hr
      · exact ⟨tgt, [], u ++ t2, e0, by simp⟩
      · obtain ⟨tgt', a, b, f1, f2⟩ := c2 l' hr
        refine ⟨tgt', (Call.get_output_values m l.source_slot_id ::
          Call.set_input_values tgt l.target_slot_id
            (w.get_output_values m l.source_slot_id st.trace).1
            ((w.get_output_values m l.source_slot_id st.trace).2 % 256) :: u) ++ a, b, f1, ?_⟩
        rw [f2]
        simp only [List.append_assoc]

theorem push_delivers (w : World α ν O) (links : ModulePtr → List module_link)
    (fuel : Nat) :
    ∀ (m : ModulePtr) (st : State α ν O), st.links = links →
      (push w fuel (some m) st).status = Status.ok →
      ∃ t, (push w fuel (some m) st).state.trace = st.trace ++ t ∧
        Delivers w links st.trace t ∧ (push w fuel (some m) st).state.links = links := by
  induction fuel with
  | zero =>
    intro m st _ hok
    exact Status.noConfusion hok
  | succ k ih =>
    intro m st hst hok
    unfold push at hok ⊢
    by_cases hc : w.can_process m st.links st.trace = true
    · rw [if_pos hc] at hok ⊢
      have hlm : st.links m = links m := by rw [hst]
      simp only at hok ⊢
      rw [hlm] at hok ⊢
      obtain ⟨t, e, d, c, lk⟩ := push_links_delivers w links (push w k) ih m (links m)
        { st with
          trace := st.trace ++ [Call.process m]
          output := w.process m st.trace st.output } hst hok
      refine ⟨[Call.process m] ++ t, by rw [e, List.append_assoc], ?_, lk⟩
      refine delivers_append w links st.trace [Call.process m] t ?_ d
      intro pre x c' hsplit l hl
      rcases pre with _ | ⟨y, pre⟩
      · simp only [List.nil_append, List.cons.injEq, Call.process.injEq] at hsplit
        obtain ⟨hx, hc'⟩ := hsplit
        subst hx
        subst hc'
        obtain ⟨tgt, a, b, f1, f2⟩ := c l hl
        refine ⟨tgt, a, b, f1, ?_⟩
        simpa using f2
      · simp only [List.cons_append, List.cons.injEq] at hsplit
        obtain ⟨_, hc'⟩ := hsplit
        rcases pre with _ | ⟨z, pre⟩ <;> simp at hc'
    · rw [if_neg hc]
      exact ⟨[], by simp [Run.ok], delivers_nil w links _, hst⟩

/-- C18, value propagation. The traversal started by a push only appends calls. Every
`set_input_values(ts, vals, n)` call it makes on a module `tgt` is the delivery over a
link of a processed module: the call directly before it is `get_output_values(source_slot)`
on a module `m` that has a link from that slot to slot `ts` of `tgt`, the `process` call
on `m` was made earlier in the traversal, and `vals` and `n` are what `m` returned to
that `get_output_values` call (the count narrowed to `uint_fast8_t`, so the count itself
when it is below 256). The push of `tgt` starts right after the delivery: if `tgt` is
ready on the history that includes the delivery, the next call is `process` on `tgt`
(unless the traversal stopped there, which a completed traversal did not), and if it is
not ready, no `process` call comes next. And in a traversal that completed, every module
that was processed has delivered over every one of its links: after its `process` call
come, for each link, `get_output_values` on the module and directly after it
`set_input_values` on the link's target with the values and the count returned. -/
theorem push_value_propagation (w : World α ν O) (fuel : Nat) (source_module : ModulePtr)
    (st : State α ν O) :
    ∃ t, (push w fuel (some source_module) st).state.trace = st.trace ++ t ∧
      (∀ pre tgt ts vals n post, t = pre ++ Call.set_input_values tgt ts vals n :: post →
        ∃ pre0 m l, pre = pre0 ++ [Call.get_output_values m l.source_slot_id] ∧
          l ∈ st.links m ∧ l.target_module = some tgt ∧ l.target_slot_id = ts ∧
          Call.process m ∈ pre0 ∧
          vals = (w.get_output_values m l.source_slot_id (st.trace ++ pre0)).1 ∧
          n = (w.get_output_values m l.source_slot_id (st.trace ++ pre0)).2 % 256 ∧
          ((w.get_output_values m l.source_slot_id (st.trace ++ pre0)).2 < 256 →
            (vals, n) = w.get_output_values m l.source_slot_id (st.trace ++ pre0)) ∧
          (w.can_process tgt st.links
              (st.trace ++ pre ++ [Call.set_input_values tgt ts vals n]) = true →
            post.head? = some (Call.process tgt) ∨
              (post = [] ∧ (push w fuel (some source_module) st).status ≠ Status.ok)) ∧
          (w.can_process tgt st.links
              (st.trace ++ pre ++ [Call.set_input_values tgt ts vals n]) = false →
            ∀ x, post.head? ≠ some (Call.process x))) ∧
      ((push w fuel (some source_module) st).status = Status.ok →
        ∀ pre m post, t = pre ++ Call.process m :: post → ∀ l, l ∈ st.links m →
          ∃ tgt a b, l.target_module = some tgt ∧
            post = a ++ Call.get_output_values m l.source_slot_id ::
              Call.set_input_values tgt l.target_slot_id
                (w.get_output_values m l.source_slot_id
                  (st.trace ++ pre ++ Call.process m :: a)).1
                ((w.get_output_values m l.source_slot_id
                  (st.trace ++ pre ++ Call.process m :: a)).2 % 256) :: b) := by
  obtain ⟨t, e, p, _, _⟩ := push_propagates w st.links fuel source_module st rfl
  refine ⟨t, e, ?_, ?_⟩
  · intro pre tgt ts vals n post hsplit
    obtain ⟨pre0, m, l, a1, a2, a3, a4, a5, a6, a7, a8, a9⟩ := p pre tgt ts vals n post hsplit
    refine ⟨pre0, m, l, a1, a2, a3, a4, ?_, a6, a7, ?_, a8, a9⟩
    · rcases a5 with h | h
      · exact absurd h id
      · exact h
    · intro hlt
      rw [a6, a7, Nat.mod_eq_of_lt hlt]
  · intro hok
    obtain ⟨t2, e2, d, _⟩ := push_delivers w st.links fuel source_module st rfl hok
    have ht : t = t2 := List.append_cancel_left (e.symm.trans e2)
    rw [ht]
    exact d
theorem raises_refl (fails : ModulePtr → List (Call α ν) → Bool) (st : State α ν O)
    (status : Status) (h : status ≠ Status.raised) : Raises fails st ⟨status, st⟩ := by
  refine ⟨[], by simp, fun hr => absurd hr h, ?_⟩
  intro _ pre m post hsplit
  simp at hsplit

theorem raises_call (fails : ModulePtr → List (Call α ν) → Bool) (st : State α ν O)
    (c : Call α ν) (hc : ∀ x, c ≠ Call.process x) : Raises fails st (Run.ok (st.call c)) := by
  refine ⟨[c], rfl, fun hr => Status.noConfusion hr, ?_⟩
  intro _ pre m post hsplit
  rcases pre with _ | ⟨y, pre⟩
  · simp only [List.nil_append, List.cons.injEq] at hsplit
    exact absurd hsplit.1 (hc m)
  · simp only [List.cons_append, List.cons.injEq] at hsplit
    rcases pre with _ | ⟨z, pre⟩ <;> simp at hsplit

theorem unfailing_append (fails : ModulePtr → List (Call α ν) → Bool)
    (h t1 t2 : List (Call α ν)) (h1 : Unfailing fails h t1) (h2 : Unfailing fails (h ++ t1) t2) :
    Unfailing fails h (t1 ++ t2) := by
  intro pre m post hsplit
  rcases List.append_eq_append_iff.mp hsplit with ⟨b, hb1, hb2⟩ | ⟨c, hc1, hc2⟩
  · have := h2 b m post hb2
    rw [hb1, ← List.append_assoc]
    exact this
  · cases c with
    | nil =>
      simp only [List.append_nil] at hc1
      simp only [List.nil_append] at hc2
      have := h2 [] m post hc2.symm
      rw [← hc1]
      simpa using this
    | cons x c' =>
      simp only [List.cons_append, List.cons.injEq] at hc2
      obtain ⟨hx, _⟩ := hc2
      subst hx
      exact h1 pre m c' hc1

/-- A run that completed, followed by another run. -/
theorem raises_trans (fails : ModulePtr → List (Call α ν) → Bool) (st : State α ν O)
    (r1 r2 : Run (State α ν O)) (h1 : Raises fails st r1) (hok : r1.status = Status.ok)
    (h2 : Raises fails r1.state r2) : Raises fails st r2 := by
  obtain ⟨t1, e1, _, u1⟩ := h1
  obtain ⟨t2, e2, f2, u2⟩ := h2
  have hu1 := u1 (by rw [hok]; exact fun h => Status.noConfusion h)
  rw [e1] at e2 f2 u2
  refine ⟨t1 ++ t2, by rw [e2, List.append_assoc], ?_, ?_⟩
  · intro hr
    obtain ⟨pre, m, hp, hf, hu⟩ := f2 hr
    refine ⟨t1 ++ pre, m, by rw [hp, List.append_assoc], by rw [← List.append_assoc]; exact hf, ?_⟩
    exact unfailing_append fails _ _ _ hu1 hu
  · intro hr
    exact unfailing_append fails _ _ _ hu1 (u2 hr)

theorem raises_andThen (fails : ModulePtr → List (Call α ν) → Bool) (st : State α ν O)
    (r : Run (State α ν O)) (f : State α ν O → Run (State α ν O))
    (h1 : Raises fails st r) (h2 : ∀ s, Raises fails s (f s)) :
    Raises fails st (r.andThen f) := by
  by_cases hok : r.status = Status.ok
  · rw [Run.andThen_of_status _ _ hok]
    exact raises_trans fails st r _ h1 hok (h2 _)
  · rw [Run.andThen_of_not_ok _ _ hok]
    exact h1

theorem raises_for_loop (fails : ModulePtr → List (Call α ν) → Bool)
    (body : Nat → State α ν O → Run (State α ν O))
    (hbody : ∀ i s, Raises fails s (body i s)) (count : Nat) :
    ∀ (i : Nat) (s : State α ν O), Raises fails s (for_loop body count i s) := by
  induction count with
  | zero => intro i s; exact raises_refl fails s Status.ok (fun h => Status.noConfusion h)
  | succ n ih =>
    intro i s
    unfold for_loop
    exact raises_andThen fails s _ _ (hbody i s) (fun s' => ih (i + 1) s')

theorem push_raising_raises (w : World α ν O) (fails : ModulePtr → List (Call α ν) → Bool)
    (fuel : Nat) :
    ∀ (src : Option ModulePtr) (st : State α ν O),
      Raises fails st (push_raising w fails fuel src st) := by
  induction fuel with
  | zero => intro src st; exact raises_refl fails st _ (fun h => Status.noConfusion h)
  | succ k ih =>
    intro src st
    cases src with
    | none => exact raises_refl fails st _ (fun h => Status.noConfusion h)
    | some m =>
      have hlink : ∀ (l : module_link) (s : State α ν O),
          Raises fails s (push_link w (push_raising w fails k) m l s) := by
        intro l s
        unfold push_link
        have g := raises_call fails s (Call.get_output_values m l.source_slot_id)
          (fun x h => Call.noConfusion h)
        cases ht : l.target_module with
        | none =>
          obtain ⟨t, e, _, u⟩ := g
          exact ⟨t, e, fun hr => Status.noConfusion hr,
            fun _ => u (fun h => Status.noConfusion h)⟩
        | some tgt =>
          have g2 := raises_call fails (s.call (Call.get_output_values m l.source_slot_id))
            (Call.set_input_values tgt l.target_slot_id
              (w.get_output_values m l.source_slot_id s.trace).1
              ((w.get_output_values m l.source_slot_id s.trace).2 % 256))
            (fun x h => Call.noConfusion h)
          exact raises_trans fails s _ _ g rfl (raises_trans fails _ _ _ g2 rfl (ih _ _))
      have hlinks : ∀ (ls : List module_link) (s : State α ν O),
          Raises fails s (push_links w (push_raising w fails k) m ls s) := by
        intro ls
        induction ls with
        | nil => intro s; exact raises_refl fails s Status.ok (fun h => Status.noConfusion h)
        | cons l rest ihl =>
          intro s
          unfold push_links
          exact raises_andThen fails s _ _ (hlink l s) ihl
      unfold push_raising
      by_cases hc : w.can_process m st.links st.trace = true
      · rw [if_pos hc]
        by_cases hf : fails m st.trace = true
        · rw [if_pos hf]
          refine ⟨[Call.process m], rfl, fun _ => ⟨[], m, rfl, by simpa using hf, ?_⟩,
            fun h => absurd rfl h⟩
          intro pre x post hsplit
          simp at hsplit
        · rw [if_neg hf]
          have hstep : Raises fails st (Run.ok
              ({ st with
                trace := st.trace ++ [Call.process m]
                output := w.process m st.trace st.output } : State α ν O)) := by
            refine ⟨[Call.process m], rfl, fun hr => Status.noConfusion hr, ?_⟩
            intro _ pre x post hsplit
            rcases pre with _ | ⟨y, pre⟩
            · simp only [List.nil_append, List.cons.injEq, Call.process.injEq] at hsplit
              rw [← hsplit.1]
              simpa using hf
            · simp only [List.cons_append, List.cons.injEq] at hsplit
              rcases pre with _ | ⟨z, pre⟩ <;> simp at hsplit
          exact raises_trans fails st _ _ hstep rfl (hlinks _ _)
      · rw [if_neg hc]
        exact raises_refl fails st Status.ok (fun h => Status.noConfusion h)

/-- Where no `process` throws, `push_raising` is `push`. -/
theorem push_raising_never (w : World α ν O) (fuel : Nat) :
    push_raising w (fun _ _ => false) fuel = push w fuel := by
  induction fuel with
  | zero => funext src st; rfl
  | succ k ih =>
    funext src st
    cases src with
    | none => rfl
    | some m =>
      unfold push_raising push
      rw [ih]
      simp

/-- C19 as the code has it. Neither `process(output)` nor the traversal has a `try`
block, so a failure of a module's `process` is not absorbed. A push of a ready module
whose `process` throws ends in `raised` with that call as its only call. Every push and
every block only append calls; one that ends in `raised` made the call that threw as its
last call (nothing is delivered or pushed after it, and the source modules that were
still to be pushed are not pushed), and one that ends otherwise made no call that threw.
Where no `process` throws, the block is the block of `process`. -/
theorem process_raising_propagates (w : World α ν O)
    (fails : ModulePtr → List (Call α ν) → Bool) (fuel : Nat) (st : State α ν O) :
    (∀ m, w.can_process m st.links st.trace = true → fails m st.trace = true →
      push_raising w fails (fuel + 1) (some m) st =
        ⟨Status.raised, st.call (Call.process m)⟩) ∧
    (∀ src, ∃ t, (push_raising w fails fuel src st).state.trace = st.trace ++ t ∧
      ((push_raising w fails fuel src st).status = Status.raised →
        ∃ pre m, t = pre ++ [Call.process m] ∧ fails m (st.trace ++ pre) = true ∧
          Unfailing fails st.trace pre) ∧
      ((push_raising w fails fuel src st).status ≠ Status.raised →
        Unfailing fails st.trace t)) ∧
    (∃ t, (process_raising w fails fuel st).state.trace = st.trace ++ t ∧
      ((process_raising w fails fuel st).status = Status.raised →
        ∃ pre m, t = pre ++ [Call.process m] ∧ fails m (st.trace ++ pre) = true ∧
          Unfailing fails st.trace pre) ∧
      ((process_raising w fails fuel st).status ≠ Status.raised →
        Unfailing fails st.trace t)) ∧
    process_raising w (fun _ _ => false) fuel st = process w fuel st := by
  refine ⟨?_, fun src => push_raising_raises w fails fuel src st, ?_, ?_⟩
  · intro m hc hf
    unfold push_raising
    rw [if_pos hc, if_pos hf]
  · show Raises fails st (process_raising w fails fuel st)
    unfold process_raising
    split
    · refine raises_andThen fails st _ _ ?_ (fun s1 => raises_andThen fails s1 _ _ ?_ ?_)
      · refine raises_for_loop fails _ (fun i s => ?_) _ 0 st
        unfold preprocess_body
        split
        · unfold call_on
          split
          · exact raises_refl fails s _ (fun h => Status.noConfusion h)
          · exact raises_call fails s _ (fun x h => Call.noConfusion h)
        · exact raises_refl fails s _ (fun h => Status.noConfusion h)
      · refine raises_for_loop fails _ (fun i s => ?_) _ 0 s1
        unfold push_midi_raising_body
        split
        · exact push_raising_raises w fails fuel _ s
        · exact raises_refl fails s _ (fun h => Status.noConfusion h)
      · intro s2
        refine raises_for_loop fails _ (fun i s => ?_) _ 0 s2
        unfold push_audio_raising_body
        split
        · exact push_raising_raises w fails fuel _ s
        · exact raises_refl fails s _ (fun h => Status.noConfusion h)
    · exact raises_refl fails st _ (fun h => Status.noConfusion h)
  · have hm : push_midi_raising_body w (fun _ _ => false) fuel = push_midi_body w fuel := by
      funext i s
      unfold push_midi_raising_body push_midi_body
      rw [push_raising_never]
    have ha : push_audio_raising_body w (fun _ _ => false) fuel = push_audio_body w fuel := by
      funext i s
      unfold push_audio_raising_body push_audio_body
      rw [push_raising_never]
    unfold process_raising process
    rw [hm, ha]

/-- C19 as stated fails. A = 0 and B = 1 are event sources, A has the child C = 2, and
the `process` of A throws. The block does not return normally: it ends in `raised` right
after the call on A, and B, the source that was still to be pushed, is not processed.
Without the failure B is processed. -/
theorem failure_leaves_the_block :
    (process_raising two_sources_world (fails_on 0) 5 two_sources).status = Status.raised ∧
    (process_raising two_sources_world (fails_on 0) 5 two_sources).state.trace =
      [Call.preprocess 0, Call.preprocess 1, Call.preprocess 2, Call.process 0] ∧
    (process two_sources_world 5 two_sources).status = Status.ok ∧
    Call.process 1 ∈ (process two_sources_world 5 two_sources).state.trace := by
  decide
/-- The registration theorem at the empty graph: the event source 5 gets index 0 and is
entered in the event-source list only. -/
theorem add_processor_module_registers_solo :
    (add_processor_module solo_world (some 5) empty_graph).status = Status.ok ∧
    get_nb_processors (add_processor_module solo_world (some 5) empty_graph).state =
      get_nb_processors empty_graph + 1 ∧
    get_processor (empty_graph.orchestrator.nb_modules_ : Int)
      (add_processor_module solo_world (some 5) empty_graph).state = some (some 5) ∧
    (∀ i, i < empty_graph.orchestrator.nb_modules_ →
      (add_processor_module solo_world (some 5) empty_graph).state.orchestrator.processor_modules_ i =
        empty_graph.orchestrator.processor_modules_ i) ∧
    event_source_list (add_processor_module solo_world (some 5) empty_graph).state.orchestrator =
      event_source_list empty_graph.orchestrator ++ [some 5] ∧
    audio_source_list (add_processor_module solo_world (some 5) empty_graph).state.orchestrator =
      audio_source_list empty_graph.orchestrator :=
  add_processor_module_registers solo_world 5 empty_graph (by decide)
    (fun _ => by decide) (fun h => absurd h (by decide))

/-- The reset theorem at the diamond: after `clear()` and after `terminate()` the event
source A = 0, added again, is at index 0. -/
theorem clear_and_terminate_reset_diamond :
    (get_nb_processors (clear diamond) = 0 ∧
      (add_processor_module diamond_world (some 0) (clear diamond)).status = Status.ok ∧
      get_processor 0 (add_processor_module diamond_world (some 0) (clear diamond)).state =
        some (some 0) ∧
      get_nb_processors (add_processor_module diamond_world (some 0) (clear diamond)).state = 1) ∧
    ((terminate diamond).status = Status.ok ∧
      get_nb_processors (terminate diamond).state = 0 ∧
      (add_processor_module diamond_world (some 0) (terminate diamond).state).status =
        Status.ok ∧
      get_processor 0 (add_processor_module diamond_world (some 0) (terminate diamond).state).state =
        some (some 0) ∧
      get_nb_processors (add_processor_module diamond_world (some 0) (terminate diamond).state).state
        = 1) :=
  clear_and_terminate_reset diamond_world 0 diamond (by decide)
    (fun _ => by decide) (fun h => absurd h (by decide))

/-- The diamond has four modules: `delete_processor(7)` completes and leaves three, and
`link_modules` with 7 as source calls through the null pointer at index 7. -/
theorem out_of_range_unchecked_diamond :
    ((delete_processor 7 diamond).status = Status.ok ∧
      (delete_processor 7 diamond).state.orchestrator =
        { diamond.orchestrator with nb_modules_ := 3 }) ∧
    link_modules 7 0 1 0 diamond = Run.undefined diamond :=
  ⟨(out_of_range_unchecked 7 diamond (by decide) (by decide) (by decide)).1 (by decide),
    ((out_of_range_unchecked 7 diamond (by decide) (by decide) (by decide)).2.1 (by decide)
      0 1 0).1⟩

/-- The phase order theorem at the diamond: the block starts with the `preprocess` calls
on A, B, C and D and goes on with the pushes of the only source, A. -/
theorem process_phase_order_diamond :
    for_loop preprocess_body diamond.orchestrator.nb_modules_ 0 diamond =
      Run.ok diamond.preprocessed ∧
    process diamond_world 5 diamond =
      push_in_order diamond_world 5
        (event_source_list diamond.orchestrator ++ audio_source_list diamond.orchestrator)
        diamond.preprocessed ∧
    diamond.preprocessed.trace =
      [Call.preprocess 0, Call.preprocess 1, Call.preprocess 2, Call.preprocess 3] ∧
    event_source_list diamond.orchestrator ++ audio_source_list diamond.orchestrator =
      [some 0] :=
  ⟨(process_phase_order diamond_world 5 diamond (by decide) (by decide) (by decide)
      (by decide)).2.1,
    (process_phase_order diamond_world 5 diamond (by decide) (by decide) (by decide)
      (by decide)).2.2.1, by decide, by decide⟩

/-- The termination theorem at the diamond with the parent E, which has 5 modules: a
block with the recursion budget 7 completes, with the result of the budget 6. -/
theorem push_terminates_fed_diamond :
    (process fed_diamond_world 7 fed_diamond).status = Status.ok ∧
    process fed_diamond_world 7 fed_diamond =
      process fed_diamond_world (fed_diamond.orchestrator.nb_modules_ + 1) fed_diamond :=
  (push_terminates fed_diamond_world fed_diamond
    (no_cycle_of_rank fed_diamond.links fed_diamond_rank
      (fun p l hl => link_descends_spec fed_diamond_rank p l
        (links_of_forall fed_diamond_table
          (fun p l => link_descends fed_diamond_rank p l = true) (by decide) p l hl)))
    (fun p l hl => link_registered_spec fed_diamond.orchestrator l
      (links_of_forall fed_diamond_table
        (fun _ l => link_registered fed_diamond.orchestrator l = true) (by decide) p l hl))
    (by decide) (by decide) (by decide) (by decide)).2.2.2 7 (by decide)

/-- The propagation theorem at the diamond. The push of A = 0 completes with the calls
listed, and the theorem yields, for the `process` call on A and its second link A->C, a
delivery among the calls that follow: `get_output_values(0)` on A directly followed by
`set_input_values(0, ...)` on C with what A returned. -/
theorem push_value_propagation_diamond :
    (push diamond_world 5 (some 0) diamond).status = Status.ok ∧
    (push diamond_world 5 (some 0) diamond).state.trace = diamond.trace ++
      [Call.process 0,
        Call.get_output_values 0 0, Call.set_input_values 1 0 [some (module_output.owned 0)] 1,
        Call.process 1,
        Call.get_output_values 1 0, Call.set_input_values 3 0 [some (module_output.owned 32)] 1,
        Call.get_output_values 0 0, Call.set_input_values 2 0 [some (module_output.owned 0)] 1,
        Call.process 2,
        Call.get_output_values 2 0, Call.set_input_values 3 1 [some (module_output.owned 64)] 1,
        Call.process 3] ∧
    ∃ tgt a b, (link_to 0 2 0).target_module = some tgt ∧
      [Call.get_output_values 0 0, Call.set_input_values 1 0 [some (module_output.owned 0)] 1,
        Call.process 1,
        Call.get_output_values 1 0, Call.set_input_values 3 0 [some (module_output.owned 32)] 1,
        Call.get_output_values 0 0, Call.set_input_values 2 0 [some (module_output.owned 0)] 1,
        Call.process 2,
        Call.get_output_values 2 0, Call.set_input_values 3 1 [some (module_output.owned 64)] 1,
        Call.process 3] =
      a ++ Call.get_output_values 0 (link_to 0 2 0).source_slot_id ::
        Call.set_input_values tgt (link_to 0 2 0).target_slot_id
          (diamond_world.get_output_values 0 (link_to 0 2 0).source_slot_id
            (diamond.trace ++ [] ++ Call.process 0 :: a)).1
          ((diamond_world.get_output_values 0 (link_to 0 2 0).source_slot_id
            (diamond.trace ++ [] ++ Call.process 0 :: a)).2 % 256) :: b := by
  obtain ⟨t, e, _, hc⟩ := push_value_propagation diamond_world 5 0 diamond
  have ht : t = [Call.process 0,
      Call.get_output_values 0 0, Call.set_input_values 1 0 [some (module_output.owned 0)] 1,
      Call.process 1,
      Call.get_output_values 1 0, Call.set_input_values 3 0 [some (module_output.owned 32)] 1,
      Call.get_output_values 0 0, Call.set_input_values 2 0 [some (module_output.owned 0)] 1,
      Call.process 2,
      Call.get_output_values 2 0, Call.set_input_values 3 1 [some (module_output.owned 64)] 1,
      Call.process 3] :=
    List.append_cancel_left (e.symm.trans (by decide))
  exact ⟨by decide, by decide, hc (by decide) [] 0 _ ht (link_to 0 2 0) (by decide)⟩

end TriTone
